import Mathlib

/-!
# Fillwords Towers: the puzzle engine of `script.js`

A shallow embedding of the game logic of `src/script.js` (letter sorter, level
generator, tile availability rule, selection and word matching) and theorems
about it.

Conventions of the embedding.

* A JavaScript string is a sequence of UTF-16 code units; `word.split('')`
  yields exactly those units.  A word is therefore a `List Char`, one `Char`
  per code unit, and `join('')` of one-unit strings is the list itself.
* `Math.random()` is an environment stream `Rand`: every call consumes the next
  raw draw.  `Math.floor(Math.random() * n)` is the draw reduced modulo `n`,
  which ranges over all of `0 .. n-1` as the stream varies.
* A tile id is the string `tile-${Date.now()}-${Math.random()}`; it is
  represented by the raw draw of its `Math.random()` call.
* Mutation of the global `gameState` is explicit state passing.
-/

namespace Fillwords

/-! ## Environment and basic data -/

/-- A word: the UTF-16 code units of a JavaScript string. -/
abbrev Word := List Char

deriving instance DecidableEq for Except

/-- The stream of raw `Math.random()` draws still to be consumed. -/
abbrev Rand := Nat → Nat

/-- The stream after one `Math.random()` call. -/
def Rand.next (r : Rand) : Rand := fun k => r (k + 1)

/-- `Math.floor(Math.random() * n)` on the current draw. -/
def Rand.floorMul (r : Rand) (n : Nat) : Nat := r 0 % n

/-- `[a[i], a[j]] = [a[j], a[i]]`: exchange the entries at `i` and `j`. -/
def swapAt {α : Type} (a : List α) (i j : Nat) : List α :=
  match a[i]?, a[j]? with
  | some x, some y => (a.set i y).set j x
  | _, _ => a

/-- The loop of `shuffleArray`, entered with loop variable `i`:
`for (; i > 0; i--) { j = floor(random * (i + 1)); swap(i, j) }`. -/
def shuffleLoop {α : Type} : Nat → List α → Rand → List α × Rand
  | 0, array, r => (array, r)
  | i + 1, array, r =>
    let j := r.floorMul (i + 1 + 1)
    shuffleLoop i (swapAt array (i + 1) j) r.next

/-- `shuffleArray(array)`: Fisher-Yates, `i` from `length - 1` down to `1`. -/
def shuffleArray {α : Type} (array : List α) (r : Rand) : List α × Rand :=
  shuffleLoop (array.length - 1) array r

/-- The do-while of the `keep_base` case.  `retries` is the number of further
attempts the guard `attempts < 10` still allows after the current one: the body
runs, and the loop repeats only when the shuffle reproduced `middle` and an
attempt is left. -/
def keepBaseLoop (middle : List Char) : Nat → Rand → List Char × Rand
  | 0, r => shuffleArray middle r
  | retries + 1, r =>
    let res := shuffleArray middle r
    if res.1 = middle then keepBaseLoop middle retries res.2 else res

/-- `sortWordLetters(word, sortType)`. -/
def sortWordLetters (word : Word) (sortType : String) (r : Rand) : List Char × Rand :=
  let letters := word
  if sortType = "mirror" then (letters.reverse, r)
  else if sortType = "random" then shuffleArray letters r
  else if sortType = "keep_base" then
    if letters.length ≤ 3 then (letters, r)
    else
      let first := letters.take 1
      let last := letters.drop (letters.length - 1)
      let middle := (letters.drop 1).take (letters.length - 2)
      let res := keepBaseLoop middle 9 r
      (first ++ res.1 ++ last, res.2)
  else (letters, r)


/-! ## Data model -/

/-- A tile object as created by `generateLevelWithWords`. -/
structure Tile where
  id : Nat
  char : Char
  colIndex : Nat
  wordIndex : Int
  selected : Bool
  deriving DecidableEq, Repr

/-- An entry of `allLetters`. -/
structure LetterData where
  char : Char
  wordIndex : Int
  charIndex : Nat
  deriving DecidableEq, Repr

/-- A level of `LEVELS_DATA`.  `letters`, `order` and `colored` are
`difficulty?.letters`, `difficulty?.order` and `difficulty?.colored`; `none` is
`undefined`. -/
structure LevelConfig where
  id : Nat
  cols : Nat
  rows : Int
  words : List Word
  letters : Option String
  order : Option String
  colored : Option Bool
  follow : Option Bool
  deriving DecidableEq, Repr

/-- The global `gameState`. -/
structure GameState where
  columns : List (List Tile)
  targetWords : List Word
  foundWords : List Word
  revealedWords : List Word
  hiddenWords : List Word
  selectedTiles : List Tile
  levelColors : List String
  isColored : Bool
  isGameActive : Bool
  isProcessing : Bool
  checkWordTimeout : Option Nat
  deriving DecidableEq, Repr

/-- `value || fallback` on an optional string: `undefined` and the empty string
are falsy. -/
def orDefault (value : Option String) (fallback : String) : String :=
  match value with
  | some s => if s = "" then fallback else s
  | none => fallback

/-- `array.indexOf(x)`: the first index of `x`, or `-1`. -/
def jsIndexOf {α : Type} [DecidableEq α] : List α → α → Int
  | [], _ => -1
  | a :: l, x =>
    if a = x then 0
    else
      let k := jsIndexOf l x
      if k = -1 then -1 else k + 1

/-- `array.findIndex(p)`: the first index whose entry satisfies `p`, or `-1`. -/
def jsFindIndex {α : Type} (p : α → Bool) : List α → Int
  | [] => -1
  | a :: l =>
    if p a then 0
    else
      let k := jsFindIndex p l
      if k = -1 then -1 else k + 1

/-- `array[i]` for an integer index; `none` is `undefined`. -/
def jsGet {α : Type} (array : List α) (i : Int) : Option α :=
  if 0 ≤ i then array[i.toNat]? else none

/-! ## Level generator -/

/-- The inner `sortedLetters.forEach((char, charIndex) => allLetters.push(...))`,
entered at index `charIndex`. -/
def tagLetters (wordIndex : Int) : Nat → List Char → List LetterData
  | _, [] => []
  | charIndex, char :: rest =>
    { char := char, wordIndex := wordIndex, charIndex := charIndex }
      :: tagLetters wordIndex (charIndex + 1) rest

/-- The outer `words.forEach(word => ...)` that fills `allLetters`. -/
def collectLetters (targetWords : List Word) (letterSortType : String) :
    List Word → Rand → List LetterData × Rand
  | [], r => ([], r)
  | word :: rest, r =>
    let sorted := sortWordLetters word letterSortType r
    let tail := collectLetters targetWords letterSortType rest sorted.2
    (tagLetters (jsIndexOf targetWords word) 0 sorted.1 ++ tail.1, tail.2)

/-- `columns[colIndex].push(tile)`; `none` when `columns[colIndex]` is `undefined`
(the call throws a TypeError). -/
def pushTile : List (List Tile) → Nat → Tile → Option (List (List Tile))
  | [], _, _ => none
  | col :: cols, 0, tile => some ((col ++ [tile]) :: cols)
  | col :: cols, c + 1, tile => (pushTile cols c tile).map (fun cols1 => col :: cols1)

/-- The result of a placement loop: the columns and the random stream at the end,
under `.ok` when the loop ran to completion and under `.error` when a `push`
threw, in which case the columns are those built so far. -/
abbrev Placement := Except (List (List Tile) × Rand) (List (List Tile) × Rand)

/-- The `forEach` of the LINEAR branch, entered with the loop variables
`currentCol` and `currentRow`. -/
def linearLoop (cols : Nat) : List LetterData → Nat → Nat → List (List Tile) → Rand →
    Placement
  | [], _, _, columns, r => .ok (columns, r)
  | letterData :: rest, currentCol, currentRow, columns, r =>
    let tile : Tile :=
      { id := r 0, char := letterData.char, colIndex := currentCol,
        wordIndex := letterData.wordIndex, selected := false }
    match pushTile columns currentCol tile with
    | none => .error (columns, r.next)
    | some columns1 =>
      if cols ≤ currentCol + 1 then linearLoop cols rest 0 (currentRow + 1) columns1 r.next
      else linearLoop cols rest (currentCol + 1) currentRow columns1 r.next

/-- `colHeights[i] < rows`; a comparison with `undefined` is false. -/
def heightLt (colHeights : List Nat) (i : Int) (rows : Int) : Bool :=
  match jsGet colHeights i with
  | some h => decide ((h : Int) < rows)
  | none => false

/-- `colHeights[i] >= rows`; a comparison with `undefined` is false. -/
def heightGe (colHeights : List Nat) (i : Int) (rows : Int) : Bool :=
  match jsGet colHeights i with
  | some h => decide (rows ≤ (h : Int))
  | none => false

/-- The scan `while (colIndex < cols - 1 && colHeights[colIndex] >= rows) colIndex++`.
The first argument is `cols - 1 - colIndex`, the number of steps the first
conjunct still allows. -/
def scanLeft (colHeights : List Nat) (rows : Int) : Nat → Nat → Nat
  | 0, colIndex => colIndex
  | room + 1, colIndex =>
    if heightGe colHeights colIndex rows then scanLeft colHeights rows room (colIndex + 1)
    else colIndex

/-- The `options` array of the CLUSTER branch. -/
def clusterOptions (config : LevelConfig) (colHeights : List Nat) (lastCol : Int) : List Int :=
  (if heightLt colHeights lastCol config.rows = true then [lastCol, lastCol] else [])
    ++ (if 0 < lastCol ∧ heightLt colHeights (lastCol - 1) config.rows = true
          then [lastCol - 1] else [])
    ++ (if lastCol < (config.cols : Int) - 1
            ∧ heightLt colHeights (lastCol + 1) config.rows = true
          then [lastCol + 1] else [])

/-- The column chosen for one letter in the CLUSTER branch, up to and including the
`colIndex === -1 || colIndex === undefined` fallback. -/
def clusterColumn (config : LevelConfig) (colHeights : List Nat) (lastCol : Int)
    (letterData : LetterData) (r : Rand) : Int × Rand :=
  let free : Int := jsFindIndex (fun (h : Nat) => decide ((h : Int) < config.rows)) colHeights
  let picked : Option Int × Rand :=
    if letterData.charIndex = 0 then
      (some ((scanLeft colHeights config.rows (config.cols - 1) 0 : Nat) : Int), r)
    else
      let options := clusterOptions config colHeights lastCol
      if 0 < options.length then (options[r.floorMul options.length]?, r.next)
      else (some free, r)
  match picked.1 with
  | some colIndex => if colIndex = -1 then (free, picked.2) else (colIndex, picked.2)
  | none => (free, picked.2)

/-- `colHeights[colIndex]++`. -/
def incrAt : List Nat → Nat → List Nat
  | [], _ => []
  | h :: hs, 0 => (h + 1) :: hs
  | h :: hs, c + 1 => h :: incrAt hs c

/-- The `forEach` of the CLUSTER branch, entered with `colHeights` and `lastCol`. -/
def clusterLoop (config : LevelConfig) : List LetterData → List Nat → Int →
    List (List Tile) → Rand → Placement
  | [], _, _, columns, r => .ok (columns, r)
  | letterData :: rest, colHeights, lastCol, columns, r =>
    let pick := clusterColumn config colHeights lastCol letterData r
    let colIndex := pick.1
    let r1 := pick.2
    if colIndex < 0 then .error (columns, r1.next)
    else
      let tile : Tile :=
        { id := r1 0, char := letterData.char, colIndex := colIndex.toNat,
          wordIndex := letterData.wordIndex, selected := false }
      match pushTile columns colIndex.toNat tile with
      | none => .error (columns, r1.next)
      | some columns1 =>
        clusterLoop config rest (incrAt colHeights colIndex.toNat) colIndex columns1 r1.next

/-- The value `i % cols` pushed to `availableSlots`; `none` is `NaN` (`cols = 0`). -/
def slotOf (cols : Nat) (i : Nat) : Option Nat :=
  if cols = 0 then none else some (i % cols)

/-- The final `forEach` of the RANDOM branch, entered at index `index`. -/
def randomLoop (availableSlots : List (Option Nat)) : Nat → List LetterData →
    List (List Tile) → Rand → Placement
  | _, [], columns, r => .ok (columns, r)
  | index, letterData :: rest, columns, r =>
    match (availableSlots[index]?).join with
    | none => .error (columns, r.next)
    | some colIndex =>
      let tile : Tile :=
        { id := r 0, char := letterData.char, colIndex := colIndex,
          wordIndex := letterData.wordIndex, selected := false }
      match pushTile columns colIndex tile with
      | none => .error (columns, r.next)
      | some columns1 => randomLoop availableSlots (index + 1) rest columns1 r.next

/-- The three placement branches of `generateLevelWithWords`. -/
def placeLetters (config : LevelConfig) (allLetters : List LetterData)
    (columns : List (List Tile)) (r : Rand) : Placement :=
  let orderType := orDefault config.order "random"
  if orderType = "linear" then linearLoop config.cols allLetters 0 0 columns r
  else if orderType = "cluster" then
    clusterLoop config allLetters (List.replicate config.cols 0) (-1) columns r
  else
    let totalLetters := allLetters.length
    let availableSlots := (List.range totalLetters).map (slotOf config.cols)
    let shuffled := shuffleLoop (availableSlots.length - 1) availableSlots r
    randomLoop shuffled.1 0 allLetters columns shuffled.2

/-- `generateLevelWithWords(config, words)`.  The result is under `.error` when a
`push` threw; the state is then the partially filled one. -/
def generateLevelWithWords (config : LevelConfig) (words : List Word) (gs : GameState)
    (r : Rand) : Except (GameState × Rand) (GameState × Rand) :=
  let letterSortType := orDefault config.letters "direct"
  let collected := collectLetters gs.targetWords letterSortType words r
  match placeLetters config collected.1 gs.columns collected.2 with
  | .ok res => .ok ({ gs with columns := res.1 }, res.2)
  | .error res => .error ({ gs with columns := res.1 }, res.2)

/-- `restartLevel()`; `levelConfig` is `LEVELS_DATA[currentLevelIndex]`. -/
def restartLevel (levelConfig : Option LevelConfig) (gs : GameState) (r : Rand) :
    Except (GameState × Rand) (GameState × Rand) :=
  if gs.isProcessing then .ok (gs, r)
  else
    match levelConfig with
    | none => .ok (gs, r)
    | some levelConfig =>
      let remainingWords := gs.targetWords.filter (fun word => !decide (word ∈ gs.foundWords))
      if remainingWords.length = 0 then .ok (gs, r)
      else
        generateLevelWithWords levelConfig remainingWords
          { gs with selectedTiles := [], columns := List.replicate levelConfig.cols [] } r

/-- The state a run leaves behind, whether it completed or threw. -/
def outcome {α : Type} : Except α α → α
  | .ok a => a
  | .error a => a

/-- `columns[colIndex][tileIndex]`, `none` when either lookup is `undefined`. -/
def tileAt (columns : List (List Tile)) (colIndex tileIndex : Nat) : Option Tile :=
  match columns[colIndex]? with
  | some column => column[tileIndex]?
  | none => none

/-- The chars of a board, column by column, bottom first. -/
def boardChars (columns : List (List Tile)) : List (List Char) :=
  columns.map (fun column => column.map Tile.char)

/-! ## Tile availability rule -/

/-- The object `{ active, selected }` returned by `getTileStatus`. -/
structure TileStatus where
  active : Bool
  selected : Bool
  deriving DecidableEq, Repr

/-- A thrown `TypeError` (a property read or a method call on `undefined`). -/
inductive JsError where
  | typeError
  deriving DecidableEq, Repr

/-- `gameState.selectedTiles.some(t => t.id === id)`. -/
def isSelectedId (gs : GameState) (id : Nat) : Bool :=
  gs.selectedTiles.any (fun t => decide (t.id = id))

/-- `getTileStatus(tile, colIndex, tileIndex)`. -/
def getTileStatus (gs : GameState) (tile : Tile) (colIndex tileIndex : Nat) :
    Except JsError TileStatus :=
  if isSelectedId gs tile.id then .ok { active := false, selected := true }
  else
    let column := gs.columns[colIndex]?
    if tileIndex = 0 then .ok { active := true, selected := false }
    else
      match column with
      | none => .error .typeError
      | some column =>
        match column[tileIndex - 1]? with
        | none => .error .typeError
        | some tileBelow =>
          let isBelowSelected := isSelectedId gs tileBelow.id
          if isBelowSelected then .ok { active := true, selected := false }
          else .ok { active := false, selected := false }

/-- The class `renderBoard` puts on a tile outside processing. -/
inductive TileClass where
  | selected
  | active
  | blocked
  deriving DecidableEq, Repr

/-- The branch of `renderBoard` on `status.selected` and `status.active`. -/
def tileClass (status : TileStatus) : TileClass :=
  if status.selected then .selected
  else if status.active then .active
  else .blocked

/-! ## Selection -/

/-- `handleTileClick(tile, colIndex, tileIndex)`. -/
def handleTileClick (gs : GameState) (tile : Tile) (_colIndex _tileIndex : Nat) : GameState :=
  if gs.isProcessing then gs
  else { gs with selectedTiles := gs.selectedTiles ++ [tile] }

/-- `resetSelection()`. -/
def resetSelection (gs : GameState) : GameState :=
  if gs.isProcessing then gs
  else { gs with selectedTiles := [] }

/-- The effect of `if (checkWordTimeout) { clearTimeout(...); checkWordTimeout = null }`:
a truthy handle is cleared. -/
def clearCheckWordTimeout (handle : Option Nat) : Option Nat :=
  match handle with
  | some n => if n = 0 then some n else none
  | none => none

/-- `handleSelectedTileClick(tile)`. -/
def handleSelectedTileClick (gs : GameState) (tile : Tile) : Except JsError GameState :=
  if gs.isProcessing then .ok gs
  else
    match gs.columns[tile.colIndex]? with
    | none => .error .typeError
    | some column =>
      let tileIndex := jsFindIndex (fun t => decide (t.id = tile.id)) column
      let hasSelectedAbove :=
        (column.drop (tileIndex + 1).toNat).any (fun t => isSelectedId gs t.id)
      if hasSelectedAbove then .ok gs
      else
        let index := jsFindIndex (fun t => decide (t.id = tile.id)) gs.selectedTiles
        if index ≠ -1 then
          .ok { gs with
                selectedTiles := gs.selectedTiles.eraseIdx index.toNat
                checkWordTimeout := clearCheckWordTimeout gs.checkWordTimeout }
        else .ok gs

/-! ## Word matching -/

/-- `gameState.selectedTiles.map(t => t.char).join('')`. -/
def currentWord (gs : GameState) : Word :=
  gs.selectedTiles.map Tile.char

/-- The class `updateSelectionUI` gives the word panel; `plain` is the early
return on an empty word. -/
inductive PanelClass where
  | plain
  | alreadyFound
  | correct
  | gold
  | invalid
  deriving DecidableEq, Repr

/-- `updateSelectionUI()`, reduced to the class it decides; `dictionary` lists the
members of `FULL_DICTIONARY`. -/
def updateSelectionUI (dictionary : List Word) (gs : GameState) : PanelClass :=
  let currentWord := currentWord gs
  if currentWord.length = 0 then .plain
  else
    let isTarget := decide (currentWord ∈ gs.targetWords)
    let isFoundTarget := decide (currentWord ∈ gs.foundWords)
    let isInDictionary := decide (currentWord ∈ dictionary)
    let isFoundHidden := decide (currentWord ∈ gs.hiddenWords)
    if isFoundTarget || isFoundHidden then .alreadyFound
    else if isTarget then .correct
    else if isInDictionary then .gold
    else .invalid

/-- The two continuations `checkWordMatch` hands to `setTimeout`: the one of the
target branch (800 ms) and the one of the hidden-word branch (1200 ms). -/
inductive Timer where
  | foundCommit
  | hiddenCommit
  deriving DecidableEq, Repr

/-- `checkWordMatch()`: the state it leaves and the continuation it schedules. -/
def checkWordMatch (dictionary : List Word) (gs : GameState) : GameState × Option Timer :=
  let currentWord := currentWord gs
  if currentWord ∈ gs.targetWords ∧ currentWord ∉ gs.foundWords then
    ({ gs with
        isProcessing := true
        foundWords := gs.foundWords ++ [currentWord]
        revealedWords :=
          let revealedIndex := jsIndexOf gs.revealedWords currentWord
          if revealedIndex ≠ -1 then gs.revealedWords.eraseIdx revealedIndex.toNat
          else gs.revealedWords },
      some .foundCommit)
  else if currentWord ∈ dictionary ∧ currentWord ∉ gs.targetWords
      ∧ currentWord ∉ gs.hiddenWords then
    ({ gs with
        isProcessing := true
        hiddenWords := gs.hiddenWords ++ [currentWord] },
      some .hiddenCommit)
  else (gs, none)

/-- `handleInputPanelClick()`. -/
def handleInputPanelClick (dictionary : List Word) (gs : GameState) :
    GameState × Option Timer :=
  if gs.isProcessing then (gs, none)
  else
    let currentWord := currentWord gs
    if currentWord.length = 0 then (gs, none)
    else
      let isTarget := decide (currentWord ∈ gs.targetWords)
      let isFoundTarget := decide (currentWord ∈ gs.foundWords)
      let isInDictionary := decide (currentWord ∈ dictionary)
      let isFoundHidden := decide (currentWord ∈ gs.hiddenWords)
      if isFoundTarget || isFoundHidden then (gs, none)
      else if isTarget || isInDictionary then checkWordMatch dictionary gs
      else (resetSelection gs, none)

/-- The inner loop of `removeSelectedTiles` on one column, entered with `i + 1`
equal to the first argument: `for (; i >= 0; i--) if (ids.has(col[i].id)) col.splice(i, 1)`.
The loop keeps `i < col.length`, so `col[i]` is always defined. -/
def removeLoop (tilesToRemoveIds : List Nat) : Nat → List Tile → List Tile
  | 0, col => col
  | i + 1, col =>
    match col[i]? with
    | some t =>
      if t.id ∈ tilesToRemoveIds then removeLoop tilesToRemoveIds i (col.eraseIdx i)
      else removeLoop tilesToRemoveIds i col
    | none => removeLoop tilesToRemoveIds i col

/-- `removeSelectedTiles()`. -/
def removeSelectedTiles (gs : GameState) : GameState :=
  let tilesToRemoveIds := gs.selectedTiles.map Tile.id
  { gs with columns := gs.columns.map (fun col => removeLoop tilesToRemoveIds col.length col) }

/-- The body of a scheduled continuation of `checkWordMatch`. -/
def runTimer : Timer → GameState → GameState
  | .foundCommit, gs =>
    { removeSelectedTiles gs with selectedTiles := [], isProcessing := false }
  | .hiddenCommit, gs =>
    { gs with selectedTiles := [], isProcessing := false }

/-- `useHint()`; `if (nextWord)` is false for `undefined` and for the empty string. -/
def useHint (gs : GameState) : GameState :=
  if gs.isProcessing then gs
  else
    match gs.targetWords.find?
        (fun word => !decide (word ∈ gs.foundWords) && !decide (word ∈ gs.revealedWords)) with
    | some nextWord =>
      if nextWord.length = 0 then gs
      else { gs with revealedWords := gs.revealedWords ++ [nextWord] }
    | none => gs

/-- `activateBonusColor()`. -/
def activateBonusColor (gs : GameState) : GameState :=
  if gs.isProcessing || gs.isColored then gs
  else { gs with isColored := true }

/-! ## Loading -/

/-- The value given to `FULL_DICTIONARY` by `initGame`:
`dictText.split('\n').map(word => word.trim().toUpperCase()).filter(word => word.length > 0)`.
`lines` is the result of the split and `normalize` stands for
`word => word.trim().toUpperCase()`, whose Unicode tables lie outside the program. -/
def fullDictionary (normalize : Word → Word) (lines : List Word) : List Word :=
  (lines.map normalize).filter (fun word => decide (0 < word.length))

/-- The palette `WORD_COLORS`. -/
def WORD_COLORS : List String := ["#AEC6CF", "#B2E2B2", "#FFD1DC", "#F4E1D2"]

/-- `loadLevel(levelIndex)`; `levelConfig` is `LEVELS_DATA[levelIndex]` and
`normalize` stands for `word => word.trim().toUpperCase()`.  The result is under
`.error` when the generation threw. -/
def loadLevel (normalize : Word → Word) (levelConfig : Option LevelConfig) (gs : GameState)
    (r : Rand) : Except (GameState × Rand) (GameState × Rand) :=
  match levelConfig with
  | none => .ok (gs, r)
  | some levelConfig =>
    let mapped := levelConfig.words.map normalize
    let targetWords :=
      if levelConfig.follow = some false then shuffleArray mapped r else (mapped, r)
    let levelColors := shuffleLoop (WORD_COLORS.length - 1) WORD_COLORS targetWords.2
    let gs1 : GameState :=
      { gs with
        targetWords := targetWords.1
        foundWords := []
        revealedWords := []
        hiddenWords := []
        selectedTiles := []
        columns := List.replicate levelConfig.cols []
        isColored := levelConfig.colored.getD true
        levelColors := levelColors.1 }
    generateLevelWithWords levelConfig gs1.targetWords gs1 levelColors.2

/-- The globals the level navigation reads and writes. -/
structure App where
  LEVELS_DATA : List LevelConfig
  currentLevelIndex : Nat
  gameState : GameState

/-- `nextLevel()`. -/
def nextLevel (normalize : Word → Word) (app : App) (r : Rand) :
    Except (App × Rand) (App × Rand) :=
  if app.gameState.isProcessing then .ok (app, r)
  else
    let incremented := app.currentLevelIndex + 1
    let currentLevelIndex :=
      if app.LEVELS_DATA.length ≤ incremented then 0 else incremented
    match loadLevel normalize app.LEVELS_DATA[currentLevelIndex]? app.gameState r with
    | .ok res =>
      .ok ({ app with currentLevelIndex := currentLevelIndex, gameState := res.1 }, res.2)
    | .error res =>
      .error ({ app with currentLevelIndex := currentLevelIndex, gameState := res.1 }, res.2)

/-! ## The two-word example level -/

/-- The level of the scenario: words КОТ and ПЕС, two columns, linear placement,
direct letter order. -/
def kotPesLevel : LevelConfig :=
  { id := 1, cols := 2, rows := 3, words := [['К', 'О', 'Т'], ['П', 'Е', 'С']],
    letters := some "direct", order := some "linear", colored := none, follow := none }

/-- The state of `loadLevel` for `kotPesLevel` right before `generateLevel` runs. -/
def kotPesStart : GameState :=
  { columns := [[], []], targetWords := [['К', 'О', 'Т'], ['П', 'Е', 'С']],
    foundWords := [], revealedWords := [], hiddenWords := [], selectedTiles := [],
    levelColors := [], isColored := true, isGameActive := false, isProcessing := false,
    checkWordTimeout := none }

/-- The availability rules as the specification words them, evaluated in order on
a tile, its column and its index: SELECTED if the tile is in the selection, else
ACTIVE at index 0, else ACTIVE if the tile at `index - 1` is in the selection, else
BLOCKED. -/
def availabilityRule (gs : GameState) (column : List Tile) (index : Nat) (tile : Tile) :
    TileClass :=
  if isSelectedId gs tile.id then .selected
  else if index = 0 then .active
  else
    match column[index - 1]? with
    | some below => if isSelectedId gs below.id then .active else .blocked
    | none => .blocked

/-- The generated board of the two-word level under the draws `k ↦ k`: column 0 is
К, Т, Е with ids 0, 2, 4 and column 1 is О, П, С with ids 1, 3, 5. -/
def kotPesBoard : GameState :=
  (outcome (generateLevelWithWords kotPesLevel kotPesStart.targetWords kotPesStart
    (fun k => k))).1

/-- The tile К at the bottom of column 0 of `kotPesBoard`. -/
def tileK : Tile := { id := 0, char := 'К', colIndex := 0, wordIndex := 0, selected := false }

/-- The tile О at the bottom of column 1 of `kotPesBoard`. -/
def tileO : Tile := { id := 1, char := 'О', colIndex := 1, wordIndex := 0, selected := false }

/-- The tile Т above К in column 0 of `kotPesBoard`. -/
def tileT : Tile := { id := 2, char := 'Т', colIndex := 0, wordIndex := 0, selected := false }

/-- `kotPesBoard` after clicking К and then Т, the two lowest tiles of column 0. -/
def kotPesTwoSelected : GameState :=
  handleTileClick (handleTileClick kotPesBoard tileK 0 0) tileT 0 1

/-- `kotPesTwoSelected` after clicking the selected Т again. -/
def kotPesDeselected : GameState :=
  match handleSelectedTileClick kotPesTwoSelected tileT with
  | .ok gs => gs
  | .error _ => kotPesTwoSelected

/-- `kotPesBoard` after clicking К (column 0) and then О (column 1): the word КО. -/
def kotPesKO : GameState :=
  handleTileClick (handleTileClick kotPesBoard tileK 0 0) tileO 1 0

/-- A level loaded from the single empty word: one empty target, empty columns,
nothing selected. -/
def emptyWordState : GameState :=
  { kotPesStart with targetWords := [[]] }

/-- `kotPesBoard` after clicking К, О and Т in this order: the word КОТ. -/
def kotPesKOT : GameState :=
  handleTileClick (handleTileClick (handleTileClick kotPesBoard tileK 0 0) tileO 1 0) tileT 0 1

/-- `kotPesKOT` in a state whose `hiddenWords` holds the target word КОТ. -/
def kotPesHiddenKOT : GameState :=
  { kotPesKOT with hiddenWords := [['К', 'О', 'Т']] }

/-- `kotPesBoard` with a selection of three tiles spelling КОТ none of which is on
the board. -/
def kotPesStray : GameState :=
  { kotPesBoard with
    selectedTiles := [⟨97, 'К', 0, 0, false⟩, ⟨98, 'О', 1, 0, false⟩, ⟨99, 'Т', 0, 0, false⟩] }

/-- A dictionary read from three lines, one of them empty: it holds КО and ТОК. -/
def kotPesDictionary : List Word :=
  fullDictionary (fun word => word) [['К', 'О'], [], ['Т', 'О', 'К']]

/-- A level loaded from the empty word followed by КОТ, nothing found or revealed. -/
def emptyFirstTargetState : GameState :=
  { kotPesStart with targetWords := [[], ['К', 'О', 'Т']] }

/-- A cluster level with one column of one row for the three-letter word КОТ. -/
def clusterTightLevel : LevelConfig :=
  { id := 2, cols := 1, rows := 1, words := [['К', 'О', 'Т']],
    letters := none, order := some "cluster", colored := none, follow := none }

/-- The state `loadLevel` leaves for `clusterTightLevel` under the draws `k ↦ k`. -/
def clusterTightState : GameState :=
  (outcome (loadLevel (fun word => word) (some clusterTightLevel) kotPesStart (fun k => k))).1

/-! ## The session as a transition system -/

/-- The session between two events: the global state and the continuations handed
to `setTimeout` that have not run yet. -/
structure World where
  gameState : GameState
  timers : List Timer

/-- Tile ids are pairwise distinct over the whole board. -/
def TileIdsDistinct (columns : List (List Tile)) : Prop :=
  (columns.flatten.map Tile.id).Nodup

/-- Every tile records the index of the column it lies in. -/
def ColIndexOk (columns : List (List Tile)) : Prop :=
  ∀ (c : Nat) (col : List Tile), columns[c]? = some col → ∀ t ∈ col, t.colIndex = c

/-- The selected tiles of each column form a bottom prefix of the column: no
unselected tile lies below a selected one. -/
def SelectedPrefix (gs : GameState) : Prop :=
  ∀ c i j t u, tileAt gs.columns c i = some t → tileAt gs.columns c j = some u → j < i →
    isSelectedId gs t.id = true → isSelectedId gs u.id = true

/-- No column has two ACTIVE tiles. -/
def AtMostOneActive (gs : GameState) : Prop :=
  ∀ c i j t u, tileAt gs.columns c i = some t → tileAt gs.columns c j = some u →
    getTileStatus gs t c i = .ok { active := true, selected := false } →
    getTileStatus gs u c j = .ok { active := true, selected := false } → i = j

/-- One event of the session.  The click handlers are those `renderBoard` attaches:
`handleTileClick` on a tile whose status is ACTIVE, called with the tile's own
position, and `handleSelectedTileClick` on a tile of the board (`renderBoard`
attaches it to the SELECTED ones; the relation allows it on any).  A scheduled
continuation runs once, when it is pending.  `levelConfig` is
`LEVELS_DATA[currentLevelIndex]`; a restart reads fresh draws, and the tile ids it
draws are pairwise distinct. -/
inductive Step (levelConfig : Option LevelConfig) (dictionary : List Word) :
    World → World → Prop where
  | select (w : World) (tile : Tile) (colIndex tileIndex : Nat)
      (hat : tileAt w.gameState.columns colIndex tileIndex = some tile)
      (hactive : getTileStatus w.gameState tile colIndex tileIndex
        = .ok { active := true, selected := false }) :
      Step levelConfig dictionary w
        { w with gameState := handleTileClick w.gameState tile colIndex tileIndex }
  | deselect (w : World) (tile : Tile) (colIndex tileIndex : Nat)
      (hat : tileAt w.gameState.columns colIndex tileIndex = some tile)
      (gs1 : GameState) (hclick : handleSelectedTileClick w.gameState tile = .ok gs1) :
      Step levelConfig dictionary w { w with gameState := gs1 }
  | confirm (w : World) :
      Step levelConfig dictionary w
        { gameState := (handleInputPanelClick dictionary w.gameState).1
          timers := w.timers ++ (handleInputPanelClick dictionary w.gameState).2.toList }
  | complete (w : World) (before after : List Timer) (timer : Timer)
      (hpending : w.timers = before ++ timer :: after) :
      Step levelConfig dictionary w
        { gameState := runTimer timer w.gameState, timers := before ++ after }
  | hint (w : World) :
      Step levelConfig dictionary w { w with gameState := useHint w.gameState }
  | bonusColor (w : World) :
      Step levelConfig dictionary w { w with gameState := activateBonusColor w.gameState }
  | restart (w : World) (r : Rand)
      (hids : TileIdsDistinct (outcome (restartLevel levelConfig w.gameState r)).1.columns) :
      Step levelConfig dictionary w
        { w with gameState := (outcome (restartLevel levelConfig w.gameState r)).1 }

/-- The states reached from an initial state satisfying `Init` by finitely many
events. -/
inductive Reachable (Init : World → Prop) (levelConfig : Option LevelConfig)
    (dictionary : List Word) : World → Prop where
  | init (w : World) (h : Init w) : Reachable Init levelConfig dictionary w
  | step (w w1 : World) (h : Reachable Init levelConfig dictionary w)
      (hstep : Step levelConfig dictionary w w1) : Reachable Init levelConfig dictionary w1

/-- A freshly generated level: the state `generateLevelWithWords` leaves on empty
columns and an empty selection, with pairwise distinct tile ids and no pending
continuation. -/
def FreshLevel (w : World) : Prop :=
  ∃ (config : LevelConfig) (words : List Word) (base : GameState) (r : Rand),
    base.columns = List.replicate config.cols [] ∧ base.selectedTiles = []
      ∧ w.gameState = (outcome (generateLevelWithWords config words base r)).1
      ∧ w.timers = [] ∧ TileIdsDistinct w.gameState.columns

/-- The inductive invariant behind `SelectedPrefix`: distinct tile ids, correct
column records, and selected tiles forming bottom prefixes. -/
def BoardInvariant (gs : GameState) : Prop :=
  TileIdsDistinct gs.columns ∧ ColIndexOk gs.columns ∧ SelectedPrefix gs

/-- The session right after `kotPesBoard` was generated and К, Т were clicked. -/
def kotPesTwoSelectedWorld : World :=
  { gameState := kotPesTwoSelected, timers := [] }

/-- A freshly loaded level: the state `loadLevel` leaves for an existing level
config, whatever the state before, with no pending continuation. -/
def LoadedLevel (normalize : Word → Word) (w : World) : Prop :=
  ∃ (config : LevelConfig) (base : GameState) (r : Rand),
    w.gameState = (outcome (loadLevel normalize (some config) base r)).1 ∧ w.timers = []

/-- One event of the session with no assumption on tile ids: an event of `Step`, or
a restart whatever ids it draws. -/
inductive Event (levelConfig : Option LevelConfig) (dictionary : List Word) :
    World → World → Prop where
  | step (w w1 : World) (h : Step levelConfig dictionary w w1) :
      Event levelConfig dictionary w w1
  | restart (w : World) (r : Rand) :
      Event levelConfig dictionary w
        { w with gameState := (outcome (restartLevel levelConfig w.gameState r)).1 }

/-- The states reached from an initial state satisfying `Init` by finitely many
events of `Event`. -/
inductive Played (Init : World → Prop) (levelConfig : Option LevelConfig)
    (dictionary : List Word) : World → Prop where
  | init (w : World) (h : Init w) : Played Init levelConfig dictionary w
  | event (w w1 : World) (h : Played Init levelConfig dictionary w)
      (hevent : Event levelConfig dictionary w w1) : Played Init levelConfig dictionary w1

/-- No word is both found and revealed. -/
def FoundRevealedDisjoint (gs : GameState) : Prop :=
  ∀ word ∈ gs.foundWords, word ∉ gs.revealedWords

/-- Every selected tile is present, by id, in some column of the board. -/
def SelectedLive (gs : GameState) : Prop :=
  ∀ t ∈ gs.selectedTiles, ∃ c i u, tileAt gs.columns c i = some u ∧ u.id = t.id

/-- The inductive invariant of the word lists and the selection: no repetition in
`foundWords` or in `revealedWords`, no word in both, and every selected tile on
the board. -/
def SessionInvariant (gs : GameState) : Prop :=
  gs.foundWords.Nodup ∧ gs.revealedWords.Nodup ∧ FoundRevealedDisjoint gs ∧ SelectedLive gs

/-- The state `loadLevel` leaves for the two-word level under the draws
`k ↦ k - 3`: three draws shuffle the palette, and the board is that of
`kotPesBoard`. -/
def kotPesLoaded : GameState :=
  (outcome (loadLevel (fun word => word) (some kotPesLevel) kotPesStart (fun k => k - 3))).1

/-- The session of `kotPesLoaded` after КОТ was revealed by a hint, assembled,
confirmed and removed. -/
def kotPesFoundWorld : World :=
  { gameState := runTimer .foundCommit (handleInputPanelClick []
      (handleTileClick (handleTileClick (handleTileClick (useHint kotPesLoaded)
        tileK 0 0) tileO 1 0) tileT 0 1)).1
    timers := [] }

/-- The session of `kotPesLoaded` after К and Т were clicked. -/
def kotPesLoadedSelectedWorld : World :=
  { gameState := handleTileClick (handleTileClick kotPesLoaded tileK 0 0) tileT 0 1
    timers := [] }

/-- Every found word is a target word. -/
def FoundWithinTargets (gs : GameState) : Prop :=
  ∀ word ∈ gs.foundWords, word ∈ gs.targetWords

/-- A level that lists the word КОТ twice. -/
def kotKotLevel : LevelConfig :=
  { kotPesLevel with id := 3, words := [['К', 'О', 'Т'], ['К', 'О', 'Т']] }

/-- The state `loadLevel` leaves for `kotKotLevel` under the draws `k ↦ k - 3`:
column 0 is К, Т, О and column 1 is О, К, Т. -/
def kotKotLoaded : GameState :=
  (outcome (loadLevel (fun word => word) (some kotKotLevel) kotPesStart (fun k => k - 3))).1

/-- The session of `kotKotLoaded` after КОТ was assembled from the tiles К, О, Т,
confirmed and removed. -/
def kotKotFoundWorld : World :=
  { gameState := runTimer .foundCommit (handleInputPanelClick []
      (handleTileClick (handleTileClick (handleTileClick kotKotLoaded
        tileK 0 0) tileO 1 0) tileT 0 1)).1
    timers := [] }

/-! ## Playing a level to the end -/

/-- The update of `currentCol` that ends one round of the LINEAR `forEach`:
`currentCol++; if (currentCol >= config.cols) currentCol = 0`. -/
def nextCol (cols currentCol : Nat) : Nat :=
  if cols ≤ currentCol + 1 then 0 else currentCol + 1

/-- The tile objects the LINEAR `forEach` creates, in order of creation, when it is
entered with the loop variable `currentCol`. -/
def linearTiles (cols : Nat) : List LetterData → Nat → Rand → List Tile
  | [], _, _ => []
  | letterData :: rest, currentCol, r =>
    { id := r 0, char := letterData.char, colIndex := currentCol,
      wordIndex := letterData.wordIndex, selected := false }
      :: linearTiles cols rest (nextCol cols currentCol) r.next

/-- The board with `tile` put under the stack of column `colIndex`. -/
def prependAt : List (List Tile) → Nat → Tile → List (List Tile)
  | [], _, _ => []
  | col :: cols, 0, tile => (tile :: col) :: cols
  | col :: cols, c + 1, tile => col :: prependAt cols c tile

/-- The board that holds the listed tiles dealt round-robin over `cols` columns
from column `currentCol` on, described from the last tile back: the first tile
lies under everything dealt after it.  The LINEAR loop builds the same board from
the first tile on (`linearLoop_deal`). -/
def deal (cols : Nat) : Nat → List Tile → List (List Tile)
  | _, [] => List.replicate cols []
  | currentCol, tile :: rest =>
    prependAt (deal cols (nextCol cols currentCol) rest) currentCol tile

/-- A run of clicks that selects the listed tiles in order.  Each click is one
`renderBoard` offers: outside processing, on a tile of the board whose status is
ACTIVE at that moment, handled by `handleTileClick` with the tile's position. -/
inductive ClickRun : GameState → List Tile → GameState → Prop where
  | done (gs : GameState) : ClickRun gs [] gs
  | click (gs : GameState) (tile : Tile) (rest : List Tile) (final : GameState)
      (colIndex tileIndex : Nat)
      (hproc : gs.isProcessing = false)
      (hat : tileAt gs.columns colIndex tileIndex = some tile)
      (hactive : getTileStatus gs tile colIndex tileIndex
        = .ok { active := true, selected := false })
      (hrest : ClickRun (handleTileClick gs tile colIndex tileIndex) rest final) :
      ClickRun gs (tile :: rest) final

/-- A play of the listed words in order, one group of tiles per word: the tiles of
the group are selected by a `ClickRun`, the assembled word is the word of the list,
Confirm starts the target-word branch, and its scheduled continuation leaves none
of the group's tiles on the board; the play goes on from there. -/
inductive WinRun (dictionary : List Word) :
    GameState → List Word → List (List Tile) → GameState → Prop where
  | done (gs : GameState) : WinRun dictionary gs [] [] gs
  | word (gs assembled confirmed final : GameState) (word : Word) (words : List Word)
      (tiles : List Tile) (groups : List (List Tile))
      (hclicks : ClickRun gs tiles assembled)
      (hword : currentWord assembled = word)
      (hconfirm : handleInputPanelClick dictionary assembled
        = (confirmed, some Timer.foundCommit))
      (hremoved : ∀ t ∈ tiles, ∀ col ∈ (runTimer Timer.foundCommit confirmed).columns,
        t ∉ col)
      (hrest : WinRun dictionary (runTimer Timer.foundCommit confirmed) words groups final) :
      WinRun dictionary gs (word :: words) (tiles :: groups) final

/-! # Theorems -/

/-! ## Letter sorter: permutation lemmas -/

theorem swapAt_length {α : Type} (a : List α) (i j : Nat) :
    (swapAt a i j).length = a.length := by
  unfold swapAt
  split <;> simp

theorem swapAt_perm {α : Type} (a : List α) (i j : Nat) : (swapAt a i j).Perm a := by
  classical
  unfold swapAt
  split
  · rename_i x y hx hy
    obtain ⟨hi, rfl⟩ := List.getElem?_eq_some.mp hx
    obtain ⟨hj, rfl⟩ := List.getElem?_eq_some.mp hy
    rw [List.perm_iff_count]
    intro b
    have hj2 : j < (a.set i a[j]).length := by simpa using hj
    rw [List.count_set _ _ _ _ hj2, List.count_set _ _ _ _ hi]
    by_cases hij : i = j
    · subst hij
      simp only [List.getElem_set_self]
      have := List.count_pos_iff.mpr (List.getElem_mem hi)
      by_cases hb : (a[i] == b) = true
      · have hb2 : a[i] = b := by simpa using hb
        have h3 : 0 < List.count b a := by rw [← hb2]; exact this
        simp only [hb, if_true]
        omega
      · simp only [hb]
        simp
    · have hne : (a.set i a[j])[j] = a[j] := by
        rw [List.getElem_set_ne hij]
      rw [hne]
      have hci := List.count_pos_iff.mpr (List.getElem_mem hi)
      have hcj := List.count_pos_iff.mpr (List.getElem_mem hj)
      by_cases hbi : (a[i] == b) = true <;> by_cases hbj : (a[j] == b) = true
      · have : a[i] = b := by simpa using hbi
        rw [this] at hci
        simp only [hbi, hbj, if_true]
        omega
      · have : a[i] = b := by simpa using hbi
        rw [this] at hci
        simp only [hbi, hbj, if_true, if_false, Bool.false_eq_true]
        omega
      · have : a[j] = b := by simpa using hbj
        rw [this] at hcj
        simp only [hbi, hbj, if_true, if_false, Bool.false_eq_true]
        omega
      · simp only [hbi, hbj, if_false, Bool.false_eq_true]
        omega
  · exact List.Perm.refl _

theorem shuffleLoop_perm {α : Type} (i : Nat) (a : List α) (r : Rand) :
    (shuffleLoop i a r).1.Perm a := by
  induction i generalizing a r with
  | zero => exact List.Perm.refl _
  | succ n ih =>
    simp only [shuffleLoop]
    exact (ih _ _).trans (swapAt_perm _ _ _)

theorem shuffleArray_perm {α : Type} (a : List α) (r : Rand) :
    (shuffleArray a r).1.Perm a :=
  shuffleLoop_perm _ _ _

theorem keepBaseLoop_perm (middle : List Char) (n : Nat) (r : Rand) :
    (keepBaseLoop middle n r).1.Perm middle := by
  induction n generalizing r with
  | zero => exact shuffleArray_perm _ _
  | succ k ih =>
    simp only [keepBaseLoop]
    split
    · exact ih _
    · exact shuffleArray_perm _ _

theorem sortWordLetters_perm (w : Word) (mode : String) (r : Rand) :
    (sortWordLetters w mode r).1.Perm w := by
  unfold sortWordLetters
  dsimp only
  split
  · exact List.reverse_perm w
  · split
    · exact shuffleArray_perm _ _
    · split
      · split
        · exact List.Perm.refl _
        · rename_i hlen
          have hlen2 : 3 < w.length := by omega
          have hsplit : w = w.take 1 ++ ((w.drop 1).take (w.length - 2)
              ++ w.drop (w.length - 1)) := by
            have h1 : w.drop (w.length - 1) = (w.drop 1).drop (w.length - 2) := by
              rw [List.drop_drop]
              congr 1
              omega
            rw [h1, List.take_append_drop, List.take_append_drop]
          have hp := keepBaseLoop_perm ((w.drop 1).take (w.length - 2)) 9 r
          rw [List.append_assoc]
          exact ((hp.append_right _).append_left _).trans (List.Perm.of_eq hsplit.symm)
      · exact List.Perm.refl _

/-- C3: for every word, every sort mode string (recognised or not) and every
random stream, `sortWordLetters` returns a list of the same length that is a
permutation of the word (equal as multisets); `direct` returns the letters
unchanged and `mirror` returns them reversed. -/
theorem sortWordLetters_permutation (w : Word) (mode : String) (r : Rand) :
    (sortWordLetters w mode r).1.length = w.length
      ∧ (sortWordLetters w mode r).1.Perm w
      ∧ Multiset.ofList (sortWordLetters w mode r).1 = Multiset.ofList w
      ∧ (sortWordLetters w "direct" r).1 = w
      ∧ (sortWordLetters w "mirror" r).1 = w.reverse := by
  refine ⟨(sortWordLetters_perm w mode r).length_eq, sortWordLetters_perm w mode r,
    Quotient.sound (sortWordLetters_perm w mode r), ?_, ?_⟩
  · simp [sortWordLetters]
  · simp [sortWordLetters]

/-- C4: for every word and random stream, `sortWordLetters` in `keep_base` mode
keeps the first and the last character of the word, and returns the word itself
when its length is at most 3. -/
theorem sortWordLetters_keep_base (w : Word) (r : Rand) :
    (sortWordLetters w "keep_base" r).1.head? = w.head?
      ∧ (sortWordLetters w "keep_base" r).1.getLast? = w.getLast?
      ∧ (w.length ≤ 3 → (sortWordLetters w "keep_base" r).1 = w) := by
  have hm : ("keep_base" : String) ≠ "mirror" := by decide
  have hr : ("keep_base" : String) ≠ "random" := by decide
  by_cases hlen : w.length ≤ 3
  · simp [sortWordLetters, hm, hr, hlen]
  · have hlen2 : 3 < w.length := by omega
    simp only [sortWordLetters, hm, hr, hlen, if_false, if_true]
    refine ⟨?_, ?_, fun h => h.elim⟩
    · cases w with
      | nil => simp at hlen2
      | cons a t => simp
    · have hne : w.drop (w.length - 1) ≠ [] := by
        intro h
        have := congrArg List.length h
        simp at this
        omega
      rw [List.getLast?_append_of_ne_nil _ hne]
      rw [List.getLast?_drop]
      have : ¬ (w.length ≤ w.length - 1) := by omega
      simp [this]

/-- A `keep_base` run on a five-letter word under the draws `k ↦ k + 1`, and a run
on a three-letter word, which is returned as it is. -/
theorem sortWordLetters_keep_base_witness :
    (sortWordLetters ['S', 'T', 'A', 'C', 'K'] "keep_base" (fun k => k + 1)).1
        = ['S', 'C', 'T', 'A', 'K']
      ∧ (sortWordLetters ['C', 'A', 'T'] "keep_base" (fun k => k + 1)).1 = ['C', 'A', 'T'] :=
  ⟨by decide,
    (sortWordLetters_keep_base ['C', 'A', 'T'] (fun k => k + 1)).2.2 (by decide)⟩

/-! ## Level generator: every letter becomes one tile -/

theorem tagLetters_chars (wordIndex : Int) (start : Nat) (letters : List Char) :
    (tagLetters wordIndex start letters).map LetterData.char = letters := by
  induction letters generalizing start with
  | nil => rfl
  | cons c rest ih => simp [tagLetters, ih]

theorem collectLetters_chars_perm (targetWords : List Word) (sortType : String)
    (words : List Word) (r : Rand) :
    ((collectLetters targetWords sortType words r).1.map LetterData.char).Perm
      words.flatten := by
  induction words generalizing r with
  | nil => simp [collectLetters]
  | cons w rest ih =>
    simp only [collectLetters, List.map_append, tagLetters_chars, List.flatten_cons]
    exact (sortWordLetters_perm w sortType r).append (ih _)

theorem pushTile_perm (columns : List (List Tile)) (c : Nat) (tile : Tile)
    (columns1 : List (List Tile)) (h : pushTile columns c tile = some columns1) :
    columns1.flatten.Perm (tile :: columns.flatten) := by
  induction columns generalizing c columns1 with
  | nil => simp [pushTile] at h
  | cons col cols ih =>
    cases c with
    | zero =>
      simp only [pushTile, Option.some.injEq] at h
      subst h
      simp only [List.flatten_cons, List.append_assoc, List.singleton_append]
      exact List.perm_middle
    | succ k =>
      simp only [pushTile, Option.map_eq_some'] at h
      obtain ⟨cols1, hk, rfl⟩ := h
      simp only [List.flatten_cons]
      exact ((ih k cols1 hk).append_left col).trans List.perm_middle

theorem linearLoop_chars (cols : Nat) (letters : List LetterData) (currentCol currentRow : Nat)
    (columns : List (List Tile)) (r : Rand) (res : List (List Tile) × Rand)
    (h : linearLoop cols letters currentCol currentRow columns r = .ok res) :
    (res.1.flatten.map Tile.char).Perm
      (letters.map LetterData.char ++ columns.flatten.map Tile.char) := by
  induction letters generalizing currentCol currentRow columns r with
  | nil =>
    simp only [linearLoop, Except.ok.injEq] at h
    subst h
    simp
  | cons ld rest ih =>
    simp only [linearLoop] at h
    split at h
    · simp at h
    · rename_i columns1 hpush
      have hp := (pushTile_perm _ _ _ _ hpush).map Tile.char
      have hrec : (res.1.flatten.map Tile.char).Perm
          (rest.map LetterData.char ++ columns1.flatten.map Tile.char) := by
        split at h
        · exact ih _ _ _ _ h
        · exact ih _ _ _ _ h
      refine hrec.trans ?_
      simp only [List.map_cons, List.cons_append]
      exact (hp.append_left _).trans List.perm_middle

theorem clusterLoop_chars (config : LevelConfig) (letters : List LetterData)
    (colHeights : List Nat) (lastCol : Int) (columns : List (List Tile)) (r : Rand)
    (res : List (List Tile) × Rand)
    (h : clusterLoop config letters colHeights lastCol columns r = .ok res) :
    (res.1.flatten.map Tile.char).Perm
      (letters.map LetterData.char ++ columns.flatten.map Tile.char) := by
  induction letters generalizing colHeights lastCol columns r with
  | nil =>
    simp only [clusterLoop, Except.ok.injEq] at h
    subst h
    simp
  | cons ld rest ih =>
    simp only [clusterLoop] at h
    split at h
    · simp at h
    · split at h
      · simp at h
      · rename_i columns1 hpush
        have hp := (pushTile_perm _ _ _ _ hpush).map Tile.char
        refine (ih _ _ _ _ h).trans ?_
        simp only [List.map_cons, List.cons_append]
        exact (hp.append_left _).trans List.perm_middle

theorem randomLoop_chars (slots : List (Option Nat)) (letters : List LetterData) (index : Nat)
    (columns : List (List Tile)) (r : Rand) (res : List (List Tile) × Rand)
    (h : randomLoop slots index letters columns r = .ok res) :
    (res.1.flatten.map Tile.char).Perm
      (letters.map LetterData.char ++ columns.flatten.map Tile.char) := by
  induction letters generalizing index columns r with
  | nil =>
    simp only [randomLoop, Except.ok.injEq] at h
    subst h
    simp
  | cons ld rest ih =>
    simp only [randomLoop] at h
    split at h
    · simp at h
    · split at h
      · simp at h
      · rename_i columns1 hpush
        have hp := (pushTile_perm _ _ _ _ hpush).map Tile.char
        refine (ih _ _ _ h).trans ?_
        simp only [List.map_cons, List.cons_append]
        exact (hp.append_left _).trans List.perm_middle

theorem placeLetters_chars (config : LevelConfig) (letters : List LetterData)
    (columns : List (List Tile)) (r : Rand) (res : List (List Tile) × Rand)
    (h : placeLetters config letters columns r = .ok res) :
    (res.1.flatten.map Tile.char).Perm
      (letters.map LetterData.char ++ columns.flatten.map Tile.char) := by
  unfold placeLetters at h
  dsimp only at h
  split at h
  · exact linearLoop_chars _ _ _ _ _ _ _ h
  · split at h
    · exact clusterLoop_chars _ _ _ _ _ _ _ h
    · exact randomLoop_chars _ _ _ _ _ _ h

theorem flatten_eq_nil_of_all_nil {α : Type} (l : List (List α)) (h : ∀ col ∈ l, col = []) :
    l.flatten = [] := by
  induction l with
  | nil => rfl
  | cons a t ih =>
    have ha : a = [] := h a (List.mem_cons_self _ _)
    have ht := ih (fun col hc => h col (List.mem_cons_of_mem _ hc))
    simp [ha, ht]

theorem generateLevelWithWords_chars (config : LevelConfig) (ws : List Word) (gs : GameState)
    (r : Rand) (res : GameState × Rand)
    (hempty : ∀ col ∈ gs.columns, col = [])
    (h : generateLevelWithWords config ws gs r = .ok res) :
    (res.1.columns.flatten.map Tile.char).Perm ws.flatten := by
  unfold generateLevelWithWords at h
  dsimp only at h
  split at h
  · rename_i pl hpl
    simp only [Except.ok.injEq] at h
    subst h
    have h1 := placeLetters_chars _ _ _ _ _ hpl
    rw [flatten_eq_nil_of_all_nil _ hempty] at h1
    simp only [List.map_nil, List.append_nil] at h1
    exact h1.trans (collectLetters_chars_perm _ _ _ _)
  · simp at h

/-- C1: for every level config with `cols ≥ 1` (whatever its placement mode and
letter sort mode, recognised or not) and every random stream, whenever
`generateLevelWithWords` completes on empty columns with word list `ws`, the total
number of tiles across all columns equals the sum of the lengths of the words of
`ws`, and the multiset of tile chars equals the multiset of all letters of `ws`. -/
theorem generateLevelWithWords_tile_count (config : LevelConfig) (ws : List Word)
    (gs : GameState) (r : Rand) (res : GameState × Rand)
    (_hcols : 1 ≤ config.cols)
    (hempty : gs.columns = List.replicate config.cols [])
    (h : generateLevelWithWords config ws gs r = .ok res) :
    (res.1.columns.map List.length).sum = (ws.map List.length).sum
      ∧ Multiset.ofList (res.1.columns.flatten.map Tile.char) = Multiset.ofList ws.flatten := by
  have hall : ∀ col ∈ gs.columns, col = [] := by
    intro col hc
    rw [hempty] at hc
    exact (List.mem_replicate.mp hc).2
  have hp := generateLevelWithWords_chars config ws gs r res hall h
  refine ⟨?_, Quotient.sound hp⟩
  have hl := hp.length_eq
  rw [List.length_map, List.length_flatten, List.length_flatten] at hl
  exact hl

/-- A completed cluster run on the two-word level under the draws `k ↦ 3 * k + 1`. -/
theorem generateLevelWithWords_tile_count_witness :
    1 ≤ ({ kotPesLevel with order := some "cluster" } : LevelConfig).cols
      ∧ ((outcome (generateLevelWithWords { kotPesLevel with order := some "cluster" }
            kotPesStart.targetWords kotPesStart (fun k => 3 * k + 1))).1.columns.map
              List.length).sum = 6 :=
  ⟨by decide,
    (generateLevelWithWords_tile_count { kotPesLevel with order := some "cluster" }
      kotPesStart.targetWords kotPesStart (fun k => 3 * k + 1)
      (outcome (generateLevelWithWords { kotPesLevel with order := some "cluster" }
            kotPesStart.targetWords kotPesStart (fun k => 3 * k + 1)))
      (by decide) (by decide) (by rfl)).1⟩

/-! ## Linear placement -/

theorem pushTile_eq_some_iff (columns : List (List Tile)) (c : Nat) (tile : Tile)
    (columns1 : List (List Tile)) :
    pushTile columns c tile = some columns1 ↔
      ∃ col, columns[c]? = some col ∧ columns1 = columns.set c (col ++ [tile]) := by
  induction columns generalizing c columns1 with
  | nil => simp [pushTile]
  | cons col cols ih =>
    cases c with
    | zero => simp [pushTile, eq_comm]
    | succ k =>
      simp only [pushTile, Option.map_eq_some', ih, List.getElem?_cons_succ,
        List.set_cons_succ]
      constructor
      · rintro ⟨a, ⟨col1, h1, rfl⟩, rfl⟩
        exact ⟨col1, h1, rfl⟩
      · rintro ⟨col1, h1, rfl⟩
        exact ⟨_, ⟨col1, h1, rfl⟩, rfl⟩

theorem tileAt_pushTile_old (columns : List (List Tile)) (c : Nat) (tile : Tile)
    (columns1 : List (List Tile)) (h : pushTile columns c tile = some columns1)
    (c1 i : Nat) (t : Tile) (ht : tileAt columns c1 i = some t) :
    tileAt columns1 c1 i = some t := by
  obtain ⟨col, hcol, rfl⟩ := (pushTile_eq_some_iff _ _ _ _).mp h
  unfold tileAt at ht ⊢
  by_cases hc : c = c1
  · subst hc
    have hlt : c < columns.length := (List.getElem?_eq_some.mp hcol).1
    rw [List.getElem?_set_self hlt]
    rw [hcol] at ht
    simp only at ht ⊢
    have hi : i < col.length := (List.getElem?_eq_some.mp ht).1
    rw [List.getElem?_append_left hi]
    exact ht
  · rw [List.getElem?_set_ne hc]
    exact ht

theorem tileAt_pushTile_new (columns : List (List Tile)) (c : Nat) (tile : Tile)
    (columns1 : List (List Tile)) (h : pushTile columns c tile = some columns1)
    (col : List Tile) (hcol : columns[c]? = some col) :
    tileAt columns1 c col.length = some tile := by
  obtain ⟨col1, hcol1, rfl⟩ := (pushTile_eq_some_iff _ _ _ _).mp h
  rw [hcol] at hcol1
  cases hcol1
  unfold tileAt
  have hlt : c < columns.length := (List.getElem?_eq_some.mp hcol).1
  rw [List.getElem?_set_self hlt]
  simp

theorem linearLoop_spec (cols : Nat) (letters : List LetterData) (currentCol currentRow : Nat)
    (columns : List (List Tile)) (r : Rand)
    (hcol : currentCol < cols) (hlen : columns.length = cols)
    (hheights : ∀ c col, columns[c]? = some col →
      col.length = currentRow + (if c < currentCol then 1 else 0)) :
    ∃ res, linearLoop cols letters currentCol currentRow columns r = .ok res
      ∧ (∀ c i t, tileAt columns c i = some t → tileAt res.1 c i = some t)
      ∧ (∀ k ld, letters[k]? = some ld →
          ∃ t, tileAt res.1 ((currentRow * cols + currentCol + k) % cols)
                ((currentRow * cols + currentCol + k) / cols) = some t
            ∧ t.char = ld.char) := by
  induction letters generalizing currentCol currentRow columns r with
  | nil => exact ⟨(columns, r), rfl, fun _ _ _ h => h, by simp⟩
  | cons ld rest ih =>
    have hlt : currentCol < columns.length := by omega
    obtain ⟨col, hc⟩ : ∃ col, columns[currentCol]? = some col :=
      ⟨columns[currentCol], List.getElem?_eq_getElem hlt⟩
    have hcolLen : col.length = currentRow := by
      have := hheights currentCol col hc
      simpa using this
    have hpos : 0 < cols := by omega
    have hmod : (currentRow * cols + currentCol) % cols = currentCol := by
      rw [Nat.mul_add_mod_of_lt hcol]
    have hdiv : (currentRow * cols + currentCol) / cols = currentRow := by
      rw [Nat.add_comm, Nat.add_mul_div_right _ _ hpos, Nat.div_eq_of_lt hcol, Nat.zero_add]
    simp only [linearLoop]
    generalize htile : Tile.mk (r 0) ld.char currentCol ld.wordIndex false = tile
    have htc : tile.char = ld.char := by rw [← htile]
    obtain ⟨columns1, hpush⟩ : ∃ columns1, pushTile columns currentCol tile = some columns1 :=
      ⟨_, (pushTile_eq_some_iff _ _ _ _).mpr ⟨col, hc, rfl⟩⟩
    rw [hpush]
    simp only
    have hlen1 : columns1.length = cols := by
      obtain ⟨_, _, rfl⟩ := (pushTile_eq_some_iff _ _ _ _).mp hpush
      simpa using hlen
    have hget1 : ∀ c col1, columns1[c]? = some col1 →
        col1.length = currentRow + (if c < currentCol + 1 then 1 else 0) := by
      intro c col1 h1
      obtain ⟨col0, hcol0, rfl⟩ := (pushTile_eq_some_iff _ _ _ _).mp hpush
      rw [hc] at hcol0
      cases hcol0
      by_cases hcc : currentCol = c
      · subst hcc
        rw [List.getElem?_set_self hlt] at h1
        cases h1
        simp [hcolLen]
      · rw [List.getElem?_set_ne hcc] at h1
        have := hheights c col1 h1
        rw [this]
        by_cases h2 : c < currentCol
        · have h3 : c < currentCol + 1 := by omega
          simp [h2, h3]
        · have h3 : ¬ c < currentCol + 1 := by omega
          simp [h2, h3]
    have hnew := tileAt_pushTile_new _ _ _ _ hpush col hc
    rw [hcolLen] at hnew
    have hfinish : ∀ (nc nr : Nat), nr * cols + nc = currentRow * cols + currentCol + 1 →
        (∃ res, linearLoop cols rest nc nr columns1 r.next = .ok res
          ∧ (∀ c i t, tileAt columns1 c i = some t → tileAt res.1 c i = some t)
          ∧ (∀ k ld1, rest[k]? = some ld1 →
              ∃ t, tileAt res.1 ((nr * cols + nc + k) % cols)
                    ((nr * cols + nc + k) / cols) = some t ∧ t.char = ld1.char)) →
        ∃ res, linearLoop cols rest nc nr columns1 r.next = .ok res
          ∧ (∀ c i t, tileAt columns c i = some t → tileAt res.1 c i = some t)
          ∧ (∀ k ld1, (ld :: rest)[k]? = some ld1 →
              ∃ t, tileAt res.1 ((currentRow * cols + currentCol + k) % cols)
                    ((currentRow * cols + currentCol + k) / cols) = some t
                ∧ t.char = ld1.char) := by
      intro nc nr hm ⟨res, hres, hold, hk⟩
      refine ⟨res, hres, fun c i t ht => hold c i t (tileAt_pushTile_old _ _ _ _ hpush c i t ht),
        ?_⟩
      intro k ld1 hk1
      cases k with
      | zero =>
        simp only [List.getElem?_cons_zero, Option.some.injEq] at hk1
        subst hk1
        refine ⟨tile, ?_, htc⟩
        rw [Nat.add_zero, hmod, hdiv]
        exact hold _ _ _ hnew
      | succ j =>
        simp only [List.getElem?_cons_succ] at hk1
        obtain ⟨t, ht, htc1⟩ := hk j ld1 hk1
        refine ⟨t, ?_, htc1⟩
        have he : currentRow * cols + currentCol + (j + 1) = nr * cols + nc + j := by omega
        rw [he]
        exact ht
    split
    · rename_i hwrap
      apply hfinish 0 (currentRow + 1)
      · have : currentCol + 1 = cols := by omega
        rw [Nat.add_mul]
        omega
      · apply ih 0 (currentRow + 1) columns1 r.next hpos hlen1
        intro c col1 h1
        have h2 := hget1 c col1 h1
        have hclt : c < cols := by
          have := (List.getElem?_eq_some.mp h1).1
          omega
        have h3 : c < currentCol + 1 := by omega
        rw [h2]
        simp [h3]
    · rename_i hwrap
      apply hfinish (currentCol + 1) currentRow
      · omega
      · exact ih (currentCol + 1) currentRow columns1 r.next (by omega) hlen1 hget1

/-- C2: in linear placement mode with `cols ≥ 1`, generation on empty columns
completes and the `k`-th letter (0-based) of the concatenated sorted letter
sequence `allLetters` sits in column `k % cols` at stack position `k / cols`; and
for the target words КОТ, ПЕС with two columns and direct letter order the board
is column 0 = К, Т, Е and column 1 = О, П, С (bottom first), whatever the random
stream. -/
theorem linear_placement_round_robin (config : LevelConfig) (ws : List Word)
    (gs : GameState) (r : Rand)
    (hcols : 1 ≤ config.cols) (horder : config.order = some "linear")
    (hempty : gs.columns = List.replicate config.cols []) :
    (∃ res, generateLevelWithWords config ws gs r = .ok res
        ∧ ∀ k ld,
            (collectLetters gs.targetWords (orDefault config.letters "direct") ws r).1[k]?
                = some ld →
            ∃ t, tileAt res.1.columns (k % config.cols) (k / config.cols) = some t
              ∧ t.char = ld.char)
      ∧ (∀ r1 : Rand,
          ∃ res, generateLevelWithWords kotPesLevel [['К', 'О', 'Т'], ['П', 'Е', 'С']]
                kotPesStart r1 = .ok res
            ∧ boardChars res.1.columns = [['К', 'Т', 'Е'], ['О', 'П', 'С']]) := by
  constructor
  · have hlin : orDefault config.order "random" = "linear" := by
      rw [horder]
      decide
    have hlen : gs.columns.length = config.cols := by simp [hempty]
    have hh : ∀ c col, gs.columns[c]? = some col →
        col.length = 0 + (if c < 0 then 1 else 0) := by
      intro c col hc
      have hmem : col ∈ gs.columns := by
        obtain ⟨hlt, rfl⟩ := List.getElem?_eq_some.mp hc
        exact List.getElem_mem hlt
      rw [hempty] at hmem
      rw [(List.mem_replicate.mp hmem).2]
      simp
    obtain ⟨res, hres, -, hk⟩ := linearLoop_spec config.cols
      (collectLetters gs.targetWords (orDefault config.letters "direct") ws r).1 0 0
      gs.columns (collectLetters gs.targetWords (orDefault config.letters "direct") ws r).2
      (by omega) hlen hh
    refine ⟨({ gs with columns := res.1 }, res.2), ?_, ?_⟩
    · simp only [generateLevelWithWords, placeLetters, hlin, if_true, hres]
    · intro k ld hld
      obtain ⟨t, ht, htc⟩ := hk k ld hld
      simp only [Nat.zero_mul, Nat.zero_add] at ht
      exact ⟨t, ht, htc⟩
  · intro r1
    exact ⟨outcome (generateLevelWithWords kotPesLevel [['К', 'О', 'Т'], ['П', 'Е', 'С']]
      kotPesStart r1), rfl, rfl⟩

/-- The round-robin rule on the two-word level: the letter of index 3 (П) lies in
column 1 at stack position 1. -/
theorem linear_placement_round_robin_witness :
    ∃ res, generateLevelWithWords kotPesLevel kotPesStart.targetWords kotPesStart
          (fun k => k) = .ok res
      ∧ ∃ t, tileAt res.1.columns (3 % 2) (3 / 2) = some t ∧ t.char = 'П' := by
  obtain ⟨res, hres, hk⟩ := (linear_placement_round_robin kotPesLevel
    kotPesStart.targetWords kotPesStart (fun k => k) (by decide) rfl rfl).1
  exact ⟨res, hres, hk 3 ⟨'П', 1, 0⟩ rfl⟩

/-! ## Tile availability rule -/

theorem tileAt_eq_some_iff (columns : List (List Tile)) (c i : Nat) (t : Tile) :
    tileAt columns c i = some t ↔ ∃ column, columns[c]? = some column ∧ column[i]? = some t := by
  unfold tileAt
  cases h : columns[c]? with
  | none => simp
  | some column => simp

/-- C5: for every board and selection and every tile at a column index and tile
index of the board, `getTileStatus` returns one of the three statuses SELECTED
(`selected`), ACTIVE (`active`) and BLOCKED (neither), never both flags, and the
one given by the ordered rules: SELECTED if the tile's id is in `selectedTiles`,
else ACTIVE at index 0, else ACTIVE if the tile at `index - 1` of the same column
is in `selectedTiles`, else BLOCKED. -/
theorem getTileStatus_ordered_rules (gs : GameState) (column : List Tile) (tile : Tile)
    (colIndex tileIndex : Nat)
    (hcol : gs.columns[colIndex]? = some column) (htile : column[tileIndex]? = some tile) :
    ∃ status, getTileStatus gs tile colIndex tileIndex = .ok status
      ∧ (status = { active := false, selected := true }
          ∨ status = { active := true, selected := false }
          ∨ status = { active := false, selected := false })
      ∧ tileClass status = availabilityRule gs column tileIndex tile := by
  unfold getTileStatus availabilityRule
  by_cases hsel : isSelectedId gs tile.id = true
  · simp [hsel, tileClass]
  · by_cases h0 : tileIndex = 0
    · simp [hsel, h0, tileClass]
    · have hlt : tileIndex < column.length := (List.getElem?_eq_some.mp htile).1
      have hb : tileIndex - 1 < column.length := by omega
      have hbelow : column[tileIndex - 1]? = some column[tileIndex - 1] :=
        List.getElem?_eq_getElem hb
      simp only [hsel, h0, hcol, hbelow, if_false, Bool.false_eq_true]
      by_cases hbs : isSelectedId gs column[tileIndex - 1].id = true
      · simp [hbs, tileClass]
      · simp [hbs, tileClass]

/-- The rules on `kotPesTwoSelected`: the tile Е at index 2 of column 0, above the
selected К and Т, is ACTIVE. -/
theorem getTileStatus_ordered_rules_witness :
    ∃ status,
      getTileStatus kotPesTwoSelected ⟨4, 'Е', 0, 1, false⟩ 0 2 = .ok status
        ∧ (status = { active := false, selected := true }
            ∨ status = { active := true, selected := false }
            ∨ status = { active := false, selected := false })
        ∧ tileClass status = .active :=
  getTileStatus_ordered_rules kotPesTwoSelected
    [tileK, tileT, ⟨4, 'Е', 0, 1, false⟩] ⟨4, 'Е', 0, 1, false⟩ 0 2 (by decide) (by decide)

/-- C6, as stated, fails: in `kotPesTwoSelected` the tile Т sits at stack position
1 of column 0 and the tile К below it is selected, yet Т is not ACTIVE, because it
is selected itself and `getTileStatus` reports SELECTED. -/
theorem active_iff_below_selected_counterexample :
    tileAt kotPesTwoSelected.columns 0 1 = some tileT
      ∧ tileAt kotPesTwoSelected.columns 0 0 = some tileK
      ∧ isSelectedId kotPesTwoSelected tileK.id = true
      ∧ getTileStatus kotPesTwoSelected tileT 0 1 = .ok { active := false, selected := true }
      ∧ ¬ (getTileStatus kotPesTwoSelected tileT 0 1 = .ok { active := true, selected := false }
            ↔ isSelectedId kotPesTwoSelected tileK.id = true) := by
  decide

/-- C6, amended: for every board and selection, an unselected tile at stack
position 0 of a column is ACTIVE, and an unselected tile at stack position `i > 0`
is ACTIVE if and only if the tile at position `i - 1` of the same column is
selected. -/
theorem active_iff_below_selected (gs : GameState) (column : List Tile) (tile : Tile)
    (colIndex tileIndex : Nat)
    (hcol : gs.columns[colIndex]? = some column) (htile : column[tileIndex]? = some tile)
    (hunsel : isSelectedId gs tile.id = false) :
    (tileIndex = 0 →
        getTileStatus gs tile colIndex tileIndex = .ok { active := true, selected := false })
      ∧ (0 < tileIndex →
          ∃ below, column[tileIndex - 1]? = some below
            ∧ (getTileStatus gs tile colIndex tileIndex
                  = .ok { active := true, selected := false }
                ↔ isSelectedId gs below.id = true)) := by
  constructor
  · intro h0
    simp [getTileStatus, hunsel, h0]
  · intro hpos
    have hlt : tileIndex < column.length := (List.getElem?_eq_some.mp htile).1
    have hb : tileIndex - 1 < column.length := by omega
    have hbelow : column[tileIndex - 1]? = some column[tileIndex - 1] :=
      List.getElem?_eq_getElem hb
    refine ⟨column[tileIndex - 1], hbelow, ?_⟩
    have h0 : tileIndex ≠ 0 := by omega
    simp only [getTileStatus, hunsel, h0, hcol, hbelow, if_false, Bool.false_eq_true]
    by_cases hbs : isSelectedId gs column[tileIndex - 1].id = true
    · simp [hbs]
    · simp [hbs]

/-- The amended rule on `kotPesTwoSelected`: Е at position 2 of column 0 is
unselected and ACTIVE, the tile Т below it being selected. -/
theorem active_iff_below_selected_witness :
    ∃ below, [tileK, tileT, (⟨4, 'Е', 0, 1, false⟩ : Tile)][2 - 1]? = some below
      ∧ (getTileStatus kotPesTwoSelected ⟨4, 'Е', 0, 1, false⟩ 0 2
            = .ok { active := true, selected := false }
          ↔ isSelectedId kotPesTwoSelected below.id = true) :=
  (active_iff_below_selected kotPesTwoSelected [tileK, tileT, ⟨4, 'Е', 0, 1, false⟩]
    ⟨4, 'Е', 0, 1, false⟩ 0 2 (by decide) (by decide) (by decide)).2 (by decide)

/-! ## Deselection -/

theorem jsFindIndex_none {α : Type} (p : α → Bool) (l : List α)
    (h : ∀ a ∈ l, p a = false) : jsFindIndex p l = -1 := by
  induction l with
  | nil => rfl
  | cons a t ih =>
    have ha : p a = false := h a (List.mem_cons_self _ _)
    have ht := ih (fun b hb => h b (List.mem_cons_of_mem _ hb))
    simp [jsFindIndex, ha, ht]

theorem jsFindIndex_split {α : Type} (p : α → Bool) (l : List α)
    (h : ∃ a ∈ l, p a = true) :
    ∃ pre s post, l = pre ++ s :: post ∧ p s = true ∧ (∀ x ∈ pre, p x = false)
      ∧ jsFindIndex p l = (pre.length : Int) := by
  induction l with
  | nil => simp at h
  | cons a t ih =>
    by_cases ha : p a = true
    · exact ⟨[], a, t, rfl, ha, by simp, by simp [jsFindIndex, ha]⟩
    · have ha2 : p a = false := by simpa using ha
      have ht : ∃ b ∈ t, p b = true := by
        obtain ⟨b, hb, hpb⟩ := h
        rcases List.mem_cons.mp hb with rfl | hb2
        · exact absurd hpb ha
        · exact ⟨b, hb2, hpb⟩
      obtain ⟨pre, s, post, hl, hs, hpre, hidx⟩ := ih ht
      refine ⟨a :: pre, s, post, by simp [hl], hs, ?_, ?_⟩
      · intro x hx
        rcases List.mem_cons.mp hx with rfl | hx2
        · exact ha2
        · exact hpre x hx2
      · have hne : (pre.length : Int) ≠ -1 := by omega
        simp only [jsFindIndex, ha2, hidx, List.length_cons, Bool.false_eq_true, if_false, hne]
        push_cast
        rfl

theorem isSelectedId_iff (gs : GameState) (id : Nat) :
    isSelectedId gs id = true ↔ ∃ t ∈ gs.selectedTiles, t.id = id := by
  simp [isSelectedId]

theorem nodup_ids_index_eq (column : List Tile) (hids : (column.map Tile.id).Nodup)
    (i j : Nat) (t u : Tile) (ht : column[i]? = some t) (hu : column[j]? = some u)
    (hid : t.id = u.id) : i = j := by
  obtain ⟨hi, rfl⟩ := List.getElem?_eq_some.mp ht
  obtain ⟨hj, rfl⟩ := List.getElem?_eq_some.mp hu
  have hi2 : i < (column.map Tile.id).length := by simpa using hi
  have hj2 : j < (column.map Tile.id).length := by simpa using hj
  exact (@List.Nodup.getElem_inj_iff _ _ hids i hi2 j hj2).mp (by simpa using hid)

theorem column_findIndex (column : List Tile) (hids : (column.map Tile.id).Nodup)
    (i : Nat) (tile : Tile) (htile : column[i]? = some tile) :
    jsFindIndex (fun t => decide (t.id = tile.id)) column = (i : Int) := by
  have hmem : tile ∈ column := by
    obtain ⟨hi, rfl⟩ := List.getElem?_eq_some.mp htile
    exact List.getElem_mem hi
  obtain ⟨pre, s, post, hl, hs, -, hidx⟩ :=
    jsFindIndex_split (fun t => decide (t.id = tile.id)) column ⟨tile, hmem, by simp⟩
  have hs2 : s.id = tile.id := by simpa using hs
  have hsat : column[pre.length]? = some s := by
    rw [hl, List.getElem?_append_right (Nat.le_refl _)]
    simp
  have := nodup_ids_index_eq column hids pre.length i s tile hsat htile hs2
  rw [hidx, this]

/-- C8: for every state with `isProcessing` false whose column ids are pairwise
distinct and every tile `tile` at index `i` of its column `columns[tile.colIndex]`:
`handleSelectedTileClick(tile)` returns without throwing and leaves the columns and
all four word lists unchanged; if some tile above `tile` in the column is in
`selectedTiles` the selection is unchanged; otherwise, if `tile` is in
`selectedTiles`, the new selection is the old one with exactly the first entry of
`tile`'s id removed, all others kept in their order. -/
theorem handleSelectedTileClick_topmost_only (gs : GameState) (column : List Tile)
    (tile : Tile) (i : Nat)
    (hproc : gs.isProcessing = false)
    (hcol : gs.columns[tile.colIndex]? = some column)
    (htile : column[i]? = some tile)
    (hids : (column.map Tile.id).Nodup) :
    ∃ gs1, handleSelectedTileClick gs tile = .ok gs1
      ∧ gs1.columns = gs.columns ∧ gs1.targetWords = gs.targetWords
      ∧ gs1.foundWords = gs.foundWords ∧ gs1.revealedWords = gs.revealedWords
      ∧ gs1.hiddenWords = gs.hiddenWords
      ∧ ((∃ above ∈ column.drop (i + 1), isSelectedId gs above.id = true) →
          gs1.selectedTiles = gs.selectedTiles)
      ∧ ((∀ above ∈ column.drop (i + 1), isSelectedId gs above.id = false) →
          isSelectedId gs tile.id = true →
          ∃ pre s post, gs.selectedTiles = pre ++ s :: post ∧ s.id = tile.id
            ∧ (∀ x ∈ pre, x.id ≠ tile.id) ∧ gs1.selectedTiles = pre ++ post) := by
  have hfind := column_findIndex column hids i tile htile
  have hdrop : ((i : Int) + 1).toNat = i + 1 := by omega
  unfold handleSelectedTileClick
  simp only [hproc, hcol, hfind, hdrop, Bool.false_eq_true, if_false]
  by_cases habove :
      (column.drop (i + 1)).any (fun t => isSelectedId gs t.id) = true
  · simp only [habove, if_true]
    refine ⟨gs, rfl, rfl, rfl, rfl, rfl, rfl, fun _ => rfl, ?_⟩
    intro hnone
    obtain ⟨a, ha, hsa⟩ := List.any_eq_true.mp habove
    rw [hnone a ha] at hsa
    exact absurd hsa (by simp)
  · simp only [habove, Bool.false_eq_true, if_false]
    have hno : ¬ ∃ above ∈ column.drop (i + 1), isSelectedId gs above.id = true := by
      intro ⟨a, ha, hsa⟩
      exact habove (List.any_eq_true.mpr ⟨a, ha, hsa⟩)
    by_cases hsel : isSelectedId gs tile.id = true
    · obtain ⟨t, htm, htid⟩ := (isSelectedId_iff gs tile.id).mp hsel
      obtain ⟨pre, s, post, hl, hs, hpre, hidx⟩ :=
        jsFindIndex_split (fun t => decide (t.id = tile.id)) gs.selectedTiles
          ⟨t, htm, by simpa using htid⟩
      have hne : (pre.length : Int) ≠ -1 := by omega
      simp only [hidx, ne_eq, hne, not_false_eq_true, if_true, Int.toNat_ofNat]
      refine ⟨_, rfl, rfl, rfl, rfl, rfl, rfl, fun h => absurd h hno, ?_⟩
      intro _ _
      refine ⟨pre, s, post, hl, by simpa using hs, ?_, ?_⟩
      · intro x hx
        simpa using hpre x hx
      · simp only [hl]
        rw [List.eraseIdx_append_of_length_le (Nat.le_refl _)]
        simp
    · have hnot : ∀ a ∈ gs.selectedTiles,
          (fun t : Tile => decide (t.id = tile.id)) a = false := by
        intro a ha
        by_contra hc
        apply hsel
        exact (isSelectedId_iff gs tile.id).mpr ⟨a, ha, by simpa using hc⟩
      rw [jsFindIndex_none _ _ hnot]
      simp only [ne_eq, not_true_eq_false, if_false]
      exact ⟨gs, rfl, rfl, rfl, rfl, rfl, rfl, fun _ => rfl, fun _ h => absurd h hsel⟩

/-- Deselecting the topmost selected tile Т of `kotPesTwoSelected` leaves К alone
selected, while a click on the covered К changes nothing. -/
theorem handleSelectedTileClick_topmost_only_witness :
    (∃ gs1, handleSelectedTileClick kotPesTwoSelected tileT = .ok gs1
        ∧ gs1.columns = kotPesTwoSelected.columns)
      ∧ kotPesDeselected.selectedTiles = [tileK]
      ∧ handleSelectedTileClick kotPesTwoSelected tileK = .ok kotPesTwoSelected := by
  obtain ⟨gs1, h1, h2, -⟩ := handleSelectedTileClick_topmost_only kotPesTwoSelected
    [tileK, tileT, ⟨4, 'Е', 0, 1, false⟩] tileT 1 (by decide) (by decide) (by decide)
    (by decide)
  exact ⟨⟨gs1, h1, h2⟩, by decide, by decide⟩

/-! ## Classification of the assembled word -/

/-- C9: for every session state and dictionary, `updateSelectionUI` puts the
assembled word in exactly one of five classes, decided in this order: EMPTY
(`plain`, length 0); ALREADY_FOUND (in `foundWords` or `hiddenWords`);
TARGET_UNFOUND (`correct`: in `targetWords`, and then not in `foundWords`);
IN_DICTIONARY (`gold`: in the dictionary and not a target word); INVALID (none of
these).  Outside processing `handleInputPanelClick` branches on the same class:
nothing for EMPTY and ALREADY_FOUND, `checkWordMatch` for TARGET_UNFOUND and
IN_DICTIONARY, `resetSelection` for INVALID. -/
theorem updateSelectionUI_classes (dictionary : List Word) (gs : GameState) :
    (updateSelectionUI dictionary gs = .plain ↔ (currentWord gs).length = 0)
      ∧ (updateSelectionUI dictionary gs = .alreadyFound ↔
          (currentWord gs).length ≠ 0
            ∧ (currentWord gs ∈ gs.foundWords ∨ currentWord gs ∈ gs.hiddenWords))
      ∧ (updateSelectionUI dictionary gs = .correct ↔
          (currentWord gs).length ≠ 0
            ∧ ¬ (currentWord gs ∈ gs.foundWords ∨ currentWord gs ∈ gs.hiddenWords)
            ∧ currentWord gs ∈ gs.targetWords)
      ∧ (updateSelectionUI dictionary gs = .gold ↔
          (currentWord gs).length ≠ 0
            ∧ ¬ (currentWord gs ∈ gs.foundWords ∨ currentWord gs ∈ gs.hiddenWords)
            ∧ currentWord gs ∉ gs.targetWords ∧ currentWord gs ∈ dictionary)
      ∧ (updateSelectionUI dictionary gs = .invalid ↔
          (currentWord gs).length ≠ 0
            ∧ ¬ (currentWord gs ∈ gs.foundWords ∨ currentWord gs ∈ gs.hiddenWords)
            ∧ currentWord gs ∉ gs.targetWords ∧ currentWord gs ∉ dictionary)
      ∧ (updateSelectionUI dictionary gs = .correct →
          currentWord gs ∈ gs.targetWords ∧ currentWord gs ∉ gs.foundWords)
      ∧ (updateSelectionUI dictionary gs = .gold →
          currentWord gs ∈ dictionary ∧ currentWord gs ∉ gs.targetWords)
      ∧ (gs.isProcessing = false →
          handleInputPanelClick dictionary gs =
            match updateSelectionUI dictionary gs with
            | .plain => (gs, none)
            | .alreadyFound => (gs, none)
            | .correct => checkWordMatch dictionary gs
            | .gold => checkWordMatch dictionary gs
            | .invalid => (resetSelection gs, none)) := by
  refine ⟨?_, ?_, ?_, ?_, ?_, ?_, ?_, fun hproc => ?_⟩ <;>
  · unfold updateSelectionUI
    try unfold handleInputPanelClick
    by_cases hlen : (currentWord gs).length = 0 <;>
    by_cases hf : currentWord gs ∈ gs.foundWords <;>
    by_cases hh : currentWord gs ∈ gs.hiddenWords <;>
    by_cases ht : currentWord gs ∈ gs.targetWords <;>
    by_cases hd : currentWord gs ∈ dictionary <;>
    simp_all

/-- On `kotPesKO` the word КО is INVALID under the empty dictionary, and a click
on the panel resets the selection. -/
theorem updateSelectionUI_classes_witness :
    updateSelectionUI [] kotPesKO = .invalid
      ∧ handleInputPanelClick [] kotPesKO = (resetSelection kotPesKO, none) :=
  ⟨by decide,
    (updateSelectionUI_classes [] kotPesKO).2.2.2.2.2.2.2 (by decide)⟩

/-! ## Confirming a target word -/

theorem removeLoop_eq (ids : List Nat) (n : Nat) (col : List Tile) (hn : n ≤ col.length) :
    removeLoop ids n col
      = (col.take n).filter (fun t => !decide (t.id ∈ ids)) ++ col.drop n := by
  induction n generalizing col with
  | zero => simp [removeLoop]
  | succ k ih =>
    have hk : k < col.length := by omega
    have hget : col[k]? = some col[k] := List.getElem?_eq_getElem hk
    have htake : col.take (k + 1) = col.take k ++ [col[k]] := by
      rw [List.take_succ, hget]
      rfl
    have hdrop : col.drop k = col[k] :: col.drop (k + 1) := List.drop_eq_getElem_cons hk
    simp only [removeLoop, hget]
    by_cases hmem : col[k].id ∈ ids
    · simp only [hmem, if_true]
      have hlen : k ≤ (col.eraseIdx k).length := by
        rw [List.length_eraseIdx]
        simp only [hk, if_true]
        omega
      rw [ih _ hlen, htake, List.filter_append]
      have h1 : (col.eraseIdx k).take k = col.take k := by
        rw [List.eraseIdx_eq_take_drop_succ, List.take_append_of_le_length (by simp; omega)]
        simp
      have h2 : (col.eraseIdx k).drop k = col.drop (k + 1) := by
        rw [List.eraseIdx_eq_take_drop_succ]
        have hl : (col.take k).length = k := by simp; omega
        rw [List.drop_append_of_le_length (by omega)]
        rw [List.drop_of_length_le (by omega)]
        simp
      rw [h1, h2]
      simp [hmem]
    · simp only [hmem, if_false]
      rw [ih _ (by omega), htake, List.filter_append, hdrop]
      simp [hmem]

theorem removeLoop_eq_filter (ids : List Nat) (col : List Tile) :
    removeLoop ids col.length col = col.filter (fun t => !decide (t.id ∈ ids)) := by
  rw [removeLoop_eq ids col.length col (Nat.le_refl _)]
  simp

theorem removeSelectedTiles_columns (gs : GameState) :
    (removeSelectedTiles gs).columns
      = gs.columns.map (fun col => col.filter (fun t => !isSelectedId gs t.id)) := by
  unfold removeSelectedTiles
  simp only
  apply List.map_congr_left
  intro col _
  rw [removeLoop_eq_filter]
  apply List.filter_congr
  intro t _
  congr 1
  rw [Bool.eq_iff_iff]
  simp [isSelectedId]

theorem jsIndexOf_erase (l : List Word) (w : Word) :
    (if jsIndexOf l w ≠ -1 then l.eraseIdx (jsIndexOf l w).toNat else l) = l.erase w := by
  induction l with
  | nil => simp [jsIndexOf]
  | cons a t ih =>
    by_cases ha : a = w
    · subst ha
      simp [jsIndexOf]
    · have hbeq : (a == w) = false := by simpa using ha
      simp only [jsIndexOf, ha, if_false, List.erase_cons, hbeq, Bool.false_eq_true]
      by_cases hk : jsIndexOf t w = -1
      · rw [hk] at ih
        simp only [ne_eq, not_true_eq_false, if_false] at ih
        simp [hk, ← ih]
      · have hnn : 0 ≤ jsIndexOf t w := by
          clear ih ha hbeq
          induction t with
          | nil => simp [jsIndexOf] at hk
          | cons b u ihu =>
            simp only [jsIndexOf] at hk ⊢
            split
            · omega
            · split
              · rename_i h1 h2
                simp [h1, h2] at hk
              · rename_i h1 h2
                have := ihu h2
                omega
        have hne : jsIndexOf t w + 1 ≠ -1 := by omega
        simp only [hk, if_false, ne_eq, hne, not_false_eq_true, if_true] at ih ⊢
        have htn : (jsIndexOf t w + 1).toNat = (jsIndexOf t w).toNat + 1 := by omega
        rw [htn, List.eraseIdx_cons_succ, ih]

theorem selected_tiles_count (tiles : List Tile) (sel : List Nat)
    (hids : (tiles.map Tile.id).Nodup) (hsel : sel.Nodup)
    (hlive : ∀ x ∈ sel, ∃ u ∈ tiles, u.id = x) :
    (tiles.filter (fun t => !decide (t.id ∈ sel))).length + sel.length = tiles.length := by
  have hsplit := @List.length_eq_length_filter_add _ tiles (fun t => decide (t.id ∈ sel))
  have hnd : ((tiles.filter (fun t => decide (t.id ∈ sel))).map Tile.id).Nodup :=
    List.Nodup.sublist ((List.filter_sublist tiles).map Tile.id) hids
  have hperm : ((tiles.filter (fun t => decide (t.id ∈ sel))).map Tile.id).Perm sel := by
    rw [List.perm_ext_iff_of_nodup hnd hsel]
    intro a
    simp only [List.mem_map, List.mem_filter, decide_eq_true_eq]
    constructor
    · rintro ⟨t, ⟨_, ht⟩, rfl⟩
      exact ht
    · intro ha
      obtain ⟨u, hu, rfl⟩ := hlive a ha
      exact ⟨u, ⟨hu, ha⟩, rfl⟩
  have hlen := hperm.length_eq
  rw [List.length_map] at hlen
  omega

/-- C10, as stated, fails in three ways.  On the empty word: in `emptyWordState`
nothing is selected, the selected word is the empty word, a target word not in
`foundWords`, yet Confirm returns at the length check and changes nothing.  On a
target word listed in `hiddenWords`: in `kotPesHiddenKOT` the selected word КОТ is
a target word not in `foundWords`, yet Confirm returns at the already-found check
and changes nothing.  On selected tiles that are not on the board: in
`kotPesStray` Confirm commits КОТ, and after the completion the board still holds
its 6 tiles although 3 tiles were selected. -/
theorem confirm_target_word_counterexample :
    (emptyWordState.isProcessing = false
        ∧ currentWord emptyWordState ∈ emptyWordState.targetWords
        ∧ currentWord emptyWordState ∉ emptyWordState.foundWords
        ∧ handleInputPanelClick [] emptyWordState = (emptyWordState, none))
      ∧ (kotPesHiddenKOT.isProcessing = false
        ∧ currentWord kotPesHiddenKOT ∈ kotPesHiddenKOT.targetWords
        ∧ currentWord kotPesHiddenKOT ∉ kotPesHiddenKOT.foundWords
        ∧ handleInputPanelClick [] kotPesHiddenKOT = (kotPesHiddenKOT, none))
      ∧ (kotPesStray.isProcessing = false
        ∧ currentWord kotPesStray ∈ kotPesStray.targetWords
        ∧ currentWord kotPesStray ∉ kotPesStray.foundWords
        ∧ (handleInputPanelClick [] kotPesStray).2 = some .foundCommit
        ∧ kotPesStray.selectedTiles.length = 3
        ∧ (kotPesStray.columns.map List.length).sum = 6
        ∧ ((runTimer .foundCommit (handleInputPanelClick [] kotPesStray).1).columns.map
              List.length).sum = 6) := by
  decide

/-- C10, amended: for every non-processing state within the data model (tile ids
unique on the board, selected tiles pairwise distinct and present on the board,
no hidden word among the target words) whose selected word `w` is non-empty, is a
target word and is not in `foundWords`: Confirm schedules the found-word
completion, sets `isProcessing`, appends `w` to `foundWords` and deletes the first
occurrence of `w` from `revealedWords` (so `w` is gone when `revealedWords` has no
repetition), leaving columns and selection as they are; and after the completion
each column is its previous content with exactly the tiles of a selected id
filtered out, survivors in order, `selectedTiles` is empty, `isProcessing` is
false, and the total tile count has decreased by the number of selected tiles. -/
theorem confirm_target_word (dictionary : List Word) (gs : GameState)
    (hproc : gs.isProcessing = false)
    (hne : currentWord gs ≠ [])
    (htarget : currentWord gs ∈ gs.targetWords)
    (hnf : currentWord gs ∉ gs.foundWords)
    (hdisj : ∀ x ∈ gs.hiddenWords, x ∉ gs.targetWords)
    (hids : (gs.columns.flatten.map Tile.id).Nodup)
    (hsel : (gs.selectedTiles.map Tile.id).Nodup)
    (hlive : ∀ t ∈ gs.selectedTiles, ∃ u ∈ gs.columns.flatten, u.id = t.id) :
    (handleInputPanelClick dictionary gs).2 = some .foundCommit
      ∧ (handleInputPanelClick dictionary gs).1.isProcessing = true
      ∧ (handleInputPanelClick dictionary gs).1.foundWords
          = gs.foundWords ++ [currentWord gs]
      ∧ (handleInputPanelClick dictionary gs).1.revealedWords
          = gs.revealedWords.erase (currentWord gs)
      ∧ (gs.revealedWords.Nodup →
          currentWord gs ∉ (handleInputPanelClick dictionary gs).1.revealedWords)
      ∧ (handleInputPanelClick dictionary gs).1.columns = gs.columns
      ∧ (handleInputPanelClick dictionary gs).1.selectedTiles = gs.selectedTiles
      ∧ (runTimer .foundCommit (handleInputPanelClick dictionary gs).1).columns
          = gs.columns.map (fun col => col.filter (fun t => !isSelectedId gs t.id))
      ∧ (runTimer .foundCommit (handleInputPanelClick dictionary gs).1).selectedTiles = []
      ∧ (runTimer .foundCommit (handleInputPanelClick dictionary gs).1).isProcessing = false
      ∧ ((runTimer .foundCommit (handleInputPanelClick dictionary gs).1).columns.map
            List.length).sum + gs.selectedTiles.length
          = (gs.columns.map List.length).sum := by
  have hlen : (currentWord gs).length ≠ 0 := by
    intro h
    exact hne (List.length_eq_zero.mp h)
  have hnh : currentWord gs ∉ gs.hiddenWords := fun h => hdisj _ h htarget
  have hclick : handleInputPanelClick dictionary gs
      = ({ gs with
            isProcessing := true
            foundWords := gs.foundWords ++ [currentWord gs]
            revealedWords := gs.revealedWords.erase (currentWord gs) },
          some .foundCommit) := by
    unfold handleInputPanelClick checkWordMatch
    simp only [hproc, hlen, htarget, hnf, hnh, Bool.false_eq_true, if_false, decide_True,
      decide_False, Bool.or_self, Bool.true_or, if_true, not_false_eq_true, and_self]
    rw [jsIndexOf_erase]
  rw [hclick]
  have hcols : (runTimer .foundCommit
        { gs with
            isProcessing := true
            foundWords := gs.foundWords ++ [currentWord gs]
            revealedWords := gs.revealedWords.erase (currentWord gs) }).columns
      = gs.columns.map (fun col => col.filter (fun t => !isSelectedId gs t.id)) := by
    simp only [runTimer]
    rw [removeSelectedTiles_columns]
    rfl
  refine ⟨rfl, rfl, rfl, rfl, fun hnd => List.Nodup.not_mem_erase hnd, rfl, rfl, hcols,
    rfl, rfl, ?_⟩
  rw [hcols, ← List.length_flatten, ← List.length_flatten, ← List.filter_flatten]
  have hfilter : gs.columns.flatten.filter (fun t => !isSelectedId gs t.id)
      = gs.columns.flatten.filter
          (fun t => !decide (t.id ∈ gs.selectedTiles.map Tile.id)) := by
    apply List.filter_congr
    intro t _
    congr 1
    rw [Bool.eq_iff_iff]
    simp [isSelectedId]
  rw [hfilter]
  have hcount := selected_tiles_count gs.columns.flatten (gs.selectedTiles.map Tile.id)
    hids hsel (by
      intro x hx
      obtain ⟨t, ht, rfl⟩ := List.mem_map.mp hx
      exact hlive t ht)
  rw [List.length_map] at hcount
  exact hcount

/-- Confirming КОТ on `kotPesKOT`: the word is appended to `foundWords`, and the
completion leaves column 0 = Е and column 1 = П, С. -/
theorem confirm_target_word_witness :
    (handleInputPanelClick [] kotPesKOT).1.foundWords = [['К', 'О', 'Т']]
      ∧ boardChars (runTimer .foundCommit (handleInputPanelClick [] kotPesKOT).1).columns
          = [['Е'], ['П', 'С']]
      ∧ ((runTimer .foundCommit (handleInputPanelClick [] kotPesKOT).1).columns.map
            List.length).sum + 3 = 6 := by
  have h := confirm_target_word [] kotPesKOT (by decide) (by decide) (by decide) (by decide)
    (by decide) (by decide) (by decide) (by decide)
  exact ⟨h.2.2.1, by decide, h.2.2.2.2.2.2.2.2.2.2⟩

/-! ## The bottom-prefix invariant of the selection -/

theorem pushTile_colIndexOk (columns : List (List Tile)) (c : Nat) (tile : Tile)
    (columns1 : List (List Tile)) (hok : ColIndexOk columns)
    (h : pushTile columns c tile = some columns1) (htile : tile.colIndex = c) :
    ColIndexOk columns1 := by
  obtain ⟨col, hcol, rfl⟩ := (pushTile_eq_some_iff _ _ _ _).mp h
  intro c1 col1 h1 t ht
  by_cases hc : c = c1
  · subst hc
    have hlt : c < columns.length := (List.getElem?_eq_some.mp hcol).1
    rw [List.getElem?_set_self hlt] at h1
    cases h1
    rcases List.mem_append.mp ht with h2 | h2
    · exact hok c col hcol t h2
    · rw [List.mem_singleton.mp h2]
      exact htile
  · rw [List.getElem?_set_ne hc] at h1
    exact hok c1 col1 h1 t ht

theorem linearLoop_colIndexOk (cols : Nat) (letters : List LetterData)
    (currentCol currentRow : Nat) (columns : List (List Tile)) (r : Rand)
    (hok : ColIndexOk columns) :
    ColIndexOk (outcome (linearLoop cols letters currentCol currentRow columns r)).1 := by
  induction letters generalizing currentCol currentRow columns r with
  | nil => exact hok
  | cons ld rest ih =>
    simp only [linearLoop]
    split
    · exact hok
    · rename_i columns1 hpush
      have h1 := pushTile_colIndexOk _ _ _ _ hok hpush rfl
      split
      · exact ih _ _ _ _ h1
      · exact ih _ _ _ _ h1

theorem clusterLoop_colIndexOk (config : LevelConfig) (letters : List LetterData)
    (colHeights : List Nat) (lastCol : Int) (columns : List (List Tile)) (r : Rand)
    (hok : ColIndexOk columns) :
    ColIndexOk (outcome (clusterLoop config letters colHeights lastCol columns r)).1 := by
  induction letters generalizing colHeights lastCol columns r with
  | nil => exact hok
  | cons ld rest ih =>
    simp only [clusterLoop]
    split
    · exact hok
    · split
      · exact hok
      · rename_i columns1 hpush
        exact ih _ _ _ _ (pushTile_colIndexOk _ _ _ _ hok hpush rfl)

theorem randomLoop_colIndexOk (slots : List (Option Nat)) (letters : List LetterData)
    (index : Nat) (columns : List (List Tile)) (r : Rand) (hok : ColIndexOk columns) :
    ColIndexOk (outcome (randomLoop slots index letters columns r)).1 := by
  induction letters generalizing index columns r with
  | nil => exact hok
  | cons ld rest ih =>
    simp only [randomLoop]
    split
    · exact hok
    · split
      · exact hok
      · rename_i columns1 hpush
        exact ih _ _ _ (pushTile_colIndexOk _ _ _ _ hok hpush rfl)

theorem placeLetters_colIndexOk (config : LevelConfig) (letters : List LetterData)
    (columns : List (List Tile)) (r : Rand) (hok : ColIndexOk columns) :
    ColIndexOk (outcome (placeLetters config letters columns r)).1 := by
  unfold placeLetters
  dsimp only
  split
  · exact linearLoop_colIndexOk _ _ _ _ _ _ hok
  · split
    · exact clusterLoop_colIndexOk _ _ _ _ _ _ hok
    · exact randomLoop_colIndexOk _ _ _ _ _ hok

theorem generateLevelWithWords_outcome (config : LevelConfig) (words : List Word)
    (gs : GameState) (r : Rand) (hok : ColIndexOk gs.columns) :
    ColIndexOk (outcome (generateLevelWithWords config words gs r)).1.columns
      ∧ (outcome (generateLevelWithWords config words gs r)).1.selectedTiles
          = gs.selectedTiles := by
  have h := placeLetters_colIndexOk config
    (collectLetters gs.targetWords (orDefault config.letters "direct") words r).1
    gs.columns (collectLetters gs.targetWords (orDefault config.letters "direct") words r).2 hok
  unfold generateLevelWithWords
  dsimp only
  split
  · rename_i res hres
    rw [hres] at h
    exact ⟨h, rfl⟩
  · rename_i res hres
    rw [hres] at h
    exact ⟨h, rfl⟩

theorem colIndexOk_replicate (n : Nat) : ColIndexOk (List.replicate n []) := by
  intro c col hc t ht
  have hmem : col ∈ List.replicate n ([] : List Tile) := by
    obtain ⟨hlt, rfl⟩ := List.getElem?_eq_some.mp hc
    exact List.getElem_mem hlt
  rw [(List.mem_replicate.mp hmem).2] at ht
  simp at ht

theorem restartLevel_outcome (levelConfig : Option LevelConfig) (gs : GameState) (r : Rand) :
    (outcome (restartLevel levelConfig gs r)).1 = gs
      ∨ (ColIndexOk (outcome (restartLevel levelConfig gs r)).1.columns
          ∧ (outcome (restartLevel levelConfig gs r)).1.selectedTiles = []) := by
  unfold restartLevel
  split
  · exact Or.inl rfl
  · split
    · exact Or.inl rfl
    · dsimp only
      split
      · exact Or.inl rfl
      · right
        exact generateLevelWithWords_outcome _ _ _ _ (colIndexOk_replicate _)

theorem column_ids_nodup (columns : List (List Tile)) (hd : TileIdsDistinct columns)
    (c : Nat) (col : List Tile) (hc : columns[c]? = some col) : (col.map Tile.id).Nodup := by
  unfold TileIdsDistinct at hd
  induction columns generalizing c with
  | nil => simp at hc
  | cons a rest ih =>
    simp only [List.flatten_cons, List.map_append] at hd
    cases c with
    | zero =>
      simp only [List.getElem?_cons_zero, Option.some.injEq] at hc
      subst hc
      exact (List.nodup_append.mp hd).1
    | succ k =>
      simp only [List.getElem?_cons_succ] at hc
      exact ih (List.nodup_append.mp hd).2.1 k hc

theorem tileAt_mem_flatten (columns : List (List Tile)) (c i : Nat) (t : Tile)
    (h : tileAt columns c i = some t) : t ∈ columns.flatten := by
  obtain ⟨col, hc, hi⟩ := (tileAt_eq_some_iff _ _ _ _).mp h
  obtain ⟨hlt, rfl⟩ := List.getElem?_eq_some.mp hc
  obtain ⟨hlt2, rfl⟩ := List.getElem?_eq_some.mp hi
  exact List.mem_flatten.mpr ⟨_, List.getElem_mem hlt, List.getElem_mem hlt2⟩

theorem tileAt_inj (columns : List (List Tile)) (hd : TileIdsDistinct columns)
    (c i c1 i1 : Nat) (t t1 : Tile) (ht : tileAt columns c i = some t)
    (ht1 : tileAt columns c1 i1 = some t1) (hid : t.id = t1.id) : c = c1 ∧ i = i1 := by
  induction columns generalizing c c1 with
  | nil => simp [tileAt] at ht
  | cons a rest ih =>
    have hd0 := hd
    unfold TileIdsDistinct at hd
    simp only [List.flatten_cons, List.map_append] at hd
    obtain ⟨hna, hnr, hdisj⟩ := List.nodup_append.mp hd
    cases c with
    | zero =>
      cases c1 with
      | zero =>
        simp only [tileAt, List.getElem?_cons_zero] at ht ht1
        exact ⟨rfl, nodup_ids_index_eq a hna i i1 t t1 ht ht1 hid⟩
      | succ k1 =>
        exfalso
        simp only [tileAt, List.getElem?_cons_zero] at ht
        have hm : t.id ∈ a.map Tile.id := by
          obtain ⟨hlt, rfl⟩ := List.getElem?_eq_some.mp ht
          exact List.mem_map.mpr ⟨_, List.getElem_mem hlt, rfl⟩
        have ht1r : tileAt rest k1 i1 = some t1 := by
          simpa only [tileAt, List.getElem?_cons_succ] using ht1
        have hm1 : t1.id ∈ rest.flatten.map Tile.id :=
          List.mem_map.mpr ⟨_, tileAt_mem_flatten _ _ _ _ ht1r, rfl⟩
        rw [← hid] at hm1
        exact hdisj hm hm1
    | succ k =>
      cases c1 with
      | zero =>
        exfalso
        simp only [tileAt, List.getElem?_cons_zero] at ht1
        have hm : t1.id ∈ a.map Tile.id := by
          obtain ⟨hlt, rfl⟩ := List.getElem?_eq_some.mp ht1
          exact List.mem_map.mpr ⟨_, List.getElem_mem hlt, rfl⟩
        have htr : tileAt rest k i = some t := by
          simpa only [tileAt, List.getElem?_cons_succ] using ht
        have hm1 : t.id ∈ rest.flatten.map Tile.id :=
          List.mem_map.mpr ⟨_, tileAt_mem_flatten _ _ _ _ htr, rfl⟩
        rw [hid] at hm1
        exact hdisj hm hm1
      | succ k1 =>
        have htr : tileAt rest k i = some t := by
          simpa only [tileAt, List.getElem?_cons_succ] using ht
        have ht1r : tileAt rest k1 i1 = some t1 := by
          simpa only [tileAt, List.getElem?_cons_succ] using ht1
        obtain ⟨h1, h2⟩ := ih hnr k k1 htr ht1r
        exact ⟨by rw [h1], h2⟩

theorem getTileStatus_active_elim (gs : GameState) (tile : Tile) (c i : Nat)
    (h : getTileStatus gs tile c i = .ok { active := true, selected := false }) :
    isSelectedId gs tile.id = false
      ∧ (i = 0 ∨ ∃ below, tileAt gs.columns c (i - 1) = some below
            ∧ isSelectedId gs below.id = true) := by
  unfold getTileStatus at h
  by_cases hsel : isSelectedId gs tile.id = true
  · simp [hsel] at h
  · have hsel2 : isSelectedId gs tile.id = false := by simpa using hsel
    refine ⟨hsel2, ?_⟩
    by_cases h0 : i = 0
    · exact Or.inl h0
    · right
      simp only [hsel2, h0, if_false, Bool.false_eq_true] at h
      cases hcol : gs.columns[c]? with
      | none => simp [hcol] at h
      | some column =>
        simp only [hcol] at h
        cases hb : column[i - 1]? with
        | none => simp [hb] at h
        | some below =>
          simp only [hb] at h
          by_cases hbs : isSelectedId gs below.id = true
          · exact ⟨below, (tileAt_eq_some_iff _ _ _ _).mpr ⟨column, hcol, hb⟩, hbs⟩
          · simp [hbs] at h

theorem selectedPrefix_of_same (gs gs1 : GameState) (hc : gs1.columns = gs.columns)
    (hs : gs1.selectedTiles = gs.selectedTiles) (hp : SelectedPrefix gs) :
    SelectedPrefix gs1 := by
  intro c i j t u ht hu hji hsel
  unfold isSelectedId at hsel ⊢
  rw [hs] at hsel ⊢
  rw [hc] at ht hu
  exact hp c i j t u ht hu hji hsel

theorem selectedPrefix_of_nil (gs : GameState) (hs : gs.selectedTiles = []) :
    SelectedPrefix gs := by
  intro c i j t u _ _ _ hsel
  simp [isSelectedId, hs] at hsel

theorem selectedPrefix_select (gs : GameState) (tile : Tile) (c i : Nat)
    (hd : TileIdsDistinct gs.columns) (hp : SelectedPrefix gs)
    (hat : tileAt gs.columns c i = some tile)
    (hactive : getTileStatus gs tile c i = .ok { active := true, selected := false }) :
    SelectedPrefix (handleTileClick gs tile c i) := by
  unfold handleTileClick
  split
  · exact hp
  · obtain ⟨-, hbelow⟩ := getTileStatus_active_elim gs tile c i hactive
    have hgrow : ∀ id, isSelectedId gs id = true →
        isSelectedId { gs with selectedTiles := gs.selectedTiles ++ [tile] } id = true := by
      intro id hid
      simp only [isSelectedId, List.any_append, Bool.or_eq_true]
      exact Or.inl hid
    intro c1 i1 j t u ht hu hji hsel
    have hsel1 : isSelectedId gs t.id = true ∨ tile.id = t.id := by
      simpa [isSelectedId] using hsel
    rcases hsel1 with hold | hnew
    · exact hgrow _ (hp c1 i1 j t u ht hu hji hold)
    · obtain ⟨hcc, hii⟩ := tileAt_inj gs.columns hd c i c1 i1 tile t hat ht hnew
      subst hcc
      subst hii
      rcases hbelow with h0 | ⟨below, hb, hbs⟩
      · omega
      · by_cases hj : j = i - 1
        · subst hj
          have hub : u = below := by
            have h1 : tileAt gs.columns c (i - 1) = some u := hu
            rw [hb] at h1
            exact (Option.some.inj h1).symm
          rw [hub]
          exact hgrow _ hbs
        · exact hgrow _ (hp c (i - 1) j below u hb hu (by omega) hbs)

theorem handleSelectedTileClick_cases (gs : GameState) (column : List Tile) (tile : Tile)
    (i : Nat) (gs1 : GameState)
    (hcol : gs.columns[tile.colIndex]? = some column) (htile : column[i]? = some tile)
    (hids : (column.map Tile.id).Nodup)
    (h : handleSelectedTileClick gs tile = .ok gs1) :
    gs1 = gs
      ∨ (gs1.columns = gs.columns
          ∧ (∀ above ∈ column.drop (i + 1), isSelectedId gs above.id = false)
          ∧ (∀ id, isSelectedId gs1 id = true → isSelectedId gs id = true)
          ∧ (∀ id, id ≠ tile.id → isSelectedId gs id = true → isSelectedId gs1 id = true)) := by
  have hfind := column_findIndex column hids i tile htile
  have hdrop : ((i : Int) + 1).toNat = i + 1 := by omega
  unfold handleSelectedTileClick at h
  split at h
  · left
    exact (Except.ok.inj h).symm
  · simp only [hcol, hfind, hdrop] at h
    split at h
    · left
      exact (Except.ok.inj h).symm
    · rename_i habove
      by_cases hex : ∃ a ∈ gs.selectedTiles, (fun t : Tile => decide (t.id = tile.id)) a = true
      · obtain ⟨pre, s, post, hl, hs, hpre, hidx⟩ :=
          jsFindIndex_split (fun t => decide (t.id = tile.id)) gs.selectedTiles hex
        have hne : (pre.length : Int) ≠ -1 := by omega
        simp only [hidx, ne_eq, hne, not_false_eq_true, if_true, Int.toNat_ofNat] at h
        have hgs1 := (Except.ok.inj h).symm
        have herase : gs.selectedTiles.eraseIdx pre.length = pre ++ post := by
          rw [hl, List.eraseIdx_append_of_length_le (Nat.le_refl _)]
          simp
        right
        refine ⟨by rw [hgs1], ?_, ?_, ?_⟩
        · intro above ha
          by_contra hc
          apply habove
          exact List.any_eq_true.mpr ⟨above, ha, by simpa using hc⟩
        · intro id hid
          rw [hgs1] at hid
          simp only [isSelectedId, herase] at hid
          simp only [isSelectedId, hl]
          obtain ⟨x, hx, hxid⟩ := List.any_eq_true.mp hid
          refine List.any_eq_true.mpr ⟨x, ?_, hxid⟩
          rcases List.mem_append.mp hx with h1 | h1
          · exact List.mem_append_left _ h1
          · exact List.mem_append_right _ (List.mem_cons_of_mem _ h1)
        · intro id hne2 hid
          rw [hgs1]
          simp only [isSelectedId, herase]
          simp only [isSelectedId, hl] at hid
          obtain ⟨x, hx, hxid⟩ := List.any_eq_true.mp hid
          refine List.any_eq_true.mpr ⟨x, ?_, hxid⟩
          rcases List.mem_append.mp hx with h1 | h1
          · exact List.mem_append_left _ h1
          · rcases List.mem_cons.mp h1 with h2 | h2
            · exfalso
              subst h2
              have h3 : x.id = tile.id := by simpa using hs
              have h4 : x.id = id := by simpa using hxid
              exact hne2 (h4.symm.trans h3)
            · exact List.mem_append_right _ h2
      · have hnot : ∀ a ∈ gs.selectedTiles,
            (fun t : Tile => decide (t.id = tile.id)) a = false := by
          intro a ha
          by_contra hc
          exact hex ⟨a, ha, by simpa using hc⟩
        rw [jsFindIndex_none _ _ hnot] at h
        simp only [ne_eq, not_true_eq_false, if_false] at h
        left
        exact (Except.ok.inj h).symm

theorem selectedPrefix_deselect (gs gs1 : GameState) (tile : Tile) (c i : Nat)
    (hd : TileIdsDistinct gs.columns) (hok : ColIndexOk gs.columns) (hp : SelectedPrefix gs)
    (hat : tileAt gs.columns c i = some tile)
    (hclick : handleSelectedTileClick gs tile = .ok gs1) :
    gs1.columns = gs.columns ∧ SelectedPrefix gs1 := by
  obtain ⟨column, hcol, htile⟩ := (tileAt_eq_some_iff _ _ _ _).mp hat
  have hmem : tile ∈ column := by
    obtain ⟨hlt, rfl⟩ := List.getElem?_eq_some.mp htile
    exact List.getElem_mem hlt
  have hci : tile.colIndex = c := hok c column hcol tile hmem
  have hcol2 : gs.columns[tile.colIndex]? = some column := by rw [hci]; exact hcol
  have hids := column_ids_nodup gs.columns hd c column hcol
  rcases handleSelectedTileClick_cases gs column tile i gs1 hcol2 htile hids hclick with
    hsame | ⟨hcols, hnone, hsub, hkeep⟩
  · rw [hsame]
    exact ⟨rfl, hp⟩
  · refine ⟨hcols, ?_⟩
    intro c1 i1 j t u ht hu hji hsel
    rw [hcols] at ht hu
    have hold := hp c1 i1 j t u ht hu hji (hsub _ hsel)
    by_cases hid : u.id = tile.id
    · exfalso
      obtain ⟨hcc, hjj⟩ := tileAt_inj gs.columns hd c1 j c i u tile hu hat hid
      subst hcc
      subst hjj
      obtain ⟨column1, hcol1, ht1⟩ := (tileAt_eq_some_iff _ _ _ _).mp ht
      rw [hcol] at hcol1
      cases hcol1
      have hin : t ∈ column.drop (j + 1) := by
        obtain ⟨hlt, rfl⟩ := List.getElem?_eq_some.mp ht1
        have hidx : i1 - (j + 1) < (column.drop (j + 1)).length := by
          rw [List.length_drop]
          omega
        have hget : (column.drop (j + 1))[i1 - (j + 1)] = column[i1] := by
          rw [List.getElem_drop]
          congr 1
          omega
        rw [← hget]
        exact List.getElem_mem hidx
      have h1 := hnone t hin
      rw [hsub _ hsel] at h1
      exact absurd h1 (by simp)
    · exact hkeep _ hid hold

theorem handleInputPanelClick_frame (dictionary : List Word) (gs : GameState) :
    (handleInputPanelClick dictionary gs).1.columns = gs.columns
      ∧ ((handleInputPanelClick dictionary gs).1.selectedTiles = gs.selectedTiles
          ∨ (handleInputPanelClick dictionary gs).1.selectedTiles = []) := by
  unfold handleInputPanelClick checkWordMatch resetSelection
  dsimp only
  repeat' split
  all_goals first
    | exact ⟨rfl, Or.inl rfl⟩
    | exact ⟨rfl, Or.inr rfl⟩

theorem tileIdsDistinct_filter (columns : List (List Tile)) (p : Tile → Bool)
    (hd : TileIdsDistinct columns) :
    TileIdsDistinct (columns.map (fun col => col.filter p)) := by
  unfold TileIdsDistinct at hd ⊢
  have hfl : (columns.map (fun col => col.filter p)).flatten = columns.flatten.filter p := by
    rw [List.filter_flatten]
  rw [hfl]
  exact List.Nodup.sublist ((List.filter_sublist _).map Tile.id) hd

theorem colIndexOk_filter (columns : List (List Tile)) (p : Tile → Bool)
    (hok : ColIndexOk columns) : ColIndexOk (columns.map (fun col => col.filter p)) := by
  intro c col1 h1 t ht
  rw [List.getElem?_map] at h1
  cases hc : columns[c]? with
  | none => simp [hc] at h1
  | some col =>
    simp only [hc, Option.map_some', Option.some.injEq] at h1
    subst h1
    exact hok c col hc t (List.mem_filter.mp ht).1

theorem runTimer_invariant (timer : Timer) (gs : GameState) (h : BoardInvariant gs) :
    BoardInvariant (runTimer timer gs) := by
  obtain ⟨hd, hok, _⟩ := h
  cases timer with
  | foundCommit =>
    have hcols : (runTimer .foundCommit gs).columns
        = gs.columns.map (fun col => col.filter (fun t => !isSelectedId gs t.id)) := by
      simp only [runTimer]
      exact removeSelectedTiles_columns gs
    refine ⟨?_, ?_, selectedPrefix_of_nil _ rfl⟩
    · rw [hcols]
      exact tileIdsDistinct_filter _ _ hd
    · rw [hcols]
      exact colIndexOk_filter _ _ hok
  | hiddenCommit => exact ⟨hd, hok, selectedPrefix_of_nil _ rfl⟩

theorem useHint_frame (gs : GameState) :
    (useHint gs).columns = gs.columns ∧ (useHint gs).selectedTiles = gs.selectedTiles := by
  unfold useHint
  split
  · exact ⟨rfl, rfl⟩
  · split
    · split
      · exact ⟨rfl, rfl⟩
      · exact ⟨rfl, rfl⟩
    · exact ⟨rfl, rfl⟩

theorem activateBonusColor_frame (gs : GameState) :
    (activateBonusColor gs).columns = gs.columns
      ∧ (activateBonusColor gs).selectedTiles = gs.selectedTiles := by
  unfold activateBonusColor
  split
  · exact ⟨rfl, rfl⟩
  · exact ⟨rfl, rfl⟩

theorem boardInvariant_of_same (gs gs1 : GameState) (hc : gs1.columns = gs.columns)
    (hs : gs1.selectedTiles = gs.selectedTiles) (h : BoardInvariant gs) :
    BoardInvariant gs1 := by
  obtain ⟨hd, hok, hp⟩ := h
  refine ⟨?_, ?_, selectedPrefix_of_same gs gs1 hc hs hp⟩
  · rw [hc]
    exact hd
  · rw [hc]
    exact hok

theorem step_invariant (levelConfig : Option LevelConfig) (dictionary : List Word)
    (w w1 : World) (hstep : Step levelConfig dictionary w w1)
    (h : BoardInvariant w.gameState) : BoardInvariant w1.gameState := by
  cases hstep with
  | select tile c i hat hactive =>
    obtain ⟨hd, hok, hp⟩ := h
    have hcols : (handleTileClick w.gameState tile c i).columns = w.gameState.columns := by
      unfold handleTileClick
      split <;> rfl
    refine ⟨?_, ?_, selectedPrefix_select _ _ _ _ hd hp hat hactive⟩
    · show TileIdsDistinct (handleTileClick w.gameState tile c i).columns
      rw [hcols]
      exact hd
    · show ColIndexOk (handleTileClick w.gameState tile c i).columns
      rw [hcols]
      exact hok
  | deselect tile c i hat gs1 hclick =>
    obtain ⟨hd, hok, hp⟩ := h
    obtain ⟨hcols, hp1⟩ := selectedPrefix_deselect _ gs1 tile c i hd hok hp hat hclick
    refine ⟨?_, ?_, hp1⟩
    · show TileIdsDistinct gs1.columns
      rw [hcols]
      exact hd
    · show ColIndexOk gs1.columns
      rw [hcols]
      exact hok
  | confirm =>
    obtain ⟨hcols, hsel⟩ := handleInputPanelClick_frame dictionary w.gameState
    rcases hsel with hsame | hnil
    · exact boardInvariant_of_same _ _ hcols hsame h
    · obtain ⟨hd, hok, _⟩ := h
      refine ⟨?_, ?_, selectedPrefix_of_nil _ hnil⟩
      · show TileIdsDistinct (handleInputPanelClick dictionary w.gameState).1.columns
        rw [hcols]
        exact hd
      · show ColIndexOk (handleInputPanelClick dictionary w.gameState).1.columns
        rw [hcols]
        exact hok
  | complete before after timer hpending => exact runTimer_invariant timer _ h
  | hint =>
    exact boardInvariant_of_same _ _ (useHint_frame _).1 (useHint_frame _).2 h
  | bonusColor =>
    exact boardInvariant_of_same _ _ (activateBonusColor_frame _).1
      (activateBonusColor_frame _).2 h
  | restart r hids =>
    rcases restartLevel_outcome levelConfig w.gameState r with hsame | ⟨hok1, hnil⟩
    · show BoardInvariant (outcome (restartLevel levelConfig w.gameState r)).1
      rw [hsame]
      exact h
    · exact ⟨hids, hok1, selectedPrefix_of_nil _ hnil⟩

theorem freshLevel_invariant (w : World) (h : FreshLevel w) : BoardInvariant w.gameState := by
  obtain ⟨config, words, base, r, hcols, hsel, hgs, -, hd⟩ := h
  have hok0 : ColIndexOk base.columns := by
    rw [hcols]
    exact colIndexOk_replicate _
  obtain ⟨hok, hsel1⟩ := generateLevelWithWords_outcome config words base r hok0
  refine ⟨hd, ?_, selectedPrefix_of_nil _ ?_⟩
  · rw [hgs]
    exact hok
  · rw [hgs, hsel1, hsel]

theorem reachable_invariant (levelConfig : Option LevelConfig) (dictionary : List Word)
    (w : World) (h : Reachable FreshLevel levelConfig dictionary w) :
    BoardInvariant w.gameState := by
  induction h with
  | init w0 h0 => exact freshLevel_invariant w0 h0
  | step w0 w1 _ hstep ih => exact step_invariant levelConfig dictionary w0 w1 hstep ih

theorem atMostOneActive_of_prefix (gs : GameState) (hp : SelectedPrefix gs) :
    AtMostOneActive gs := by
  have key : ∀ c i j t u, tileAt gs.columns c i = some t → tileAt gs.columns c j = some u →
      getTileStatus gs t c i = .ok { active := true, selected := false } →
      getTileStatus gs u c j = .ok { active := true, selected := false } → ¬ i < j := by
    intro c i j t u ht hu hat hau hlt
    obtain ⟨hts, -⟩ := getTileStatus_active_elim gs t c i hat
    obtain ⟨-, hub⟩ := getTileStatus_active_elim gs u c j hau
    rcases hub with h0 | ⟨below, hb, hbs⟩
    · omega
    · by_cases hij : i = j - 1
      · subst hij
        rw [ht] at hb
        cases hb
        rw [hbs] at hts
        exact absurd hts (by simp)
      · have := hp c (j - 1) i below t hb ht (by omega) hbs
        rw [this] at hts
        exact absurd hts (by simp)
  intro c i j t u ht hu hat hau
  have h1 := key c i j t u ht hu hat hau
  have h2 := key c j i u t hu ht hau hat
  omega

/-- C7: in every state reachable from a freshly generated level (tile ids pairwise
distinct) by Select of an ACTIVE tile, Deselect of a SELECTED tile, Confirm, the
completion of a pending commit, Hint, the colour bonus and Restart, the selected
tiles of each column form a bottom prefix of the column (no unselected tile lies
below a selected one), and each column has at most one ACTIVE tile. -/
theorem selected_tiles_bottom_prefix (levelConfig : Option LevelConfig)
    (dictionary : List Word) (w : World)
    (h : Reachable FreshLevel levelConfig dictionary w) :
    SelectedPrefix w.gameState ∧ AtMostOneActive w.gameState := by
  have hinv := reachable_invariant levelConfig dictionary w h
  exact ⟨hinv.2.2, atMostOneActive_of_prefix _ hinv.2.2⟩

theorem kotPesTwoSelected_reachable :
    Reachable FreshLevel (some kotPesLevel) [] kotPesTwoSelectedWorld := by
  have h0 : Reachable FreshLevel (some kotPesLevel) [] { gameState := kotPesBoard, timers := [] } :=
    Reachable.init _ ⟨kotPesLevel, kotPesStart.targetWords, kotPesStart, fun k => k,
      rfl, rfl, rfl, rfl, by unfold TileIdsDistinct; decide⟩
  have h1 := Reachable.step _ _ h0
    (Step.select { gameState := kotPesBoard, timers := [] } tileK 0 0 (by decide) (by decide))
  exact Reachable.step _ _ h1
    (Step.select { gameState := handleTileClick kotPesBoard tileK 0 0, timers := [] }
      tileT 0 1 (by decide) (by decide))

/-- The invariant on the session reached by generating the two-word level and
clicking К and Т. -/
theorem selected_tiles_bottom_prefix_witness :
    Reachable FreshLevel (some kotPesLevel) [] kotPesTwoSelectedWorld
      ∧ SelectedPrefix kotPesTwoSelectedWorld.gameState
      ∧ AtMostOneActive kotPesTwoSelectedWorld.gameState :=
  ⟨kotPesTwoSelected_reachable,
    selected_tiles_bottom_prefix (some kotPesLevel) [] kotPesTwoSelectedWorld
      kotPesTwoSelected_reachable⟩

/-! ## Confirming a hidden word, an already found word, an invalid word -/

theorem nil_not_mem_fullDictionary (normalize : Word → Word) (lines : List Word) :
    ([] : Word) ∉ fullDictionary normalize lines := by
  unfold fullDictionary
  intro h
  have := (List.mem_filter.mp h).2
  simp at this

/-- C11: for every non-processing state (within the data model: every found word
is a target word) whose selected word `w` is in the dictionary built by `initGame`,
not in `targetWords` and not in `hiddenWords`: Confirm schedules the hidden-word
completion, sets `isProcessing` and appends `w` to `hiddenWords`; after the
completion `selectedTiles` is empty and `isProcessing` is false, while the columns
(tiles and their order), `targetWords`, `foundWords` and `revealedWords` are
exactly as before the Confirm. -/
theorem confirm_hidden_word (normalize : Word → Word) (lines : List Word) (gs : GameState)
    (hproc : gs.isProcessing = false)
    (hdict : currentWord gs ∈ fullDictionary normalize lines)
    (hnt : currentWord gs ∉ gs.targetWords)
    (hnh : currentWord gs ∉ gs.hiddenWords)
    (hfound : ∀ x ∈ gs.foundWords, x ∈ gs.targetWords) :
    (handleInputPanelClick (fullDictionary normalize lines) gs).2 = some .hiddenCommit
      ∧ (handleInputPanelClick (fullDictionary normalize lines) gs).1.isProcessing = true
      ∧ (handleInputPanelClick (fullDictionary normalize lines) gs).1.hiddenWords
          = gs.hiddenWords ++ [currentWord gs]
      ∧ (runTimer .hiddenCommit
            (handleInputPanelClick (fullDictionary normalize lines) gs).1).selectedTiles = []
      ∧ (runTimer .hiddenCommit
            (handleInputPanelClick (fullDictionary normalize lines) gs).1).isProcessing = false
      ∧ (runTimer .hiddenCommit
            (handleInputPanelClick (fullDictionary normalize lines) gs).1).columns = gs.columns
      ∧ (runTimer .hiddenCommit
            (handleInputPanelClick (fullDictionary normalize lines) gs).1).targetWords
          = gs.targetWords
      ∧ (runTimer .hiddenCommit
            (handleInputPanelClick (fullDictionary normalize lines) gs).1).foundWords
          = gs.foundWords
      ∧ (runTimer .hiddenCommit
            (handleInputPanelClick (fullDictionary normalize lines) gs).1).revealedWords
          = gs.revealedWords
      ∧ (runTimer .hiddenCommit
            (handleInputPanelClick (fullDictionary normalize lines) gs).1).hiddenWords
          = gs.hiddenWords ++ [currentWord gs] := by
  have hne : currentWord gs ≠ [] := by
    intro h
    rw [h] at hdict
    exact nil_not_mem_fullDictionary normalize lines hdict
  have hlen : (currentWord gs).length ≠ 0 := fun h => hne (List.length_eq_zero.mp h)
  have hnf : currentWord gs ∉ gs.foundWords := fun h => hnt (hfound _ h)
  have hclick : handleInputPanelClick (fullDictionary normalize lines) gs
      = ({ gs with
            isProcessing := true
            hiddenWords := gs.hiddenWords ++ [currentWord gs] },
          some .hiddenCommit) := by
    unfold handleInputPanelClick checkWordMatch
    simp [hproc, hlen, hdict, hnt, hnh, hnf]
  rw [hclick]
  exact ⟨rfl, rfl, rfl, rfl, rfl, rfl, rfl, rfl, rfl, rfl⟩

/-- Confirming the dictionary word КО on `kotPesKO`: it becomes a hidden word and
after the completion the board is still К, Т, Е and О, П, С. -/
theorem confirm_hidden_word_witness :
    (handleInputPanelClick kotPesDictionary kotPesKO).1.hiddenWords = [['К', 'О']]
      ∧ boardChars (runTimer .hiddenCommit
            (handleInputPanelClick kotPesDictionary kotPesKO).1).columns
          = [['К', 'Т', 'Е'], ['О', 'П', 'С']] := by
  have h := confirm_hidden_word (fun word => word) [['К', 'О'], [], ['Т', 'О', 'К']] kotPesKO
    (by decide) (by decide) (by decide) (by decide) (by decide)
  exact ⟨h.2.2.1, by decide⟩

/-- C12: in every state in which the selected word is empty, or is in `foundWords`,
or is in `hiddenWords`, `handleInputPanelClick` leaves the whole state unchanged
and schedules nothing; and a Confirm that directly follows a Confirm, whatever the
state, changes nothing and schedules nothing, so that a word is never added to
`foundWords` or `hiddenWords` a second time. -/
theorem confirm_already_found_noop (dictionary : List Word) (gs : GameState) :
    ((currentWord gs = [] ∨ currentWord gs ∈ gs.foundWords
          ∨ currentWord gs ∈ gs.hiddenWords) →
        handleInputPanelClick dictionary gs = (gs, none))
      ∧ handleInputPanelClick dictionary (handleInputPanelClick dictionary gs).1
          = ((handleInputPanelClick dictionary gs).1, none) := by
  constructor
  · intro h
    unfold handleInputPanelClick
    by_cases hp : gs.isProcessing = true
    · simp [hp]
    · by_cases hlen : (currentWord gs).length = 0
      · simp [hp, hlen]
      · have hne : currentWord gs ≠ [] := fun h0 => hlen (by rw [h0]; rfl)
        rcases h with h1 | h1 | h1
        · exact absurd h1 hne
        · simp [hp, hlen, h1]
        · simp [hp, hlen, h1]
  · by_cases hp : gs.isProcessing = true
    · have h1 : handleInputPanelClick dictionary gs = (gs, none) := by
        unfold handleInputPanelClick
        simp [hp]
      rw [h1]
      exact h1
    · by_cases hlen : (currentWord gs).length = 0
      · have h1 : handleInputPanelClick dictionary gs = (gs, none) := by
          unfold handleInputPanelClick
          simp [hp, hlen]
        rw [h1]
        exact h1
      · by_cases hf : currentWord gs ∈ gs.foundWords ∨ currentWord gs ∈ gs.hiddenWords
        · have h1 : handleInputPanelClick dictionary gs = (gs, none) := by
            unfold handleInputPanelClick
            rcases hf with hf | hf <;> simp [hp, hlen, hf]
          rw [h1]
          exact h1
        · have hf1 : currentWord gs ∉ gs.foundWords := fun h => hf (Or.inl h)
          have hf2 : currentWord gs ∉ gs.hiddenWords := fun h => hf (Or.inr h)
          by_cases ht : currentWord gs ∈ gs.targetWords
          · have h1 : handleInputPanelClick dictionary gs
                = ({ gs with
                      isProcessing := true
                      foundWords := gs.foundWords ++ [currentWord gs]
                      revealedWords := gs.revealedWords.erase (currentWord gs) },
                    some .foundCommit) := by
              unfold handleInputPanelClick checkWordMatch
              simp only [hp, hlen, ht, hf1, hf2, Bool.false_eq_true, if_false, decide_True,
                decide_False, Bool.or_self, Bool.true_or, if_true, not_false_eq_true,
                and_self]
              rw [jsIndexOf_erase]
            rw [h1]
            simp [handleInputPanelClick]
          · by_cases hd : currentWord gs ∈ dictionary
            · have h1 : handleInputPanelClick dictionary gs
                  = ({ gs with
                        isProcessing := true
                        hiddenWords := gs.hiddenWords ++ [currentWord gs] },
                      some .hiddenCommit) := by
                unfold handleInputPanelClick checkWordMatch
                simp [hp, hlen, ht, hf1, hf2, hd]
              rw [h1]
              simp [handleInputPanelClick]
            · have h1 : handleInputPanelClick dictionary gs
                  = ({ gs with selectedTiles := [] }, none) := by
                unfold handleInputPanelClick resetSelection
                simp [hp, hlen, ht, hf1, hf2, hd]
              rw [h1]
              simp [handleInputPanelClick, currentWord]

/-- After КОТ was confirmed and removed, the same letters of a state that lists
КОТ in `foundWords` cannot be confirmed again: the click is a no-op. -/
theorem confirm_already_found_noop_witness :
    handleInputPanelClick []
        { kotPesKOT with foundWords := [['К', 'О', 'Т']] }
      = ({ kotPesKOT with foundWords := [['К', 'О', 'Т']] }, none) :=
  (confirm_already_found_noop [] { kotPesKOT with foundWords := [['К', 'О', 'Т']] }).1
    (Or.inr (Or.inl (by decide)))

/-- C13, as stated, fails: on `kotPesKO` the word КО is non-empty, not a target
word, not in the (empty) dictionary and not found or hidden, and the state is not
processing; a click on the panel empties `selectedTiles`, so the state changes. -/
theorem confirm_invalid_word_counterexample :
    kotPesKO.isProcessing = false
      ∧ currentWord kotPesKO ≠ []
      ∧ currentWord kotPesKO ∉ kotPesKO.targetWords
      ∧ currentWord kotPesKO ∉ ([] : List Word)
      ∧ currentWord kotPesKO ∉ kotPesKO.foundWords
      ∧ currentWord kotPesKO ∉ kotPesKO.hiddenWords
      ∧ kotPesKO.selectedTiles = [tileK, tileO]
      ∧ (handleInputPanelClick [] kotPesKO).1.selectedTiles = []
      ∧ (handleInputPanelClick [] kotPesKO).1 ≠ kotPesKO := by
  decide

/-- C13, amended: for every non-processing state whose non-empty selected word is
neither a target word, nor in the dictionary, nor already found or hidden,
`handleInputPanelClick` commits nothing and schedules nothing: it empties
`selectedTiles` and leaves every other field of the state unchanged. -/
theorem confirm_invalid_word (dictionary : List Word) (gs : GameState)
    (hproc : gs.isProcessing = false)
    (hne : currentWord gs ≠ [])
    (hnt : currentWord gs ∉ gs.targetWords)
    (hnd : currentWord gs ∉ dictionary)
    (hnf : currentWord gs ∉ gs.foundWords)
    (hnh : currentWord gs ∉ gs.hiddenWords) :
    handleInputPanelClick dictionary gs = ({ gs with selectedTiles := [] }, none) := by
  have hlen : (currentWord gs).length ≠ 0 := fun h => hne (List.length_eq_zero.mp h)
  unfold handleInputPanelClick resetSelection
  simp [hproc, hlen, hnt, hnd, hnf, hnh]

/-- The invalid word КО on `kotPesKO` under the empty dictionary: the click clears
the selection and nothing else. -/
theorem confirm_invalid_word_witness :
    handleInputPanelClick [] kotPesKO = ({ kotPesKO with selectedTiles := [] }, none) :=
  confirm_invalid_word [] kotPesKO (by decide) (by decide) (by decide) (by decide)
    (by decide) (by decide)

/-! ## Hint -/

theorem useHint_cases (gs : GameState) :
    useHint gs = gs
      ∨ ∃ w, w ∈ gs.targetWords ∧ w ∉ gs.foundWords ∧ w ∉ gs.revealedWords
          ∧ useHint gs = { gs with revealedWords := gs.revealedWords ++ [w] } := by
  unfold useHint
  split
  · exact Or.inl rfl
  · split
    · rename_i nextWord hfind
      split
      · exact Or.inl rfl
      · right
        have hmem := List.mem_of_find?_eq_some hfind
        have hp := List.find?_some hfind
        simp only [Bool.and_eq_true, Bool.not_eq_true', decide_eq_false_iff_not] at hp
        exact ⟨nextWord, hmem, hp.1, hp.2, rfl⟩
    · exact Or.inl rfl

/-- For a non-processing state whose first target word in neither `foundWords` nor
`revealedWords` is non-empty, `useHint` appends exactly that word to
`revealedWords`; with no such word it changes nothing. -/
theorem useHint_first_unrevealed (gs : GameState) (hproc : gs.isProcessing = false) :
    (∀ w, gs.targetWords.find?
          (fun word => !decide (word ∈ gs.foundWords) && !decide (word ∈ gs.revealedWords))
            = some w → w ≠ [] →
        useHint gs = { gs with revealedWords := gs.revealedWords ++ [w] })
      ∧ (gs.targetWords.find?
          (fun word => !decide (word ∈ gs.foundWords) && !decide (word ∈ gs.revealedWords))
            = none → useHint gs = gs) := by
  constructor
  · intro w hfind hne
    have hlen : w.length ≠ 0 := fun h => hne (List.length_eq_zero.mp h)
    simp [useHint, hproc, hfind, hlen]
  · intro hfind
    simp [useHint, hproc, hfind]

/-- C14 at the failing input: in `emptyFirstTargetState` the state is not
processing and the first target word in neither `foundWords` nor `revealedWords`
is the empty word; `useHint` appends nothing, and a second hint does not reach the
next unrevealed word КОТ either.  On the two-word level the three successive hints
of the scenario behave as described. -/
theorem useHint_empty_target_word :
    emptyFirstTargetState.isProcessing = false
      ∧ emptyFirstTargetState.targetWords.find?
          (fun word => !decide (word ∈ emptyFirstTargetState.foundWords)
            && !decide (word ∈ emptyFirstTargetState.revealedWords)) = some []
      ∧ useHint emptyFirstTargetState = emptyFirstTargetState
      ∧ (useHint (useHint emptyFirstTargetState)).revealedWords = []
      ∧ (useHint kotPesBoard).revealedWords = [['К', 'О', 'Т']]
      ∧ (useHint (useHint kotPesBoard)).revealedWords = [['К', 'О', 'Т'], ['П', 'Е', 'С']]
      ∧ useHint (useHint (useHint kotPesBoard)) = useHint (useHint kotPesBoard) := by
  decide

/-! ## Restart and the cluster fallback -/

/-- C19 at the failing input: in cluster mode with one column of one row and the
word КОТ, the second letter finds no column below the row cap, `findIndex` returns
`-1` twice, and the push on `columns[-1]` throws for every random stream; the board
holds К alone. -/
theorem cluster_placement_throws :
    (∀ r : Rand, clusterColumn clusterTightLevel [1] 0 ⟨'О', 0, 1⟩ r = (-1, r))
      ∧ (∀ r : Rand,
          ∃ res, generateLevelWithWords clusterTightLevel [['К', 'О', 'Т']]
                { kotPesStart with columns := [[]], targetWords := [['К', 'О', 'Т']] } r
              = .error res
            ∧ boardChars res.1.columns = [['К']]) :=
  ⟨fun _ => rfl, fun r =>
    ⟨outcome (generateLevelWithWords clusterTightLevel [['К', 'О', 'Т']]
      { kotPesStart with columns := [[]], targetWords := [['К', 'О', 'Т']] } r), rfl, rfl⟩⟩

/-- C15 at the failing input: `clusterTightState` is not processing and its target
word КОТ is unfound; `restartLevel` regenerates in cluster mode, the generation
throws at the second letter for every random stream, and the board is left with К
alone instead of the letters К, О, Т. -/
theorem restartLevel_cluster_throws :
    clusterTightState.isProcessing = false
      ∧ clusterTightState.targetWords = [['К', 'О', 'Т']]
      ∧ clusterTightState.foundWords = []
      ∧ (∀ r : Rand,
          ∃ res, restartLevel (some clusterTightLevel) clusterTightState r = .error res
            ∧ boardChars res.1.columns = [['К']]) :=
  ⟨by decide, by decide, by decide, fun r =>
    ⟨outcome (restartLevel (some clusterTightLevel) clusterTightState r), rfl, rfl⟩⟩

/-! ## The processing gate -/

/-- C18: in every state with `isProcessing` true each user-triggered handler
returns at its gate and leaves the whole state unchanged: `handleTileClick`,
`handleSelectedTileClick`, `handleInputPanelClick` (which schedules nothing),
`resetSelection`, `useHint`, `activateBonusColor`, `restartLevel` and `nextLevel`;
so no second commit begins before the pending completion clears the flag. -/
theorem processing_gate (normalize : Word → Word) (dictionary : List Word)
    (levelConfig : Option LevelConfig) (app : App) (tile : Tile) (colIndex tileIndex : Nat)
    (r : Rand) (hproc : app.gameState.isProcessing = true) :
    handleTileClick app.gameState tile colIndex tileIndex = app.gameState
      ∧ handleSelectedTileClick app.gameState tile = .ok app.gameState
      ∧ handleInputPanelClick dictionary app.gameState = (app.gameState, none)
      ∧ resetSelection app.gameState = app.gameState
      ∧ useHint app.gameState = app.gameState
      ∧ activateBonusColor app.gameState = app.gameState
      ∧ restartLevel levelConfig app.gameState r = .ok (app.gameState, r)
      ∧ nextLevel normalize app r = .ok (app, r) := by
  refine ⟨?_, ?_, ?_, ?_, ?_, ?_, ?_, ?_⟩
  · simp [handleTileClick, hproc]
  · simp [handleSelectedTileClick, hproc]
  · simp [handleInputPanelClick, hproc]
  · simp [resetSelection, hproc]
  · simp [useHint, hproc]
  · simp [activateBonusColor, hproc]
  · simp [restartLevel, hproc]
  · simp [nextLevel, hproc]

/-- The gate on the state right after КОТ was confirmed on `kotPesKOT`, which is
processing: a second click on the panel and a hint change nothing. -/
theorem processing_gate_witness :
    (handleInputPanelClick [] kotPesKOT).1.isProcessing = true
      ∧ handleInputPanelClick [] (handleInputPanelClick [] kotPesKOT).1
          = ((handleInputPanelClick [] kotPesKOT).1, none)
      ∧ useHint (handleInputPanelClick [] kotPesKOT).1
          = (handleInputPanelClick [] kotPesKOT).1 := by
  have h := processing_gate (fun word => word) [] (some kotPesLevel)
    { LEVELS_DATA := [kotPesLevel], currentLevelIndex := 0,
      gameState := (handleInputPanelClick [] kotPesKOT).1 } tileK 0 0 (fun k => k)
    (by decide)
  exact ⟨by decide, h.2.2.1, h.2.2.2.2.1⟩

/-! ## Invariants of the word lists and of the selection -/

theorem handleInputPanelClick_cases (dictionary : List Word) (gs : GameState) :
    handleInputPanelClick dictionary gs = (gs, none)
      ∨ (currentWord gs ∈ gs.targetWords ∧ currentWord gs ∉ gs.foundWords
          ∧ handleInputPanelClick dictionary gs
            = ({ gs with
                  isProcessing := true
                  foundWords := gs.foundWords ++ [currentWord gs]
                  revealedWords := gs.revealedWords.erase (currentWord gs) },
                some .foundCommit))
      ∨ (currentWord gs ∉ gs.targetWords ∧ currentWord gs ∉ gs.hiddenWords
          ∧ handleInputPanelClick dictionary gs
            = ({ gs with
                  isProcessing := true
                  hiddenWords := gs.hiddenWords ++ [currentWord gs] },
                some .hiddenCommit))
      ∨ handleInputPanelClick dictionary gs = ({ gs with selectedTiles := [] }, none) := by
  by_cases hp : gs.isProcessing = true
  · left
    simp [handleInputPanelClick, hp]
  · by_cases hlen : (currentWord gs).length = 0
    · left
      simp [handleInputPanelClick, hp, hlen]
    · by_cases hf1 : currentWord gs ∈ gs.foundWords
      · left
        simp [handleInputPanelClick, hp, hlen, hf1]
      · by_cases hf2 : currentWord gs ∈ gs.hiddenWords
        · left
          simp [handleInputPanelClick, hp, hlen, hf2]
        · by_cases ht : currentWord gs ∈ gs.targetWords
          · right
            left
            refine ⟨ht, hf1, ?_⟩
            unfold handleInputPanelClick checkWordMatch
            simp only [hp, hlen, ht, hf1, hf2, Bool.false_eq_true, if_false, decide_True,
              decide_False, Bool.or_self, Bool.true_or, if_true, not_false_eq_true,
              and_self]
            rw [jsIndexOf_erase]
          · by_cases hd : currentWord gs ∈ dictionary
            · right
              right
              left
              refine ⟨ht, hf2, ?_⟩
              unfold handleInputPanelClick checkWordMatch
              simp [hp, hlen, ht, hf1, hf2, hd]
            · right
              right
              right
              unfold handleInputPanelClick resetSelection
              simp [hp, hlen, ht, hf1, hf2, hd]

theorem handleSelectedTileClick_frame (gs gs1 : GameState) (tile : Tile)
    (h : handleSelectedTileClick gs tile = .ok gs1) :
    gs1.columns = gs.columns ∧ gs1.foundWords = gs.foundWords
      ∧ gs1.revealedWords = gs.revealedWords
      ∧ (∀ t ∈ gs1.selectedTiles, t ∈ gs.selectedTiles) := by
  unfold handleSelectedTileClick at h
  split at h
  · cases h
    exact ⟨rfl, rfl, rfl, fun _ ht => ht⟩
  · split at h
    · simp at h
    · dsimp only at h
      split at h
      · cases h
        exact ⟨rfl, rfl, rfl, fun _ ht => ht⟩
      · split at h
        · cases h
          exact ⟨rfl, rfl, rfl, fun _ ht => (List.eraseIdx_sublist _ _).subset ht⟩
        · cases h
          exact ⟨rfl, rfl, rfl, fun _ ht => ht⟩

theorem generateLevelWithWords_frame (config : LevelConfig) (words : List Word)
    (gs : GameState) (r : Rand) :
    (outcome (generateLevelWithWords config words gs r)).1
      = { gs with columns := (outcome (generateLevelWithWords config words gs r)).1.columns } := by
  unfold generateLevelWithWords
  dsimp only
  split <;> rfl

theorem restartLevel_frame (levelConfig : Option LevelConfig) (gs : GameState) (r : Rand) :
    (outcome (restartLevel levelConfig gs r)).1.targetWords = gs.targetWords
      ∧ (outcome (restartLevel levelConfig gs r)).1.foundWords = gs.foundWords
      ∧ (outcome (restartLevel levelConfig gs r)).1.revealedWords = gs.revealedWords
      ∧ (outcome (restartLevel levelConfig gs r)).1.hiddenWords = gs.hiddenWords := by
  unfold restartLevel
  split
  · exact ⟨rfl, rfl, rfl, rfl⟩
  · split
    · exact ⟨rfl, rfl, rfl, rfl⟩
    · dsimp only
      split
      · exact ⟨rfl, rfl, rfl, rfl⟩
      · rw [generateLevelWithWords_frame]
        exact ⟨rfl, rfl, rfl, rfl⟩

theorem loadLevel_outcome (normalize : Word → Word) (config : LevelConfig) (base : GameState)
    (r : Rand) :
    (outcome (loadLevel normalize (some config) base r)).1.foundWords = []
      ∧ (outcome (loadLevel normalize (some config) base r)).1.revealedWords = []
      ∧ (outcome (loadLevel normalize (some config) base r)).1.hiddenWords = []
      ∧ (outcome (loadLevel normalize (some config) base r)).1.selectedTiles = [] := by
  unfold loadLevel
  dsimp only
  rw [generateLevelWithWords_frame]
  exact ⟨rfl, rfl, rfl, rfl⟩

theorem selectedLive_of_nil (gs : GameState) (h : gs.selectedTiles = []) : SelectedLive gs := by
  intro t ht
  rw [h] at ht
  simp at ht

theorem sessionInvariant_of_same (gs gs1 : GameState)
    (hf : gs1.foundWords = gs.foundWords) (hr : gs1.revealedWords = gs.revealedWords)
    (hc : gs1.columns = gs.columns) (hs : ∀ t ∈ gs1.selectedTiles, t ∈ gs.selectedTiles)
    (h : SessionInvariant gs) : SessionInvariant gs1 := by
  obtain ⟨h1, h2, h3, h4⟩ := h
  refine ⟨by rw [hf]; exact h1, by rw [hr]; exact h2, ?_, ?_⟩
  · intro word hw
    rw [hf] at hw
    rw [hr]
    exact h3 word hw
  · intro t ht
    rw [hc]
    exact h4 t (hs t ht)

theorem sessionInvariant_of_cleared (gs gs1 : GameState)
    (hf : gs1.foundWords = gs.foundWords) (hr : gs1.revealedWords = gs.revealedWords)
    (hs : gs1.selectedTiles = []) (h : SessionInvariant gs) : SessionInvariant gs1 := by
  obtain ⟨h1, h2, h3, -⟩ := h
  refine ⟨by rw [hf]; exact h1, by rw [hr]; exact h2, ?_, selectedLive_of_nil _ hs⟩
  intro word hw
  rw [hf] at hw
  rw [hr]
  exact h3 word hw

theorem step_sessionInvariant (levelConfig : Option LevelConfig) (dictionary : List Word)
    (w w1 : World) (hstep : Step levelConfig dictionary w w1)
    (h : SessionInvariant w.gameState) : SessionInvariant w1.gameState := by
  cases hstep with
  | select tile c i hat hactive =>
    show SessionInvariant (handleTileClick w.gameState tile c i)
    unfold handleTileClick
    split
    · exact h
    · obtain ⟨h1, h2, h3, h4⟩ := h
      refine ⟨h1, h2, h3, ?_⟩
      intro t ht
      rcases List.mem_append.mp ht with hold | hnew
      · exact h4 t hold
      · rw [List.mem_singleton.mp hnew]
        exact ⟨c, i, tile, hat, rfl⟩
  | deselect tile c i hat gs1 hclick =>
    obtain ⟨hc, hf, hr, hs⟩ := handleSelectedTileClick_frame _ gs1 tile hclick
    exact sessionInvariant_of_same _ gs1 hf hr hc hs h
  | confirm =>
    show SessionInvariant (handleInputPanelClick dictionary w.gameState).1
    rcases handleInputPanelClick_cases dictionary w.gameState with
      hsame | ⟨-, hnf, hfound⟩ | ⟨-, -, hhidden⟩ | hreset
    · rw [hsame]
      exact h
    · rw [hfound]
      obtain ⟨h1, h2, h3, h4⟩ := h
      refine ⟨?_, List.Nodup.erase _ h2, ?_, h4⟩
      · show (w.gameState.foundWords ++ [currentWord w.gameState]).Nodup
        rw [List.nodup_append]
        refine ⟨h1, List.nodup_singleton _, ?_⟩
        intro a ha hb
        rw [List.mem_singleton.mp hb] at ha
        exact hnf ha
      · intro word hw
        have hw1 : word ∈ w.gameState.foundWords ++ [currentWord w.gameState] := hw
        show word ∉ w.gameState.revealedWords.erase (currentWord w.gameState)
        rcases List.mem_append.mp hw1 with hold | hnew
        · exact fun hm => h3 word hold (List.mem_of_mem_erase hm)
        · rw [List.mem_singleton.mp hnew]
          exact List.Nodup.not_mem_erase h2
    · rw [hhidden]
      exact sessionInvariant_of_same w.gameState _ rfl rfl rfl (fun _ ht => ht) h
    · rw [hreset]
      exact sessionInvariant_of_cleared w.gameState _ rfl rfl rfl h
  | complete before after timer hpending =>
    show SessionInvariant (runTimer timer w.gameState)
    cases timer with
    | foundCommit => exact sessionInvariant_of_cleared w.gameState _ rfl rfl rfl h
    | hiddenCommit => exact sessionInvariant_of_cleared w.gameState _ rfl rfl rfl h
  | hint =>
    show SessionInvariant (useHint w.gameState)
    rcases useHint_cases w.gameState with hsame | ⟨word, -, hnf, hnr, hadd⟩
    · rw [hsame]
      exact h
    · rw [hadd]
      obtain ⟨h1, h2, h3, h4⟩ := h
      refine ⟨h1, ?_, ?_, h4⟩
      · show (w.gameState.revealedWords ++ [word]).Nodup
        rw [List.nodup_append]
        refine ⟨h2, List.nodup_singleton _, ?_⟩
        intro a ha hb
        rw [List.mem_singleton.mp hb] at ha
        exact hnr ha
      · intro x hx hm
        have hm1 : x ∈ w.gameState.revealedWords ++ [word] := hm
        rcases List.mem_append.mp hm1 with hold | hnew
        · exact h3 x hx hold
        · rw [List.mem_singleton.mp hnew] at hx
          exact hnf hx
  | bonusColor =>
    show SessionInvariant (activateBonusColor w.gameState)
    unfold activateBonusColor
    split
    · exact h
    · exact sessionInvariant_of_same w.gameState _ rfl rfl rfl (fun _ ht => ht) h
  | restart r hids =>
    show SessionInvariant (outcome (restartLevel levelConfig w.gameState r)).1
    obtain ⟨-, hf, hr, -⟩ := restartLevel_frame levelConfig w.gameState r
    rcases restartLevel_outcome levelConfig w.gameState r with hsame | ⟨-, hnil⟩
    · rw [hsame]
      exact h
    · exact sessionInvariant_of_cleared w.gameState _ hf hr hnil h

theorem loadedLevel_sessionInvariant (normalize : Word → Word) (w : World)
    (h : LoadedLevel normalize w) : SessionInvariant w.gameState := by
  obtain ⟨config, base, r, hgs, -⟩ := h
  obtain ⟨hf, hr, -, hs⟩ := loadLevel_outcome normalize config base r
  rw [hgs]
  refine ⟨?_, ?_, ?_, selectedLive_of_nil _ hs⟩
  · rw [hf]
    exact List.nodup_nil
  · rw [hr]
    exact List.nodup_nil
  · intro word hw
    rw [hf] at hw
    simp at hw

theorem event_sessionInvariant (levelConfig : Option LevelConfig) (dictionary : List Word)
    (w w1 : World) (hevent : Event levelConfig dictionary w w1)
    (h : SessionInvariant w.gameState) : SessionInvariant w1.gameState := by
  rcases hevent with ⟨_, hstep⟩ | ⟨r⟩
  · exact step_sessionInvariant levelConfig dictionary w w1 hstep h
  · show SessionInvariant (outcome (restartLevel levelConfig w.gameState r)).1
    obtain ⟨-, hf, hr, -⟩ := restartLevel_frame levelConfig w.gameState r
    rcases restartLevel_outcome levelConfig w.gameState r with hsame | ⟨-, hnil⟩
    · rw [hsame]
      exact h
    · exact sessionInvariant_of_cleared w.gameState _ hf hr hnil h

theorem played_sessionInvariant (normalize : Word → Word)
    (levelConfig : Option LevelConfig) (dictionary : List Word) (w : World)
    (h : Played (LoadedLevel normalize) levelConfig dictionary w) :
    SessionInvariant w.gameState := by
  induction h with
  | init w0 h0 => exact loadedLevel_sessionInvariant normalize w0 h0
  | event w0 w1 _ hevent ih =>
    exact event_sessionInvariant levelConfig dictionary w0 w1 hevent ih

theorem kotPesFoundWorld_played :
    Played (LoadedLevel (fun word => word)) (some kotPesLevel) [] kotPesFoundWorld := by
  have h0 : Played (LoadedLevel (fun word => word)) (some kotPesLevel) []
      { gameState := kotPesLoaded, timers := [] } :=
    Played.init _ ⟨kotPesLevel, kotPesStart, fun k => k - 3, rfl, rfl⟩
  have h1 := Played.event _ _ h0 (Event.step _ _ (Step.hint _))
  have h2 := Played.event _ _ h1 (Event.step _ _
    (Step.select { gameState := useHint kotPesLoaded, timers := [] } tileK 0 0
      (by decide) (by decide)))
  have h3 := Played.event _ _ h2 (Event.step _ _
    (Step.select { gameState := handleTileClick (useHint kotPesLoaded) tileK 0 0, timers := [] }
      tileO 1 0 (by decide) (by decide)))
  have h4 := Played.event _ _ h3 (Event.step _ _
    (Step.select
      { gameState := handleTileClick (handleTileClick (useHint kotPesLoaded) tileK 0 0)
          tileO 1 0, timers := [] }
      tileT 0 1 (by decide) (by decide)))
  have h5 := Played.event _ _ h4 (Event.step _ _ (Step.confirm _))
  exact Played.event _ _ h5 (Event.step _ _
    (Step.complete _ [] [] Timer.foundCommit (by decide)))

/-- C16: in every state reachable from `loadLevel` by any sequence of Select,
Deselect, Confirm, completions of pending commits, Hint, Restart and the colour
bonus, no word is in both `foundWords` and `revealedWords`. -/
theorem found_revealed_disjoint (normalize : Word → Word)
    (levelConfig : Option LevelConfig) (dictionary : List Word) (w : World)
    (h : Played (LoadedLevel normalize) levelConfig dictionary w) :
    ∀ word, ¬ (word ∈ w.gameState.foundWords ∧ word ∈ w.gameState.revealedWords) := by
  have hinv := played_sessionInvariant normalize levelConfig dictionary w h
  intro word hboth
  exact hinv.2.2.1 word hboth.1 hboth.2

/-- The invariant after КОТ was revealed by a hint and then found: it is in
`foundWords` and no longer in `revealedWords`. -/
theorem found_revealed_disjoint_witness :
    kotPesFoundWorld.gameState.foundWords = [['К', 'О', 'Т']]
      ∧ kotPesFoundWorld.gameState.revealedWords = []
      ∧ ∀ word, ¬ (word ∈ kotPesFoundWorld.gameState.foundWords
          ∧ word ∈ kotPesFoundWorld.gameState.revealedWords) :=
  ⟨by decide, by decide,
    found_revealed_disjoint (fun word => word) (some kotPesLevel) [] kotPesFoundWorld
      kotPesFoundWorld_played⟩

/-- C17: in every state reachable from `loadLevel` by any sequence of Select of an
ACTIVE tile, Deselect, Confirm, completions of pending commits, Hint, the colour
bonus and Restart, every tile in `selectedTiles` is present, by id, in some column
of the board. -/
theorem selected_tiles_on_board (normalize : Word → Word)
    (levelConfig : Option LevelConfig) (dictionary : List Word) (w : World)
    (h : Played (LoadedLevel normalize) levelConfig dictionary w) :
    ∀ t ∈ w.gameState.selectedTiles,
      ∃ c i u, tileAt w.gameState.columns c i = some u ∧ u.id = t.id := by
  have hinv := played_sessionInvariant normalize levelConfig dictionary w h
  exact hinv.2.2.2

theorem kotPesLoadedSelected_played :
    Played (LoadedLevel (fun word => word)) (some kotPesLevel) []
      kotPesLoadedSelectedWorld := by
  have h0 : Played (LoadedLevel (fun word => word)) (some kotPesLevel) []
      { gameState := kotPesLoaded, timers := [] } :=
    Played.init _ ⟨kotPesLevel, kotPesStart, fun k => k - 3, rfl, rfl⟩
  have h1 := Played.event _ _ h0 (Event.step _ _
    (Step.select { gameState := kotPesLoaded, timers := [] } tileK 0 0 (by decide) (by decide)))
  exact Played.event _ _ h1 (Event.step _ _
    (Step.select { gameState := handleTileClick kotPesLoaded tileK 0 0, timers := [] }
      tileT 0 1 (by decide) (by decide)))

/-- The selected tiles К and Т of `kotPesLoadedSelectedWorld` are on the board. -/
theorem selected_tiles_on_board_witness :
    kotPesLoadedSelectedWorld.gameState.selectedTiles = [tileK, tileT]
      ∧ ∀ t ∈ kotPesLoadedSelectedWorld.gameState.selectedTiles,
          ∃ c i u, tileAt kotPesLoadedSelectedWorld.gameState.columns c i = some u
            ∧ u.id = t.id :=
  ⟨by decide,
    selected_tiles_on_board (fun word => word) (some kotPesLevel) []
      kotPesLoadedSelectedWorld kotPesLoadedSelected_played⟩

/-- Where the regeneration completes, `restartLevel` on a non-processing state with
an unfound target word does what is expected of it: the word lists are kept, the
selection is emptied, and the board holds exactly the letters of the target words
not in `foundWords`. -/
theorem restartLevel_regenerates (config : LevelConfig) (gs : GameState) (r : Rand)
    (res : GameState × Rand)
    (hproc : gs.isProcessing = false)
    (hrem : gs.targetWords.filter (fun word => !decide (word ∈ gs.foundWords)) ≠ [])
    (h : restartLevel (some config) gs r = .ok res) :
    res.1.targetWords = gs.targetWords ∧ res.1.foundWords = gs.foundWords
      ∧ res.1.revealedWords = gs.revealedWords ∧ res.1.hiddenWords = gs.hiddenWords
      ∧ res.1.selectedTiles = []
      ∧ (res.1.columns.flatten.map Tile.char).Perm
          (gs.targetWords.filter (fun word => !decide (word ∈ gs.foundWords))).flatten := by
  have hlen : (gs.targetWords.filter (fun word => !decide (word ∈ gs.foundWords))).length ≠ 0 :=
    fun h0 => hrem (List.length_eq_zero.mp h0)
  have hframe := restartLevel_frame (some config) gs r
  rw [h] at hframe
  have hgen : generateLevelWithWords config
      (gs.targetWords.filter (fun word => !decide (word ∈ gs.foundWords)))
      { gs with selectedTiles := [], columns := List.replicate config.cols [] } r
        = .ok res := by
    unfold restartLevel at h
    rw [if_neg (by rw [hproc]; simp)] at h
    dsimp only at h
    rw [if_neg hlen] at h
    exact h
  have hsel := generateLevelWithWords_frame config
      (gs.targetWords.filter (fun word => !decide (word ∈ gs.foundWords)))
      { gs with selectedTiles := [], columns := List.replicate config.cols [] } r
  rw [hgen] at hsel
  refine ⟨hframe.1, hframe.2.1, hframe.2.2.1, hframe.2.2.2, ?_, ?_⟩
  · have h1 : res.1 = (outcome (Except.ok res : Except (GameState × Rand) _)).1 := rfl
    rw [h1, hsel]
  · exact generateLevelWithWords_chars config _ _ r res
      (fun col hc => (List.mem_replicate.mp hc).2) hgen

/-! ## Random placement -/

theorem range_filter_mod_length (cols : Nat) (hcols : 0 < cols) (c : Nat) (hc : c < cols)
    (n : Nat) :
    ((List.range n).filter (fun i => decide (i % cols = c))).length
      = n / cols + (if c < n % cols then 1 else 0) := by
  induction n with
  | zero => simp
  | succ n ih =>
    rw [List.range_succ, List.filter_append, List.length_append, ih]
    have hm : n % cols < cols := Nat.mod_lt n hcols
    have hn : n % cols + cols * (n / cols) = n := Nat.mod_add_div n cols
    by_cases hwrap : n % cols + 1 < cols
    · have hdm : (n + 1) / cols = n / cols ∧ (n + 1) % cols = n % cols + 1 :=
        (Nat.div_mod_unique hcols).mpr ⟨by omega, hwrap⟩
      rw [hdm.1, hdm.2]
      by_cases h1 : n % cols = c
      · have h2 : ¬ c < n % cols := by omega
        have h3 : c < n % cols + 1 := by omega
        simp [h1, h2, h3]
      · by_cases h2 : c < n % cols
        · have h3 : c < n % cols + 1 := by omega
          simp [h1, h2, h3]
        · have h3 : ¬ c < n % cols + 1 := by omega
          simp [h1, h2, h3]
    · have hlast : n % cols + 1 = cols := by omega
      have hdm : (n + 1) / cols = n / cols + 1 ∧ (n + 1) % cols = 0 := by
        apply (Nat.div_mod_unique hcols).mpr
        refine ⟨?_, hcols⟩
        rw [Nat.mul_succ]
        omega
      rw [hdm.1, hdm.2]
      by_cases h1 : n % cols = c
      · have h2 : ¬ c < n % cols := by omega
        simp [h1, h2]
      · have h2 : c < n % cols := by omega
        simp [h1, h2]

theorem ceil_div_eq (cols : Nat) (hcols : 0 < cols) (n : Nat) :
    (n + cols - 1) / cols = n / cols + (if 0 < n % cols then 1 else 0) := by
  have hm : n % cols < cols := Nat.mod_lt n hcols
  have hn : n % cols + cols * (n / cols) = n := Nat.mod_add_div n cols
  by_cases h0 : 0 < n % cols
  · simp only [h0, if_true]
    have : (n + cols - 1) / cols = n / cols + 1 ∧ (n + cols - 1) % cols = n % cols - 1 := by
      apply (Nat.div_mod_unique hcols).mpr
      refine ⟨?_, by omega⟩
      rw [Nat.mul_succ]
      omega
    exact this.1
  · simp only [h0, if_false, Nat.add_zero]
    have : (n + cols - 1) / cols = n / cols ∧ (n + cols - 1) % cols = cols - 1 := by
      apply (Nat.div_mod_unique hcols).mpr
      exact ⟨by omega, by omega⟩
    exact this.1

theorem slots_count (cols : Nat) (hcols : 0 < cols) (c n : Nat) :
    ((List.range n).map (slotOf cols)).count (some c)
      = ((List.range n).filter (fun i => decide (i % cols = c))).length := by
  rw [List.count_eq_countP, List.countP_map, List.countP_eq_length_filter]
  congr 1
  apply List.filter_congr
  intro i _
  have hne : cols ≠ 0 := by omega
  rw [Bool.eq_iff_iff]
  simp [slotOf, hne]

theorem collectLetters_length (targetWords : List Word) (sortType : String)
    (words : List Word) (r : Rand) :
    (collectLetters targetWords sortType words r).1.length = (words.map List.length).sum := by
  have h := (collectLetters_chars_perm targetWords sortType words r).length_eq
  rw [List.length_map, List.length_flatten] at h
  exact h

theorem randomLoop_spec (slots : List (Option Nat)) (letters : List LetterData) (index : Nat)
    (columns : List (List Tile)) (r : Rand)
    (hlen : index + letters.length ≤ slots.length)
    (hslots : ∀ x ∈ slots, ∃ c, x = some c ∧ c < columns.length) :
    ∃ res, randomLoop slots index letters columns r = .ok res
      ∧ res.1.length = columns.length
      ∧ ∀ c col, columns[c]? = some col →
          ∃ col1, res.1[c]? = some col1
            ∧ col1.length
              = col.length + ((slots.drop index).take letters.length).count (some c) := by
  induction letters generalizing index columns r with
  | nil =>
    refine ⟨(columns, r), rfl, rfl, ?_⟩
    intro c col hc
    exact ⟨col, hc, by simp⟩
  | cons ld rest ih =>
    have hidx : index < slots.length := by
      simp only [List.length_cons] at hlen
      omega
    obtain ⟨c0, hc0, hc0lt⟩ := hslots slots[index] (List.getElem_mem hidx)
    have hget : slots[index]? = some (some c0) := by
      rw [List.getElem?_eq_getElem hidx, hc0]
    obtain ⟨col0, hcol0⟩ : ∃ col0, columns[c0]? = some col0 :=
      ⟨columns[c0], List.getElem?_eq_getElem hc0lt⟩
    have hjoin : (slots[index]?).join = some c0 := by
      rw [hget]
      rfl
    simp only [randomLoop, hjoin]
    generalize htile : Tile.mk (r 0) ld.char c0 ld.wordIndex false = tile
    have hpush : pushTile columns c0 tile = some (columns.set c0 (col0 ++ [tile])) :=
      (pushTile_eq_some_iff _ _ _ _).mpr ⟨col0, hcol0, rfl⟩
    simp only [hpush]
    have hlen1 : (columns.set c0 (col0 ++ [tile])).length = columns.length := by simp
    obtain ⟨res, hres, hreslen, hcount⟩ := ih (index + 1) (columns.set c0 (col0 ++ [tile]))
      r.next (by simp only [List.length_cons] at hlen; omega)
      (by rw [hlen1]; exact hslots)
    refine ⟨res, hres, by rw [hreslen, hlen1], ?_⟩
    intro c col hc
    have hdrop : slots.drop index = some c0 :: slots.drop (index + 1) := by
      rw [List.drop_eq_getElem_cons hidx, hc0]
    have hcnt : ((slots.drop index).take (ld :: rest).length).count (some c)
        = (if c0 = c then 1 else 0)
          + ((slots.drop (index + 1)).take rest.length).count (some c) := by
      rw [hdrop, List.length_cons, List.take_succ_cons, List.count_cons]
      by_cases hcc : c0 = c
      · simp [hcc]
        omega
      · simp [hcc]
    rw [hcnt]
    by_cases hcc : c0 = c
    · subst hcc
      rw [hcol0] at hc
      cases hc
      have h1 : (columns.set c0 (col0 ++ [tile]))[c0]? = some (col0 ++ [tile]) :=
        List.getElem?_set_self hc0lt
      obtain ⟨col1, hcol1, hl⟩ := hcount c0 _ h1
      refine ⟨col1, hcol1, ?_⟩
      rw [hl]
      simp
      omega
    · have h1 : (columns.set c0 (col0 ++ [tile]))[c]? = some col := by
        rw [List.getElem?_set_ne hcc]
        exact hc
      obtain ⟨col1, hcol1, hl⟩ := hcount c col h1
      refine ⟨col1, hcol1, ?_⟩
      rw [hl]
      simp [hcc]

theorem placeLetters_random_spec (config : LevelConfig) (letters : List LetterData)
    (columns : List (List Tile)) (r : Rand)
    (hcols : 1 ≤ config.cols)
    (hlin : orDefault config.order "random" ≠ "linear")
    (hclu : orDefault config.order "random" ≠ "cluster")
    (hempty : columns = List.replicate config.cols []) :
    ∃ res, placeLetters config letters columns r = .ok res
      ∧ res.1.length = config.cols
      ∧ ∀ c col, res.1[c]? = some col →
          c < config.cols
            ∧ col.length = ((List.range letters.length).filter
                (fun i => decide (i % config.cols = c))).length := by
  have hpos : 0 < config.cols := by omega
  have hcl : columns.length = config.cols := by simp [hempty]
  have hperm := shuffleLoop_perm (((List.range letters.length).map (slotOf config.cols)).length - 1)
    ((List.range letters.length).map (slotOf config.cols)) r
  unfold placeLetters
  simp only [hlin, hclu, if_false]
  generalize shuffleLoop (((List.range letters.length).map (slotOf config.cols)).length - 1)
    ((List.range letters.length).map (slotOf config.cols)) r = shuffled at hperm ⊢
  have hslen : shuffled.1.length = letters.length := by
    rw [hperm.length_eq]
    simp
  obtain ⟨res, hres, hreslen, hcount⟩ := randomLoop_spec shuffled.1 letters 0 columns
    shuffled.2 (by rw [hslen]; omega)
    (by
      intro x hx
      have hx1 := (hperm.mem_iff).mp hx
      obtain ⟨i, -, rfl⟩ := List.mem_map.mp hx1
      refine ⟨i % config.cols, ?_, ?_⟩
      · have hne : config.cols ≠ 0 := by omega
        simp [slotOf, hne]
      · rw [hcl]
        exact Nat.mod_lt _ hpos)
  refine ⟨res, hres, by rw [hreslen, hcl], ?_⟩
  intro c col hc
  have hclt : c < config.cols := by
    have := (List.getElem?_eq_some.mp hc).1
    omega
  have hc0 : columns[c]? = some [] := by
    rw [hempty]
    simp [List.getElem?_replicate, hclt]
  obtain ⟨col1, hcol1, hl⟩ := hcount c [] hc0
  rw [hc] at hcol1
  cases hcol1
  refine ⟨hclt, ?_⟩
  rw [hl, List.drop_zero, List.take_of_length_le (by rw [hslen]), List.count_eq_countP,
    hperm.countP_eq, ← List.count_eq_countP, slots_count config.cols hpos]
  simp

/-- C20: in random placement mode (the default branch, taken for every order that
is neither linear nor cluster) with `cols ≥ 1`, generation on empty columns
completes for every outcome of the shuffle, and with `n` the total number of
letters column `c` ends with exactly as many tiles as there are `i < n` with
`i mod cols = c`; hence the heights of any two columns differ by at most 1 and no
column holds more than `⌈n / cols⌉` tiles. -/
theorem random_placement_balanced (config : LevelConfig) (ws : List Word) (gs : GameState)
    (r : Rand)
    (hcols : 1 ≤ config.cols)
    (hlin : orDefault config.order "random" ≠ "linear")
    (hclu : orDefault config.order "random" ≠ "cluster")
    (hempty : gs.columns = List.replicate config.cols []) :
    ∃ res, generateLevelWithWords config ws gs r = .ok res
      ∧ res.1.columns.length = config.cols
      ∧ (∀ (c : Nat) (col : List Tile), res.1.columns[c]? = some col →
          col.length = ((List.range (ws.map List.length).sum).filter
            (fun i => decide (i % config.cols = c))).length)
      ∧ (∀ (c d : Nat) (colc cold : List Tile), res.1.columns[c]? = some colc →
          res.1.columns[d]? = some cold → colc.length ≤ cold.length + 1)
      ∧ (∀ (c : Nat) (col : List Tile), res.1.columns[c]? = some col →
          col.length ≤ ((ws.map List.length).sum + config.cols - 1) / config.cols) := by
  have hpos : 0 < config.cols := by omega
  obtain ⟨res, hres, hlen, hcount⟩ := placeLetters_random_spec config
    (collectLetters gs.targetWords (orDefault config.letters "direct") ws r).1 gs.columns
    (collectLetters gs.targetWords (orDefault config.letters "direct") ws r).2
    hcols hlin hclu hempty
  rw [collectLetters_length] at hcount
  have hheight : ∀ (c : Nat) (col : List Tile), res.1[c]? = some col →
      col.length = (ws.map List.length).sum / config.cols
        + (if c < (ws.map List.length).sum % config.cols then 1 else 0) := by
    intro c col hc
    obtain ⟨hclt, hl⟩ := hcount c col hc
    rw [hl, range_filter_mod_length config.cols hpos c hclt]
  refine ⟨({ gs with columns := res.1 }, res.2), ?_, hlen, ?_, ?_, ?_⟩
  · unfold generateLevelWithWords
    simp only [hres]
  · intro c col hc
    exact (hcount c col hc).2
  · intro c d colc cold hc hd
    have h1 := hheight c colc hc
    have h2 := hheight d cold hd
    rw [h1, h2]
    split <;> split <;> omega
  · intro c col hc
    have h1 := hheight c col hc
    have hmod : (ws.map List.length).sum % config.cols < config.cols := Nat.mod_lt _ hpos
    rw [h1, ceil_div_eq config.cols hpos]
    split <;> split <;> omega

/-- The two-word level placed at random under the draws `k ↦ 5 * k + 2`: both
columns receive three of the six letters. -/
theorem random_placement_balanced_witness :
    ∃ res, generateLevelWithWords { kotPesLevel with order := none }
          kotPesStart.targetWords kotPesStart (fun k => 5 * k + 2) = .ok res
      ∧ res.1.columns.length = 2
      ∧ ∀ (c : Nat) (col : List Tile), res.1.columns[c]? = some col →
          col.length ≤ (6 + 2 - 1) / 2 := by
  obtain ⟨res, hres, hlen, -, -, hceil⟩ := random_placement_balanced
    { kotPesLevel with order := none } kotPesStart.targetWords kotPesStart
    (fun k => 5 * k + 2) (by decide) (by decide) (by decide) rfl
  exact ⟨res, hres, hlen, hceil⟩

/-! ## No repetition in `foundWords` -/

theorem handleSelectedTileClick_words (gs gs1 : GameState) (tile : Tile)
    (h : handleSelectedTileClick gs tile = .ok gs1) :
    gs1.targetWords = gs.targetWords ∧ gs1.foundWords = gs.foundWords := by
  unfold handleSelectedTileClick at h
  split at h
  · cases h
    exact ⟨rfl, rfl⟩
  · split at h
    · simp at h
    · dsimp only at h
      split at h
      · cases h
        exact ⟨rfl, rfl⟩
      · split at h
        · cases h
          exact ⟨rfl, rfl⟩
        · cases h
          exact ⟨rfl, rfl⟩

theorem foundWithinTargets_of_same (gs gs1 : GameState)
    (ht : gs1.targetWords = gs.targetWords) (hf : gs1.foundWords = gs.foundWords)
    (h : FoundWithinTargets gs) : FoundWithinTargets gs1 := by
  intro word hw
  rw [hf] at hw
  rw [ht]
  exact h word hw

theorem step_foundWithinTargets (levelConfig : Option LevelConfig) (dictionary : List Word)
    (w w1 : World) (hstep : Step levelConfig dictionary w w1)
    (h : FoundWithinTargets w.gameState) : FoundWithinTargets w1.gameState := by
  cases hstep with
  | select tile c i hat hactive =>
    show FoundWithinTargets (handleTileClick w.gameState tile c i)
    unfold handleTileClick
    split
    · exact h
    · exact foundWithinTargets_of_same w.gameState _ rfl rfl h
  | deselect tile c i hat gs1 hclick =>
    obtain ⟨ht, hf⟩ := handleSelectedTileClick_words _ gs1 tile hclick
    exact foundWithinTargets_of_same w.gameState gs1 ht hf h
  | confirm =>
    show FoundWithinTargets (handleInputPanelClick dictionary w.gameState).1
    rcases handleInputPanelClick_cases dictionary w.gameState with
      hsame | ⟨htarget, -, hfound⟩ | ⟨-, -, hhidden⟩ | hreset
    · rw [hsame]
      exact h
    · rw [hfound]
      intro word hw
      have hw1 : word ∈ w.gameState.foundWords ++ [currentWord w.gameState] := hw
      show word ∈ w.gameState.targetWords
      rcases List.mem_append.mp hw1 with hold | hnew
      · exact h word hold
      · rw [List.mem_singleton.mp hnew]
        exact htarget
    · rw [hhidden]
      exact foundWithinTargets_of_same w.gameState _ rfl rfl h
    · rw [hreset]
      exact foundWithinTargets_of_same w.gameState _ rfl rfl h
  | complete before after timer hpending =>
    show FoundWithinTargets (runTimer timer w.gameState)
    cases timer with
    | foundCommit => exact foundWithinTargets_of_same w.gameState _ rfl rfl h
    | hiddenCommit => exact foundWithinTargets_of_same w.gameState _ rfl rfl h
  | hint =>
    show FoundWithinTargets (useHint w.gameState)
    rcases useHint_cases w.gameState with hsame | ⟨word, -, -, -, hadd⟩
    · rw [hsame]
      exact h
    · rw [hadd]
      exact foundWithinTargets_of_same w.gameState _ rfl rfl h
  | bonusColor =>
    show FoundWithinTargets (activateBonusColor w.gameState)
    unfold activateBonusColor
    split
    · exact h
    · exact foundWithinTargets_of_same w.gameState _ rfl rfl h
  | restart r hids =>
    obtain ⟨ht, hf, -, -⟩ := restartLevel_frame levelConfig w.gameState r
    exact foundWithinTargets_of_same w.gameState _ ht hf h

theorem played_foundWithinTargets (normalize : Word → Word)
    (levelConfig : Option LevelConfig) (dictionary : List Word) (w : World)
    (h : Played (LoadedLevel normalize) levelConfig dictionary w) :
    FoundWithinTargets w.gameState := by
  induction h with
  | init w0 h0 =>
    obtain ⟨config, base, r, hgs, -⟩ := h0
    obtain ⟨hf, -, -, -⟩ := loadLevel_outcome normalize config base r
    intro word hw
    rw [hgs, hf] at hw
    simp at hw
  | event w0 w1 _ hevent ih =>
    rcases hevent with ⟨_, hstep⟩ | ⟨r⟩
    · exact step_foundWithinTargets levelConfig dictionary w0 w1 hstep ih
    · obtain ⟨ht, hf, -, -⟩ := restartLevel_frame levelConfig w0.gameState r
      exact foundWithinTargets_of_same w0.gameState _ ht hf ih

theorem length_lt_of_nodup_subset_of_dup (found targets : List Word) (hn : found.Nodup)
    (hsub : ∀ word ∈ found, word ∈ targets) (hdup : ¬ targets.Nodup) :
    found.length < targets.length := by
  have h1 : found.length ≤ targets.dedup.length := by
    apply List.Subperm.length_le
    apply List.subperm_of_subset hn
    intro word hw
    exact List.mem_dedup.mpr (hsub word hw)
  have h2 : targets.dedup.length < targets.length := by
    have hle := (List.dedup_sublist targets).length_le
    rcases Nat.lt_or_ge targets.dedup.length targets.length with hlt | hge
    · exact hlt
    · exfalso
      have heq := (List.dedup_sublist targets).eq_of_length_le hge
      apply hdup
      rw [← heq]
      exact List.nodup_dedup targets
  omega

/-- C23: in every state reachable from `loadLevel` by any sequence of events,
`foundWords` has no repeated entry; so when `targetWords` lists some word twice,
`foundWords.length` is strictly below `targetWords.length` in every reachable state
and the win test `foundWords.length === targetWords.length` is never true. -/
theorem found_words_no_duplicates (normalize : Word → Word)
    (levelConfig : Option LevelConfig) (dictionary : List Word) (w : World)
    (h : Played (LoadedLevel normalize) levelConfig dictionary w) :
    w.gameState.foundWords.Nodup
      ∧ (¬ w.gameState.targetWords.Nodup →
          w.gameState.foundWords.length < w.gameState.targetWords.length
            ∧ w.gameState.foundWords.length ≠ w.gameState.targetWords.length) := by
  have hinv := played_sessionInvariant normalize levelConfig dictionary w h
  have hsub := played_foundWithinTargets normalize levelConfig dictionary w h
  refine ⟨hinv.1, fun hdup => ?_⟩
  have hlt := length_lt_of_nodup_subset_of_dup _ _ hinv.1 hsub hdup
  exact ⟨hlt, by omega⟩

theorem kotKotFoundWorld_played :
    Played (LoadedLevel (fun word => word)) (some kotKotLevel) [] kotKotFoundWorld := by
  have h0 : Played (LoadedLevel (fun word => word)) (some kotKotLevel) []
      { gameState := kotKotLoaded, timers := [] } :=
    Played.init _ ⟨kotKotLevel, kotPesStart, fun k => k - 3, rfl, rfl⟩
  have h1 := Played.event _ _ h0 (Event.step _ _
    (Step.select { gameState := kotKotLoaded, timers := [] } tileK 0 0 (by decide) (by decide)))
  have h2 := Played.event _ _ h1 (Event.step _ _
    (Step.select { gameState := handleTileClick kotKotLoaded tileK 0 0, timers := [] }
      tileO 1 0 (by decide) (by decide)))
  have h3 := Played.event _ _ h2 (Event.step _ _
    (Step.select
      { gameState := handleTileClick (handleTileClick kotKotLoaded tileK 0 0) tileO 1 0,
        timers := [] }
      tileT 0 1 (by decide) (by decide)))
  have h4 := Played.event _ _ h3 (Event.step _ _ (Step.confirm _))
  exact Played.event _ _ h4 (Event.step _ _
    (Step.complete _ [] [] Timer.foundCommit (by decide)))

/-- On the level that lists КОТ twice, after КОТ was found once: one found word
against two target words, and the remaining tiles К, О, Т spell a word that is
already found. -/
theorem found_words_no_duplicates_witness :
    kotKotFoundWorld.gameState.foundWords = [['К', 'О', 'Т']]
      ∧ kotKotFoundWorld.gameState.targetWords = [['К', 'О', 'Т'], ['К', 'О', 'Т']]
      ∧ kotKotFoundWorld.gameState.foundWords.length
          < kotKotFoundWorld.gameState.targetWords.length :=
  ⟨by decide, by decide,
    ((found_words_no_duplicates (fun word => word) (some kotKotLevel) [] kotKotFoundWorld
      kotKotFoundWorld_played).2 (by decide)).1⟩

/-! ## Cluster placement within the capacity of the board -/

theorem heightLt_iff (colHeights : List Nat) (i : Int) (rows : Int) :
    heightLt colHeights i rows = true ↔
      0 ≤ i ∧ ∃ h, colHeights[i.toNat]? = some h ∧ (h : Int) < rows := by
  unfold heightLt jsGet
  by_cases hi : 0 ≤ i
  · simp only [hi, if_true, true_and]
    cases hg : colHeights[i.toNat]? with
    | none => simp
    | some h => simp
  · simp [hi]

theorem length_mul_le_sum (colHeights : List Nat) (rows : Int)
    (h : ∀ x ∈ colHeights, rows ≤ (x : Int)) :
    (colHeights.length : Int) * rows ≤ (colHeights.sum : Int) := by
  induction colHeights with
  | nil => simp
  | cons a t ih =>
    have ha := h a (List.mem_cons_self _ _)
    have ht := ih (fun x hx => h x (List.mem_cons_of_mem _ hx))
    simp only [List.length_cons, List.sum_cons]
    rw [Nat.cast_add, Nat.cast_add, Nat.cast_one]
    have hring : ((t.length : Int) + 1) * rows = (t.length : Int) * rows + rows := by ring
    rw [hring]
    linarith

theorem exists_below_of_sum_lt (colHeights : List Nat) (rows : Int)
    (h : (colHeights.sum : Int) < (colHeights.length : Int) * rows) :
    ∃ (c : Nat) (x : Nat), colHeights[c]? = some x ∧ (x : Int) < rows := by
  by_contra hno
  have hall : ∀ x ∈ colHeights, rows ≤ (x : Int) := by
    intro x hx
    by_contra hlt
    obtain ⟨c, hc, rfl⟩ := List.getElem_of_mem hx
    exact hno ⟨c, colHeights[c], List.getElem?_eq_getElem hc, by omega⟩
  have := length_mul_le_sum colHeights rows hall
  omega

theorem jsFindIndex_below (colHeights : List Nat) (rows : Int)
    (h : ∃ (c : Nat) (x : Nat), colHeights[c]? = some x ∧ (x : Int) < rows) :
    heightLt colHeights (jsFindIndex (fun (x : Nat) => decide ((x : Int) < rows)) colHeights) rows
      = true := by
  obtain ⟨c, x, hc, hx⟩ := h
  have hmem : x ∈ colHeights := by
    obtain ⟨hlt, rfl⟩ := List.getElem?_eq_some.mp hc
    exact List.getElem_mem hlt
  obtain ⟨pre, s, post, hl, hs, -, hidx⟩ :=
    jsFindIndex_split (fun (x : Nat) => decide ((x : Int) < rows)) colHeights
      ⟨x, hmem, by simpa using hx⟩
  rw [hidx, heightLt_iff]
  refine ⟨by omega, s, ?_, by simpa using hs⟩
  rw [Int.toNat_ofNat, hl, List.getElem?_append_right (Nat.le_refl _)]
  simp

theorem scanLeft_below (colHeights : List Nat) (rows : Int) (room start : Nat)
    (hlen : start + room + 1 = colHeights.length)
    (h : ∃ (c : Nat) (x : Nat), start ≤ c ∧ colHeights[c]? = some x ∧ (x : Int) < rows) :
    heightLt colHeights ((scanLeft colHeights rows room start : Nat) : Int) rows = true := by
  induction room generalizing start with
  | zero =>
    obtain ⟨c, x, hsc, hc, hx⟩ := h
    have hclt : c < colHeights.length := (List.getElem?_eq_some.mp hc).1
    have hcs : c = start := by omega
    subst hcs
    simp only [scanLeft]
    rw [heightLt_iff]
    exact ⟨by omega, x, by rw [Int.toNat_ofNat]; exact hc, hx⟩
  | succ k ih =>
    have hstart : start < colHeights.length := by omega
    simp only [scanLeft]
    by_cases hge : heightGe colHeights (start : Int) rows = true
    · simp only [hge, if_true]
      apply ih (start + 1) (by omega)
      obtain ⟨c, x, hsc, hc, hx⟩ := h
      refine ⟨c, x, ?_, hc, hx⟩
      by_contra hnot
      have hcs : c = start := by omega
      subst hcs
      unfold heightGe jsGet at hge
      simp only [Int.natCast_nonneg, if_true, Int.toNat_ofNat, hc, decide_eq_true_eq] at hge
      omega
    · simp only [hge, if_false, Bool.false_eq_true]
      rw [heightLt_iff]
      refine ⟨by omega, colHeights[start], ?_, ?_⟩
      · rw [Int.toNat_ofNat]
        exact List.getElem?_eq_getElem hstart
      · unfold heightGe jsGet at hge
        simp only [Int.natCast_nonneg, if_true, Int.toNat_ofNat,
          List.getElem?_eq_getElem hstart, decide_eq_true_eq] at hge
        omega

theorem clusterOptions_below (config : LevelConfig) (colHeights : List Nat) (lastCol : Int) :
    ∀ x ∈ clusterOptions config colHeights lastCol,
      heightLt colHeights x config.rows = true := by
  intro x hx
  unfold clusterOptions at hx
  rcases List.mem_append.mp hx with h12 | h3
  · rcases List.mem_append.mp h12 with h1 | h2
    · split at h1
      · rename_i hlt
        simp only [List.mem_cons, List.mem_singleton, or_self, List.not_mem_nil,
          or_false] at h1
        rw [h1]
        exact hlt
      · simp at h1
    · split at h2
      · rename_i hlt
        rw [List.mem_singleton.mp h2]
        exact hlt.2
      · simp at h2
  · split at h3
    · rename_i hlt
      rw [List.mem_singleton.mp h3]
      exact hlt.2
    · simp at h3

theorem clusterColumn_below (config : LevelConfig) (colHeights : List Nat) (lastCol : Int)
    (letterData : LetterData) (r : Rand)
    (hcols : 1 ≤ config.cols) (hlen : colHeights.length = config.cols)
    (h : ∃ (c : Nat) (x : Nat), colHeights[c]? = some x ∧ (x : Int) < config.rows) :
    heightLt colHeights (clusterColumn config colHeights lastCol letterData r).1 config.rows
      = true := by
  have hfree := jsFindIndex_below colHeights config.rows h
  have hkeep : ∀ (x : Int) (r1 : Rand), heightLt colHeights x config.rows = true →
      heightLt colHeights
        (match (some x, r1).1 with
          | some colIndex =>
            if colIndex = -1 then
              (jsFindIndex (fun (h : Nat) => decide ((h : Int) < config.rows)) colHeights,
                (some x, r1).2)
            else (colIndex, (some x, r1).2)
          | none =>
            (jsFindIndex (fun (h : Nat) => decide ((h : Int) < config.rows)) colHeights,
              (some x, r1).2)).1 config.rows = true := by
    intro x r1 hx
    have hnn := ((heightLt_iff _ _ _).mp hx).1
    have hne : x ≠ -1 := by omega
    simp only [hne, if_false]
    exact hx
  unfold clusterColumn
  dsimp only
  by_cases hfirst : letterData.charIndex = 0
  · simp only [hfirst, if_true]
    apply hkeep
    apply scanLeft_below
    · omega
    · obtain ⟨c, x, hc, hx⟩ := h
      exact ⟨c, x, Nat.zero_le _, hc, hx⟩
  · simp only [hfirst, if_false]
    by_cases hopt : 0 < (clusterOptions config colHeights lastCol).length
    · simp only [hopt, if_true]
      have hidx : r.floorMul (clusterOptions config colHeights lastCol).length
          < (clusterOptions config colHeights lastCol).length := by
        unfold Rand.floorMul
        exact Nat.mod_lt _ hopt
      rw [List.getElem?_eq_getElem hidx]
      apply hkeep
      exact clusterOptions_below config colHeights lastCol _ (List.getElem_mem hidx)
    · simp only [hopt, if_false]
      apply hkeep
      exact hfree

theorem incrAt_length (colHeights : List Nat) (c : Nat) :
    (incrAt colHeights c).length = colHeights.length := by
  induction colHeights generalizing c with
  | nil => rfl
  | cons a t ih =>
    cases c with
    | zero => rfl
    | succ k => simp [incrAt, ih]

theorem incrAt_getElem? (colHeights : List Nat) (c i : Nat) :
    (incrAt colHeights c)[i]?
      = if i = c then (colHeights[c]?).map (fun x => x + 1) else colHeights[i]? := by
  induction colHeights generalizing c i with
  | nil => simp [incrAt]
  | cons a t ih =>
    cases c with
    | zero =>
      cases i with
      | zero => simp [incrAt]
      | succ j => simp [incrAt]
    | succ k =>
      cases i with
      | zero => simp [incrAt]
      | succ j => simp [incrAt, ih]

theorem incrAt_sum (colHeights : List Nat) (c : Nat) (hc : c < colHeights.length) :
    (incrAt colHeights c).sum = colHeights.sum + 1 := by
  induction colHeights generalizing c with
  | nil => simp at hc
  | cons a t ih =>
    cases c with
    | zero =>
      simp only [incrAt, List.sum_cons]
      omega
    | succ k =>
      have hk : k < t.length := by simpa using hc
      simp only [incrAt, List.sum_cons, ih k hk]
      omega

theorem clusterLoop_within_capacity (config : LevelConfig) (letters : List LetterData)
    (colHeights : List Nat) (lastCol : Int) (columns : List (List Tile)) (r : Rand)
    (hcols : 1 ≤ config.cols) (hlenH : colHeights.length = config.cols)
    (hlenC : columns.length = config.cols)
    (hsync : ∀ (c : Nat) (col : List Tile), columns[c]? = some col →
      colHeights[c]? = some col.length)
    (hbound : ∀ (c x : Nat), colHeights[c]? = some x → (x : Int) ≤ config.rows)
    (hcap : (colHeights.sum : Int) + (letters.length : Int)
      ≤ (config.cols : Int) * config.rows) :
    ∃ (res : List (List Tile) × Rand) (chosen : List Nat),
      clusterLoop config letters colHeights lastCol columns r = .ok res
      ∧ res.1.length = config.cols
      ∧ (∀ (c : Nat) (col : List Tile), res.1[c]? = some col →
          (col.length : Int) ≤ config.rows)
      ∧ chosen.length = letters.length
      ∧ (∀ (c i : Nat) (t : Tile), tileAt columns c i = some t → tileAt res.1 c i = some t)
      ∧ (∀ (k : Nat) (ld : LetterData) (c : Nat),
          letters[k]? = some ld → chosen[k]? = some c →
          ∃ (h : Nat) (t : Tile), colHeights[c]? = some h
            ∧ ((h + (chosen.take k).count c : Nat) : Int) < config.rows
            ∧ tileAt res.1 c (h + (chosen.take k).count c) = some t
            ∧ t.char = ld.char ∧ t.wordIndex = ld.wordIndex ∧ t.colIndex = c) := by
  induction letters generalizing colHeights lastCol columns r with
  | nil =>
    refine ⟨(columns, r), [], rfl, hlenC, ?_, rfl, fun _ _ _ h => h, ?_⟩
    · intro c col hc
      exact hbound c col.length (hsync c col hc)
    · intro k ld c hk
      simp at hk
  | cons ld rest ih =>
    have hlt : (colHeights.sum : Int) < (colHeights.length : Int) * config.rows := by
      rw [hlenH]
      simp only [List.length_cons, Nat.cast_add, Nat.cast_one] at hcap
      have : (0 : Int) ≤ (rest.length : Int) := Int.natCast_nonneg _
      omega
    have hbelow := clusterColumn_below config colHeights lastCol ld r hcols hlenH
      (exists_below_of_sum_lt colHeights config.rows hlt)
    obtain ⟨hnn, x, hx, hxlt⟩ := (heightLt_iff _ _ _).mp hbelow
    simp only [clusterLoop]
    generalize clusterColumn config colHeights lastCol ld r = pick at hnn hx hxlt ⊢
    have hc0H : pick.1.toNat < colHeights.length := (List.getElem?_eq_some.mp hx).1
    have hc0 : pick.1.toNat < columns.length := by omega
    have hneg : ¬ pick.1 < 0 := by omega
    simp only [hneg, if_false]
    generalize htile : Tile.mk (pick.2 0) ld.char pick.1.toNat ld.wordIndex false = tile
    have htchar : tile.char = ld.char := by rw [← htile]
    have htword : tile.wordIndex = ld.wordIndex := by rw [← htile]
    have htcol : tile.colIndex = pick.1.toNat := by rw [← htile]
    obtain ⟨col0, hcol0⟩ : ∃ col0, columns[pick.1.toNat]? = some col0 :=
      ⟨columns[pick.1.toNat], List.getElem?_eq_getElem hc0⟩
    have hh0 := hsync _ col0 hcol0
    rw [hx] at hh0
    have hxeq : x = col0.length := Option.some.inj hh0
    have hpush : pushTile columns pick.1.toNat tile
        = some (columns.set pick.1.toNat (col0 ++ [tile])) :=
      (pushTile_eq_some_iff _ _ _ _).mpr ⟨col0, hcol0, rfl⟩
    have hnew := tileAt_pushTile_new _ _ _ _ hpush col0 hcol0
    rw [← hxeq] at hnew
    simp only [hpush]
    obtain ⟨res, chosen, hres, hlen, hle, hclen, hold, hplace⟩ :=
      ih (incrAt colHeights pick.1.toNat) pick.1
        (columns.set pick.1.toNat (col0 ++ [tile])) pick.2.next
        (by rw [incrAt_length, hlenH])
        (by rw [List.length_set, hlenC])
        (by
          intro c col hc
          rw [incrAt_getElem?]
          by_cases hcc : c = pick.1.toNat
          · subst hcc
            rw [List.getElem?_set_self hc0] at hc
            cases hc
            simp [hx, hxeq]
          · simp only [hcc, if_false]
            rw [List.getElem?_set_ne (fun h => hcc h.symm)] at hc
            exact hsync c col hc)
        (by
          intro c y hy
          rw [incrAt_getElem?] at hy
          by_cases hcc : c = pick.1.toNat
          · simp only [hcc, if_true, hx, Option.map_some', Option.some.injEq] at hy
            rw [← hy]
            push_cast
            omega
          · simp only [hcc, if_false] at hy
            exact hbound c y hy)
        (by
          rw [incrAt_sum _ _ hc0H, Nat.cast_add, Nat.cast_one]
          simp only [List.length_cons, Nat.cast_add, Nat.cast_one] at hcap
          omega)
    refine ⟨res, pick.1.toNat :: chosen, hres, hlen, hle, by simp [hclen], ?_, ?_⟩
    · intro c i t ht
      exact hold c i t (tileAt_pushTile_old _ _ _ _ hpush c i t ht)
    · intro k ld1 c hk hc
      cases k with
      | zero =>
        simp only [List.getElem?_cons_zero, Option.some.injEq] at hk hc
        subst hk
        subst hc
        refine ⟨x, tile, hx, ?_, ?_, htchar, htword, htcol⟩
        · simpa using hxlt
        · simpa using hold _ _ _ hnew
      | succ j =>
        simp only [List.getElem?_cons_succ] at hk hc
        obtain ⟨h1, t, hh1, hlt1, hat1, hch, hwi, hci⟩ := hplace j ld1 c hk hc
        rw [incrAt_getElem?] at hh1
        by_cases hcc : c = pick.1.toNat
        · rw [if_pos hcc, hx] at hh1
          simp only [Option.map_some', Option.some.injEq] at hh1
          have hpos : x + ((pick.1.toNat :: chosen).take (j + 1)).count c
              = h1 + (chosen.take j).count c := by
            rw [List.take_succ_cons, ← hcc, List.count_cons_self]
            omega
          rw [← hcc] at hx
          exact ⟨x, t, hx, by rw [hpos]; exact hlt1, by rw [hpos]; exact hat1, hch, hwi, hci⟩
        · rw [if_neg hcc] at hh1
          have hpos : h1 + ((pick.1.toNat :: chosen).take (j + 1)).count c
              = h1 + (chosen.take j).count c := by
            rw [List.take_succ_cons, List.count_cons_of_ne hcc]
          exact ⟨h1, t, hh1, by rw [hpos]; exact hlt1, by rw [hpos]; exact hat1,
            hch, hwi, hci⟩

/-- C21: in cluster placement mode with `cols ≥ 1` and a total number of letters
of at most `cols × rows`, generation on empty columns completes for every random
stream, and every letter is placed in a column with room.  There is a list
`chosen` naming a column below `cols` for each letter of `allLetters`, in order,
such that for the `k`-th letter, with `c` its column and `(chosen.take k).count c`
the number of earlier letters placed in `c`, which is the height of column `c`
right before the `k`-th placement: that height is strictly below `rows`, and the
generated board holds at that stack position of column `c` a tile with the
letter's `char` and `wordIndex`.  The board holds the letters of the words and
nothing else; so every tile lies at a stack position below `rows` and no column
holds more than `rows` tiles. -/
theorem cluster_placement_within_rows (config : LevelConfig) (ws : List Word)
    (gs : GameState) (r : Rand)
    (hcols : 1 ≤ config.cols) (horder : config.order = some "cluster")
    (hcap : ((ws.map List.length).sum : Int) ≤ (config.cols : Int) * config.rows)
    (hempty : gs.columns = List.replicate config.cols []) :
    ∃ (res : GameState × Rand) (chosen : List Nat),
      generateLevelWithWords config ws gs r = .ok res
      ∧ chosen.length
          = (collectLetters gs.targetWords (orDefault config.letters "direct") ws r).1.length
      ∧ (∀ (k : Nat) (ld : LetterData) (c : Nat),
          (collectLetters gs.targetWords (orDefault config.letters "direct") ws r).1[k]?
              = some ld →
          chosen[k]? = some c →
          c < config.cols
            ∧ (((chosen.take k).count c : Nat) : Int) < config.rows
            ∧ ∃ t, tileAt res.1.columns c ((chosen.take k).count c) = some t
                ∧ t.char = ld.char ∧ t.wordIndex = ld.wordIndex ∧ t.colIndex = c)
      ∧ (res.1.columns.flatten.map Tile.char).Perm ws.flatten
      ∧ (∀ (c i : Nat) (t : Tile), tileAt res.1.columns c i = some t →
          (i : Int) < config.rows)
      ∧ (∀ col ∈ res.1.columns, (col.length : Int) ≤ config.rows) := by
  have hrows : 0 ≤ config.rows := by
    by_contra hneg
    have hpos : (0 : Int) < (config.cols : Int) := by omega
    have hlt : (config.cols : Int) * config.rows < 0 :=
      Int.mul_neg_of_pos_of_neg hpos (by omega)
    have : (0 : Int) ≤ ((ws.map List.length).sum : Int) := Int.natCast_nonneg _
    omega
  have hclu : orDefault config.order "random" = "cluster" := by
    rw [horder]
    decide
  have hnl : ("cluster" : String) ≠ "linear" := by decide
  have hnil : ∀ col ∈ gs.columns, col = [] := by
    intro col hcol
    rw [hempty] at hcol
    exact (List.mem_replicate.mp hcol).2
  obtain ⟨res, chosen, hres, -, hle, hclen, -, hplace⟩ := clusterLoop_within_capacity config
    (collectLetters gs.targetWords (orDefault config.letters "direct") ws r).1
    (List.replicate config.cols 0) (-1) gs.columns
    (collectLetters gs.targetWords (orDefault config.letters "direct") ws r).2
    hcols (by simp) (by simp [hempty])
    (by
      intro c col hc
      have hclt : c < config.cols := by
        have := (List.getElem?_eq_some.mp hc).1
        rw [hempty] at this
        simpa using this
      rw [hempty] at hc
      simp only [List.getElem?_replicate, hclt, if_true, Option.some.injEq] at hc
      rw [← hc]
      simp [List.getElem?_replicate, hclt])
    (by
      intro c x hx
      have hx0 : x = 0 := by
        obtain ⟨hlt, rfl⟩ := List.getElem?_eq_some.mp hx
        simp
      rw [hx0]
      exact hrows)
    (by
      rw [collectLetters_length]
      simp only [List.sum_replicate, smul_eq_mul, Nat.mul_zero, Nat.cast_zero, Int.zero_add]
      exact hcap)
  have hgen : generateLevelWithWords config ws gs r
      = .ok ({ gs with columns := res.1 }, res.2) := by
    unfold generateLevelWithWords placeLetters
    simp only [hclu, hnl, if_false, if_true, hres]
  refine ⟨({ gs with columns := res.1 }, res.2), chosen, hgen, hclen, ?_,
    generateLevelWithWords_chars config ws gs r _ hnil hgen, ?_, ?_⟩
  · intro k ld c hk hc
    obtain ⟨h, t, hh, hlt, hat, hch, hwi, hci⟩ := hplace k ld c hk hc
    obtain ⟨hclt, hh0⟩ := List.getElem?_eq_some.mp hh
    have hzero : h = 0 := by
      rw [← hh0]
      simp
    subst hzero
    rw [Nat.zero_add] at hlt hat
    exact ⟨by simpa using hclt, hlt, t, hat, hch, hwi, hci⟩
  · intro c i t ht
    obtain ⟨col, hc, hi⟩ := (tileAt_eq_some_iff _ _ _ _).mp ht
    have hlen := hle c col hc
    have hilt := (List.getElem?_eq_some.mp hi).1
    omega
  · intro col hcol
    obtain ⟨c, hc, rfl⟩ := List.getElem_of_mem hcol
    exact hle c _ (List.getElem?_eq_getElem hc)

/-- The two-word level in cluster mode: six letters on two columns of three rows,
under the draws `k ↦ 3 * k + 1`.  The six letters К, О, Т, П, Е, С all lie on the
generated board, one column is named for each, and no column ends with more than
three tiles. -/
theorem cluster_placement_within_rows_witness :
    ∃ (res : GameState × Rand) (chosen : List Nat),
      generateLevelWithWords { kotPesLevel with order := some "cluster" }
          kotPesStart.targetWords kotPesStart (fun k => 3 * k + 1) = .ok res
      ∧ chosen.length = 6
      ∧ (res.1.columns.flatten.map Tile.char).Perm ['К', 'О', 'Т', 'П', 'Е', 'С']
      ∧ ∀ col ∈ res.1.columns, (col.length : Int) ≤ 3 := by
  obtain ⟨res, chosen, hres, hclen, -, hperm, -, hle⟩ := cluster_placement_within_rows
    { kotPesLevel with order := some "cluster" } kotPesStart.targetWords kotPesStart
    (fun k => 3 * k + 1) (by decide) rfl (by decide) rfl
  exact ⟨res, chosen, hres, hclen, hperm, hle⟩

/-! ## Linear placement with direct letters: the level can be won -/

theorem nextCol_lt (cols c : Nat) (hc : c < cols) : nextCol cols c < cols := by
  unfold nextCol
  split <;> omega

theorem prependAt_length (columns : List (List Tile)) (c : Nat) (a : Tile) :
    (prependAt columns c a).length = columns.length := by
  induction columns generalizing c with
  | nil => rfl
  | cons col cols ih =>
    cases c with
    | zero => rfl
    | succ k => simp [prependAt, ih]

theorem getElem?_prependAt (columns : List (List Tile)) (c k : Nat) (a : Tile) :
    (prependAt columns c a)[k]?
      = if k = c then (columns[c]?).map (fun col => a :: col) else columns[k]? := by
  induction columns generalizing c k with
  | nil => simp [prependAt]
  | cons col cols ih =>
    cases c with
    | zero =>
      cases k with
      | zero => simp [prependAt]
      | succ j => simp [prependAt]
    | succ c1 =>
      cases k with
      | zero => simp [prependAt]
      | succ j => simp [prependAt, ih]

theorem deal_length (cols c : Nat) (tiles : List Tile) : (deal cols c tiles).length = cols := by
  induction tiles generalizing c with
  | nil => simp [deal]
  | cons t rest ih => simp [deal, prependAt_length, ih]

theorem pushTile_prependAt (columns : List (List Tile)) (c k : Nat) (a t : Tile) :
    pushTile (prependAt columns c a) k t
      = (pushTile columns k t).map (fun columns1 => prependAt columns1 c a) := by
  induction columns generalizing c k with
  | nil => simp [prependAt, pushTile]
  | cons col cols ih =>
    cases c with
    | zero =>
      cases k with
      | zero => simp [prependAt, pushTile]
      | succ j => cases h : pushTile cols j t <;> simp [prependAt, pushTile, h]
    | succ c1 =>
      cases k with
      | zero => simp [prependAt, pushTile]
      | succ j => cases h : pushTile cols j t <;> simp [prependAt, pushTile, ih, h]

theorem pushTile_replicate_nil (n c : Nat) (t : Tile) (hc : c < n) :
    pushTile (List.replicate n []) c t = some (prependAt (List.replicate n []) c t) := by
  induction n generalizing c with
  | zero => omega
  | succ m ih =>
    cases c with
    | zero => simp [List.replicate_succ, pushTile, prependAt]
    | succ k =>
      have hk : k < m := by omega
      simp [List.replicate_succ, pushTile, prependAt, ih k hk]

theorem pushTile_deal (cols c0 : Nat) (pre : List Tile) (t : Tile) (hc : c0 < cols) :
    pushTile (deal cols c0 pre) ((nextCol cols)^[pre.length] c0) t
      = some (deal cols c0 (pre ++ [t])) := by
  induction pre generalizing c0 with
  | nil => simpa [deal] using pushTile_replicate_nil cols c0 t hc
  | cons a rest ih =>
    simp only [deal, List.length_cons, Function.iterate_succ_apply, List.cons_append,
      pushTile_prependAt, ih (nextCol cols c0) (nextCol_lt cols c0 hc), Option.map_some']
    rfl

theorem linearLoop_deal (cols c0 : Nat) (letters : List LetterData) (pre : List Tile)
    (currentCol currentRow : Nat) (r : Rand) (hc : c0 < cols)
    (hcol : currentCol = (nextCol cols)^[pre.length] c0) :
    ∃ r1, linearLoop cols letters currentCol currentRow (deal cols c0 pre) r
      = .ok (deal cols c0 (pre ++ linearTiles cols letters currentCol r), r1) := by
  induction letters generalizing pre currentCol currentRow r with
  | nil => exact ⟨r, by simp [linearLoop, linearTiles]⟩
  | cons ld rest ih =>
    simp only [linearLoop, linearTiles]
    generalize htile : Tile.mk (r 0) ld.char currentCol ld.wordIndex false = tile
    have hpush := pushTile_deal cols c0 pre tile hc
    rw [← hcol] at hpush
    rw [hpush]
    simp only
    have hnext : nextCol cols currentCol = (nextCol cols)^[(pre ++ [tile]).length] c0 := by
      rw [List.length_append, List.length_singleton, Function.iterate_succ_apply', ← hcol]
    have happ : pre ++ tile :: linearTiles cols rest (nextCol cols currentCol) r.next
        = (pre ++ [tile]) ++ linearTiles cols rest (nextCol cols currentCol) r.next := by
      simp
    rw [happ]
    split
    · rename_i hwrap
      have h0 : nextCol cols currentCol = 0 := by simp [nextCol, hwrap]
      rw [h0] at hnext ⊢
      exact ih (pre ++ [tile]) 0 (currentRow + 1) r.next hnext
    · rename_i hwrap
      have h1 : nextCol cols currentCol = currentCol + 1 := by simp [nextCol, hwrap]
      rw [h1] at hnext ⊢
      exact ih (pre ++ [tile]) (currentCol + 1) currentRow r.next hnext

theorem linearTiles_chars (cols : Nat) (letters : List LetterData) (c : Nat) (r : Rand) :
    (linearTiles cols letters c r).map Tile.char = letters.map LetterData.char := by
  induction letters generalizing c r with
  | nil => rfl
  | cons ld rest ih => simp [linearTiles, ih]

theorem collectLetters_direct (targetWords : List Word) (words : List Word) (r : Rand) :
    (collectLetters targetWords "direct" words r).1.map LetterData.char = words.flatten
      ∧ (collectLetters targetWords "direct" words r).2 = r := by
  have hsort : ∀ (w : Word) (r1 : Rand), sortWordLetters w "direct" r1 = (w, r1) := by
    intro w r1
    unfold sortWordLetters
    simp only [show ("direct" : String) ≠ "mirror" by decide,
      show ("direct" : String) ≠ "random" by decide,
      show ("direct" : String) ≠ "keep_base" by decide, if_false]
  induction words generalizing r with
  | nil => simp [collectLetters]
  | cons w rest ih =>
    simp only [collectLetters, hsort, List.map_append, tagLetters_chars, List.flatten_cons]
    exact ⟨by rw [(ih r).1], (ih r).2⟩

theorem groups_of_chars (words : List Word) (tiles : List Tile)
    (h : tiles.map Tile.char = words.flatten) :
    ∃ groups : List (List Tile), groups.flatten = tiles
      ∧ groups.map (fun group => group.map Tile.char) = words := by
  induction words generalizing tiles with
  | nil =>
    refine ⟨[], ?_, rfl⟩
    simpa using h.symm
  | cons w rest ih =>
    rw [List.flatten_cons] at h
    obtain ⟨l1, l2, rfl, h1, h2⟩ := List.map_eq_append_iff.mp h
    obtain ⟨groups, hg, hm⟩ := ih l2 h2
    exact ⟨l1 :: groups, by simp [hg], by simp [h1, hm]⟩

theorem prependAt_flatten_perm (columns : List (List Tile)) (c : Nat) (a : Tile)
    (hc : c < columns.length) :
    (prependAt columns c a).flatten.Perm (a :: columns.flatten) := by
  induction columns generalizing c with
  | nil => simp at hc
  | cons col cols ih =>
    cases c with
    | zero => simp [prependAt]
    | succ k =>
      have hk : k < cols.length := by simpa using hc
      simp only [prependAt, List.flatten_cons]
      exact ((ih k hk).append_left col).trans List.perm_middle

theorem deal_flatten_perm (cols c : Nat) (tiles : List Tile) (hc : c < cols) :
    (deal cols c tiles).flatten.Perm tiles := by
  induction tiles generalizing c with
  | nil =>
    simp only [deal]
    rw [List.flatten_eq_nil_iff.mpr (fun l hl => (List.mem_replicate.mp hl).2)]
  | cons t rest ih =>
    simp only [deal]
    exact (prependAt_flatten_perm _ c t (by rw [deal_length]; exact hc)).trans
      ((ih (nextCol cols c) (nextCol_lt cols c hc)).cons t)

theorem tileAt_prependAt_ne (columns : List (List Tile)) (c k i : Nat) (a : Tile)
    (hk : k ≠ c) : tileAt (prependAt columns c a) k i = tileAt columns k i := by
  unfold tileAt
  rw [getElem?_prependAt, if_neg hk]

theorem tileAt_prependAt_zero (columns : List (List Tile)) (c : Nat) (a : Tile)
    (hc : c < columns.length) : tileAt (prependAt columns c a) c 0 = some a := by
  unfold tileAt
  rw [getElem?_prependAt, if_pos rfl, List.getElem?_eq_getElem hc]
  simp

theorem tileAt_prependAt_succ (columns : List (List Tile)) (c i : Nat) (a : Tile) :
    tileAt (prependAt columns c a) c (i + 1) = tileAt columns c i := by
  unfold tileAt
  rw [getElem?_prependAt, if_pos rfl]
  cases columns[c]? with
  | none => rfl
  | some col => simp

theorem deal_position (cols c : Nat) (p q : List Tile) (t : Tile) (hc : c < cols) :
    ∃ (ct i : Nat), tileAt (deal cols c (p ++ t :: q)) ct i = some t
      ∧ ∀ j, i = j + 1 → ∃ b ∈ p, tileAt (deal cols c (p ++ t :: q)) ct j = some b := by
  induction p generalizing c with
  | nil =>
    refine ⟨c, 0, ?_, fun j hj => by omega⟩
    simp only [List.nil_append, deal]
    exact tileAt_prependAt_zero _ c t (by rw [deal_length]; exact hc)
  | cons a rest ih =>
    obtain ⟨ct, i, hat, hbelow⟩ := ih (nextCol cols c) (nextCol_lt cols c hc)
    simp only [List.cons_append, deal]
    by_cases hct : ct = c
    · subst hct
      refine ⟨ct, i + 1, ?_, ?_⟩
      · rw [tileAt_prependAt_succ]
        exact hat
      · intro j hj
        have hji : j = i := by omega
        subst hji
        cases j with
        | zero =>
          exact ⟨a, List.mem_cons_self _ _,
            tileAt_prependAt_zero _ ct a (by rw [deal_length]; exact hc)⟩
        | succ k =>
          obtain ⟨b, hb, hbat⟩ := hbelow k rfl
          refine ⟨b, List.mem_cons_of_mem _ hb, ?_⟩
          rw [tileAt_prependAt_succ]
          exact hbat
    · refine ⟨ct, i, ?_, ?_⟩
      · rw [tileAt_prependAt_ne _ _ _ _ _ hct]
        exact hat
      · intro j hj
        obtain ⟨b, hb, hbat⟩ := hbelow j hj
        refine ⟨b, List.mem_cons_of_mem _ hb, ?_⟩
        rw [tileAt_prependAt_ne _ _ _ _ _ hct]
        exact hbat

theorem prependAt_map_filter (columns : List (List Tile)) (c : Nat) (a : Tile)
    (keep : Tile → Bool) (ha : keep a = false) :
    (prependAt columns c a).map (fun col => col.filter keep)
      = columns.map (fun col => col.filter keep) := by
  induction columns generalizing c with
  | nil => rfl
  | cons col cols ih =>
    cases c with
    | zero => simp [prependAt, List.filter_cons, ha]
    | succ k => simp [prependAt, ih]

theorem deal_filter (cols c : Nat) (w rest : List Tile) (keep : Tile → Bool) (hc : c < cols)
    (hw : ∀ t ∈ w, keep t = false) (hrest : ∀ t ∈ rest, keep t = true) :
    (deal cols c (w ++ rest)).map (fun col => col.filter keep)
      = deal cols ((nextCol cols)^[w.length] c) rest := by
  induction w generalizing c with
  | nil =>
    simp only [List.nil_append, List.length_nil, Function.iterate_zero, id_eq]
    conv_rhs => rw [← List.map_id (deal cols c rest)]
    apply List.map_congr_left
    intro col hcol
    simp only [id_eq]
    apply List.filter_eq_self.mpr
    intro t ht
    exact hrest t ((deal_flatten_perm cols c rest hc).subset
      (List.mem_flatten.mpr ⟨col, hcol, ht⟩))
  | cons a w1 ih =>
    simp only [List.cons_append, deal, List.length_cons, Function.iterate_succ_apply]
    rw [prependAt_map_filter _ _ _ _ (hw a (List.mem_cons_self _ _))]
    exact ih (nextCol cols c) (nextCol_lt cols c hc)
      (fun t ht => hw t (List.mem_cons_of_mem _ ht))

theorem getTileStatus_active_intro (gs : GameState) (tile : Tile) (c i : Nat)
    (hsel : isSelectedId gs tile.id = false)
    (hbelow : ∀ j, i = j + 1 →
      ∃ b, tileAt gs.columns c j = some b ∧ isSelectedId gs b.id = true) :
    getTileStatus gs tile c i = .ok { active := true, selected := false } := by
  unfold getTileStatus
  rw [hsel]
  simp only [Bool.false_eq_true, if_false]
  cases i with
  | zero => simp
  | succ j =>
    obtain ⟨b, hb, hbsel⟩ := hbelow j rfl
    obtain ⟨col, hcol, hj⟩ := (tileAt_eq_some_iff _ _ _ _).mp hb
    simp [hcol, hj, hbsel]

theorem nextCol_iterate_lt (cols c n : Nat) (hc : c < cols) :
    (nextCol cols)^[n] c < cols := by
  induction n generalizing c with
  | zero => simpa using hc
  | succ k ih =>
    rw [Function.iterate_succ_apply]
    exact ih _ (nextCol_lt cols c hc)

theorem clickRun_deal (cols c : Nat) (gs : GameState) (p q rest : List Tile) (hc : c < cols)
    (hcolumns : gs.columns = deal cols c (p ++ q ++ rest))
    (hsel : gs.selectedTiles = p) (hproc : gs.isProcessing = false)
    (hids : ((p ++ q ++ rest).map Tile.id).Nodup) :
    ClickRun gs q { gs with selectedTiles := p ++ q } := by
  induction q generalizing p gs with
  | nil =>
    have hgs : ({ gs with selectedTiles := p ++ [] } : GameState) = gs := by
      rw [List.append_nil, ← hsel]
    rw [hgs]
    exact ClickRun.done gs
  | cons t q1 ih =>
    have hlist : p ++ t :: q1 ++ rest = p ++ t :: (q1 ++ rest) := by simp
    rw [hlist] at hcolumns hids
    obtain ⟨ct, i, hat, hbelow⟩ := deal_position cols c p (q1 ++ rest) t hc
    rw [← hcolumns] at hat hbelow
    have hnotin : t.id ∉ p.map Tile.id := by
      intro hmem
      rw [List.map_append, List.map_cons] at hids
      exact (List.nodup_append.mp hids).2.2 hmem (List.mem_cons_self _ _)
    have hnotsel : isSelectedId gs t.id = false := by
      rw [Bool.eq_false_iff]
      intro h
      obtain ⟨u, hu, hid⟩ := (isSelectedId_iff _ _).mp h
      rw [hsel] at hu
      exact hnotin (List.mem_map.mpr ⟨u, hu, hid⟩)
    have hclick : handleTileClick gs t ct i = { gs with selectedTiles := p ++ [t] } := by
      unfold handleTileClick
      rw [hproc, hsel]
      simp
    refine ClickRun.click gs t q1 _ ct i hproc hat
      (getTileStatus_active_intro gs t ct i hnotsel ?_) ?_
    · intro j hj
      obtain ⟨b, hb, hbat⟩ := hbelow j hj
      exact ⟨b, hbat, (isSelectedId_iff _ _).mpr ⟨b, by rw [hsel]; exact hb, rfl⟩⟩
    · rw [hclick]
      have hrun := ih { gs with selectedTiles := p ++ [t] } (p ++ [t])
        (by simpa using hcolumns) rfl hproc (by simpa using hids)
      simpa using hrun

theorem handleInputPanelClick_target (dictionary : List Word) (gs : GameState)
    (hproc : gs.isProcessing = false) (hne : currentWord gs ≠ [])
    (htarget : currentWord gs ∈ gs.targetWords) (hnf : currentWord gs ∉ gs.foundWords)
    (hnh : currentWord gs ∉ gs.hiddenWords) :
    ∃ confirmed, handleInputPanelClick dictionary gs = (confirmed, some Timer.foundCommit)
      ∧ confirmed.columns = gs.columns ∧ confirmed.selectedTiles = gs.selectedTiles
      ∧ confirmed.foundWords = gs.foundWords ++ [currentWord gs]
      ∧ confirmed.targetWords = gs.targetWords ∧ confirmed.hiddenWords = gs.hiddenWords := by
  have hlen : ¬ (currentWord gs).length = 0 := by
    intro h
    exact hne (List.length_eq_zero.mp h)
  unfold handleInputPanelClick checkWordMatch
  rw [if_neg (by rw [hproc]; simp)]
  dsimp only
  rw [if_neg hlen, if_neg (by simp [hnf, hnh]), if_pos (by simp [htarget]),
    if_pos ⟨htarget, hnf⟩]
  exact ⟨_, rfl, rfl, rfl, rfl, rfl, rfl⟩

theorem runTimer_foundCommit_fields (gs : GameState) :
    (runTimer Timer.foundCommit gs).columns
        = gs.columns.map (fun col => col.filter (fun t => !isSelectedId gs t.id))
      ∧ (runTimer Timer.foundCommit gs).selectedTiles = []
      ∧ (runTimer Timer.foundCommit gs).isProcessing = false
      ∧ (runTimer Timer.foundCommit gs).foundWords = gs.foundWords
      ∧ (runTimer Timer.foundCommit gs).targetWords = gs.targetWords
      ∧ (runTimer Timer.foundCommit gs).hiddenWords = gs.hiddenWords :=
  ⟨removeSelectedTiles_columns gs, rfl, rfl, rfl, rfl, rfl⟩

theorem winRun_deal (dictionary : List Word) (cols : Nat) (groups : List (List Tile))
    (words : List Word) (c : Nat) (gs : GameState) (hc : c < cols)
    (hcolumns : gs.columns = deal cols c groups.flatten)
    (hsel : gs.selectedTiles = []) (hproc : gs.isProcessing = false)
    (hids : (groups.flatten.map Tile.id).Nodup)
    (hchars : groups.map (fun group => group.map Tile.char) = words)
    (hnodup : words.Nodup)
    (hwords : ∀ w ∈ words,
      w ≠ [] ∧ w ∈ gs.targetWords ∧ w ∉ gs.foundWords ∧ w ∉ gs.hiddenWords) :
    ∃ final, WinRun dictionary gs words groups final
      ∧ (∀ col ∈ final.columns, col = [])
      ∧ final.foundWords = gs.foundWords ++ words
      ∧ final.targetWords = gs.targetWords := by
  induction groups generalizing words c gs with
  | nil =>
    subst hchars
    refine ⟨gs, WinRun.done gs, ?_, by simp, rfl⟩
    intro col hcol
    rw [hcolumns] at hcol
    exact (List.mem_replicate.mp hcol).2
  | cons g rest ih =>
    subst hchars
    rw [List.flatten_cons] at hcolumns hids
    rw [List.map_cons] at hnodup hwords
    obtain ⟨hwne, hwt, hwnf, hwnh⟩ := hwords _ (List.mem_cons_self _ _)
    have hclicks := clickRun_deal cols c gs [] g rest.flatten hc
      (by simpa using hcolumns) hsel hproc (by simpa using hids)
    rw [List.nil_append] at hclicks
    obtain ⟨confirmed, hconfirm, hccols, hcsel, hcfound, hctarget, hchidden⟩ :=
      handleInputPanelClick_target dictionary { gs with selectedTiles := g } hproc
        hwne hwt hwnf hwnh
    obtain ⟨hncols, hnsel, hnproc, hnfound, hntarget, hnhidden⟩ :=
      runTimer_foundCommit_fields confirmed
    have hdisj : ∀ t ∈ g, ∀ u ∈ rest.flatten, t.id ≠ u.id := by
      intro t ht u hu hid
      rw [List.map_append] at hids
      exact (List.nodup_append.mp hids).2.2 (List.mem_map.mpr ⟨t, ht, rfl⟩)
        (List.mem_map.mpr ⟨u, hu, hid.symm⟩)
    have hnext : (runTimer Timer.foundCommit confirmed).columns
        = deal cols ((nextCol cols)^[g.length] c) rest.flatten := by
      rw [hncols, hccols]
      simp only
      rw [hcolumns]
      apply deal_filter cols c g rest.flatten _ hc
      · intro t ht
        have hs : isSelectedId confirmed t.id = true :=
          (isSelectedId_iff _ _).mpr ⟨t, by rw [hcsel]; exact ht, rfl⟩
        simp [hs]
      · intro u hu
        have hs : isSelectedId confirmed u.id = false := by
          rw [Bool.eq_false_iff]
          intro h
          obtain ⟨t, ht, hid⟩ := (isSelectedId_iff _ _).mp h
          rw [hcsel] at ht
          exact hdisj t ht u hu hid
        simp [hs]
    have hc1 := nextCol_iterate_lt cols c g.length hc
    obtain ⟨final, hrun, hfcols, hffound, hftarget⟩ :=
      ih (rest.map (fun group => group.map Tile.char)) ((nextCol cols)^[g.length] c)
        (runTimer Timer.foundCommit confirmed) hc1 hnext hnsel hnproc
        (List.nodup_append.mp (by simpa using hids)).2.1 rfl (List.nodup_cons.mp hnodup).2
        (by
          intro w hw
          obtain ⟨h1, h2, h3, h4⟩ := hwords w (List.mem_cons_of_mem _ hw)
          refine ⟨h1, by rw [hntarget, hctarget]; exact h2, ?_,
            by rw [hnhidden, hchidden]; exact h4⟩
          rw [hnfound, hcfound]
          intro hmem
          rcases List.mem_append.mp hmem with hm | hm
          · exact h3 hm
          · have hweq : w = g.map Tile.char := by simpa [currentWord] using hm
            rw [hweq] at hw
            exact (List.nodup_cons.mp hnodup).1 hw)
    refine ⟨final, WinRun.word gs _ confirmed final _ _ g rest hclicks rfl hconfirm ?_ hrun,
      hfcols, ?_, ?_⟩
    · intro t ht col hcol htcol
      rw [hnext] at hcol
      have hmem : t ∈ rest.flatten :=
        (deal_flatten_perm cols _ rest.flatten hc1).subset
          (List.mem_flatten.mpr ⟨col, hcol, htcol⟩)
      exact hdisj t ht t hmem rfl
    · rw [hffound, hnfound, hcfound]
      simp [currentWord]
    · rw [hftarget, hntarget, hctarget]

/-- C22: a level generated with linear placement and direct letter order on empty
columns, for pairwise distinct non-empty target words and `cols ≥ 1`, can be won
whenever the generated tile ids are pairwise distinct: generation completes, and
the generated tiles, taken in order of creation, split into one group per target
word, in target order, such that each group spells its word, each tile of the group
is on the board with status ACTIVE at the moment it is clicked, the assembled word
is that target word, Confirm starts the target-word branch and its continuation
removes the group from the board; after the last word every column is empty and
`foundWords.length` equals `targetWords.length`. -/
theorem linear_direct_winnable (config : LevelConfig) (dictionary : List Word)
    (gs : GameState) (r : Rand)
    (hcols : 1 ≤ config.cols) (horder : config.order = some "linear")
    (hletters : orDefault config.letters "direct" = "direct")
    (hnodup : gs.targetWords.Nodup) (hne : ∀ w ∈ gs.targetWords, w ≠ [])
    (hempty : gs.columns = List.replicate config.cols [])
    (hfound : gs.foundWords = []) (hhidden : gs.hiddenWords = [])
    (hsel : gs.selectedTiles = []) (hproc : gs.isProcessing = false)
    (hids : TileIdsDistinct
      (outcome (generateLevelWithWords config gs.targetWords gs r)).1.columns) :
    ∃ (res : GameState × Rand) (groups : List (List Tile)) (final : GameState),
      generateLevelWithWords config gs.targetWords gs r = .ok res
        ∧ groups.flatten
            = linearTiles config.cols
                (collectLetters gs.targetWords (orDefault config.letters "direct")
                  gs.targetWords r).1 0
                (collectLetters gs.targetWords (orDefault config.letters "direct")
                  gs.targetWords r).2
        ∧ groups.map (fun group => group.map Tile.char) = gs.targetWords
        ∧ WinRun dictionary res.1 gs.targetWords groups final
        ∧ (∀ col ∈ final.columns, col = [])
        ∧ final.foundWords.length = final.targetWords.length := by
  have hlin : orDefault config.order "random" = "linear" := by
    rw [horder]
    decide
  have hc : 0 < config.cols := by omega
  have hdirect := collectLetters_direct gs.targetWords gs.targetWords r
  rw [← hletters] at hdirect
  obtain ⟨hchars, -⟩ := hdirect
  obtain ⟨r1, hloop⟩ := linearLoop_deal config.cols 0
    (collectLetters gs.targetWords (orDefault config.letters "direct")
            gs.targetWords r).1 [] 0 0
    (collectLetters gs.targetWords (orDefault config.letters "direct")
            gs.targetWords r).2 hc rfl
  rw [List.nil_append] at hloop
  have hdeal0 : deal config.cols 0 [] = gs.columns := by rw [hempty]; rfl
  rw [hdeal0] at hloop
  have hgen : generateLevelWithWords config gs.targetWords gs r
      = .ok ({ gs with columns := deal config.cols 0 (linearTiles config.cols
          (collectLetters gs.targetWords (orDefault config.letters "direct")
            gs.targetWords r).1 0
          (collectLetters gs.targetWords (orDefault config.letters "direct")
            gs.targetWords r).2) }, r1) := by
    unfold generateLevelWithWords placeLetters
    simp only [hlin, if_true, hloop]
  rw [hgen] at hids
  simp only [outcome] at hids
  obtain ⟨groups, hflat, hgchars⟩ := groups_of_chars gs.targetWords
    (linearTiles config.cols (collectLetters gs.targetWords (orDefault config.letters "direct")
            gs.targetWords r).1 0
      (collectLetters gs.targetWords (orDefault config.letters "direct")
            gs.targetWords r).2)
    (by rw [linearTiles_chars, hchars])
  have hidsFlat : (groups.flatten.map Tile.id).Nodup := by
    rw [hflat]
    unfold TileIdsDistinct at hids
    exact ((deal_flatten_perm config.cols 0 _ hc).map Tile.id).nodup_iff.mp hids
  obtain ⟨final, hrun, hfcols, hffound, hftarget⟩ := winRun_deal dictionary config.cols groups
    gs.targetWords 0
    { gs with columns := deal config.cols 0 (linearTiles config.cols
        (collectLetters gs.targetWords (orDefault config.letters "direct")
            gs.targetWords r).1 0
        (collectLetters gs.targetWords (orDefault config.letters "direct")
            gs.targetWords r).2) }
    hc (by rw [hflat]) hsel hproc hidsFlat hgchars hnodup
    (by
      intro w hw
      refine ⟨hne w hw, hw, ?_, ?_⟩
      · show w ∉ gs.foundWords
        rw [hfound]
        simp
      · show w ∉ gs.hiddenWords
        rw [hhidden]
        simp)
  refine ⟨_, groups, final, hgen, hflat, hgchars, hrun, hfcols, ?_⟩
  rw [hffound, hftarget]
  show (gs.foundWords ++ gs.targetWords).length = gs.targetWords.length
  rw [hfound, List.nil_append]

/-- The two-word level КОТ, ПЕС on two columns under the draws `k ↦ k` is won by
selecting К, О, Т, confirming, then П, Е, С, confirming. -/
theorem linear_direct_winnable_witness :
    ∃ (res : GameState × Rand) (groups : List (List Tile)) (final : GameState),
      generateLevelWithWords kotPesLevel kotPesStart.targetWords kotPesStart (fun k => k)
          = .ok res
        ∧ groups.map (fun group => group.map Tile.char) = [['К', 'О', 'Т'], ['П', 'Е', 'С']]
        ∧ WinRun kotPesDictionary res.1 kotPesStart.targetWords groups final
        ∧ (∀ col ∈ final.columns, col = [])
        ∧ final.foundWords.length = final.targetWords.length := by
  obtain ⟨res, groups, final, hres, -, hchars, hrun, hcols, hlen⟩ :=
    linear_direct_winnable kotPesLevel kotPesDictionary kotPesStart (fun k => k)
      (by decide) rfl (by decide) (by decide) (by decide) rfl rfl rfl rfl rfl
      (by unfold TileIdsDistinct; decide)
  exact ⟨res, groups, final, hres, hchars, hrun, hcols, hlen⟩

end Fillwords
